import Mathlib

/-!
# Min-max heap (`esote/minmaxheap`): embedding and verification

The Go package implements the min-max heap of Atkinson et al. over any
`heap.Interface`.  The embedding below fixes the container to the slice-backed
one that every test of the repository uses (`intHeap`, `myHeap`, `IntHeap`),
generalised over the element type and the comparison: a container is a
`List α` together with `lt : α → α → Bool`, and

* `h.Len()`        is `Len h`,
* `h.Less(i, j)`   is `Less lt h i j`  (faults when an index is out of range),
* `h.Swap(i, j)`   is `Swap h i j`     (faults when an index is out of range),
* `h.Push(x)`      is `Append h x`,
* `h.Pop()`        is `Pop h`          (faults on the empty slice).

Indices are natural numbers.  Go's `int` arithmetic agrees with them as long as
nothing overflows (the source leaves overflow as a TODO) and as long as no
index is negative; the only negative index the source can form is `n-1` for
`n = 0`, where the slice is empty and the truncated index `0` is out of range
just as `-1` is.

Loops are modelled by structural recursion on a fuel argument; running out of
fuel is reported as `Fault.outOfFuel`, distinct from the run-time panic
`Fault.indexOutOfRange`.
-/

namespace MinMaxHeap

/-! ## Definitions -/

/-- Ways in which an operation of the embedding can fail to return. -/
inductive Fault where
  | indexOutOfRange
  | outOfFuel
  deriving DecidableEq, Repr

/-- Result of a fallible operation. -/
inductive Res (β : Type) where
  | ok (val : β)
  | fault (f : Fault)
  deriving DecidableEq, Repr

/-- Sequencing of fallible operations. -/
def Res.bind {β γ : Type} : Res β → (β → Res γ) → Res γ
  | .ok v, f => f v
  | .fault e, _ => .fault e

instance : Monad Res where
  pure := Res.ok
  bind := Res.bind

/-- Read `h[i]`, panicking when `i` is out of range. -/
def index {α : Type} (h : List α) (i : Nat) : Res α :=
  match h[i]? with
  | some a => .ok a
  | none => .fault .indexOutOfRange

/-- Go `bits.Len`: number of bits needed to represent `x` (`0` for `x = 0`),
computed with `fuel` halvings at most. -/
def bitsLenAux : Nat → Nat → Nat
  | 0, _ => 0
  | fuel + 1, x => if x = 0 then 0 else bitsLenAux fuel (x / 2) + 1

/-- Go `bits.Len` (fuel `x` is always enough). -/
def bitsLen (x : Nat) : Nat := bitsLenAux x x

/-- `level(i) = bits.Len(uint(i)+1) - 1`. -/
def level (i : Nat) : Nat := bitsLen (i + 1) - 1

/-- `isMinLevel(i) = level(i)%2 == 0`. -/
def isMinLevel (i : Nat) : Bool := level i % 2 == 0

/-- `parent(i) = (i - 1) / 2`. -/
def parent (i : Nat) : Nat := (i - 1) / 2

/-- `hasParent(i) = i > 0`. -/
def hasParent (i : Nat) : Bool := decide (i > 0)

/-- `hasGrandparent(i) = i > 2`. -/
def hasGrandparent (i : Nat) : Bool := decide (i > 2)

/-- `lchild(i) = i*2 + 1`. -/
def lchild (i : Nat) : Nat := i * 2 + 1

/-- `rchild(i) = i*2 + 2`. -/
def rchild (i : Nat) : Nat := i * 2 + 2

/-- `hasChildren(i, n) = lchild(i) < n`. -/
def hasChildren (i n : Nat) : Bool := decide (lchild i < n)

section Container

variable {α : Type}

/-- `h.Len()` of the slice-backed container. -/
def Len (h : List α) : Nat := h.length

/-- `h.Less(i, j)`: `h[i] < h[j]`. -/
def Less (lt : α → α → Bool) (h : List α) (i j : Nat) : Res Bool := do
  let a ← index h i
  let b ← index h j
  pure (lt a b)

/-- `h.Swap(i, j)`: `h[i], h[j] = h[j], h[i]`. -/
def Swap (h : List α) (i j : Nat) : Res (List α) := do
  let a ← index h i
  let b ← index h j
  pure ((h.set i b).set j a)

/-- `h.Push(x)` of the container: `*h = append(*h, x)`. -/
def Append (h : List α) (x : α) : List α := h ++ [x]

/-- `h.Pop()` of the container: `x := old[n-1]; *h = old[:n-1]; return x`. -/
def Pop (h : List α) : Res (α × List α) := do
  let n := h.length
  let x ← index h (n - 1)
  pure (x, h.take (n - 1))

end Container

section Algorithms

variable {α : Type} (lt : α → α → Bool)

/-- The inner loop of `downMinMax`,
`for j := lchild(lchild(i)); j < n && j <= rchild(rchild(i)); j++`,
started at `j` with the current candidate `m` and flag `child`. -/
def scanGrandchildren (h : List α) (n : Nat) (min : Bool) (i : Nat) :
    Nat → Nat → Nat → Bool → Res (Nat × Bool)
  | 0, _, _, _ => .fault .outOfFuel
  | fuel + 1, j, m, child =>
    if j < n ∧ j ≤ rchild (rchild i) then do
      let b ← Less lt h j m
      if b == min then
        scanGrandchildren h n min i fuel (j + 1) j false
      else
        scanGrandchildren h n min i fuel (j + 1) m child
    else
      pure (m, child)

/-- `downMinMax(h, m, n, min)`; every evaluation of the loop condition takes
one unit of fuel. -/
def downMinMax : Nat → List α → Nat → Nat → Bool → Res (List α)
  | 0, _, _, _, _ => .fault .outOfFuel
  | fuel + 1, h, m, n, min =>
    if hasChildren m n then do
      let i := m
      -- min of children
      let m := lchild i
      let m ← (if rchild i < n then do
                let b ← Less lt h (rchild i) m
                pure (if b == min then rchild i else m)
              else pure m)
      -- min of grandchildren
      let (m, child) ← scanGrandchildren lt h n min i 5 (lchild (lchild i)) m true
      let b ← Less lt h m i
      if b != min then
        pure h
      else do
        let h ← Swap h m i
        if child then
          pure h
        else do
          let b ← Less lt h (parent m) m
          let h ← (if b == min then Swap h m (parent m) else pure h)
          downMinMax fuel h m n min
    else
      pure h

/-- `down(h, i, n)`.  The index grows in every iteration and stays below
`n`, so `n + 1` units of fuel are enough. -/
def down (h : List α) (i n : Nat) : Res (List α) :=
  downMinMax lt (n + 1) h i n (isMinLevel i)

/-- `upMinMax(h, i, min)`; every evaluation of the loop condition takes one
unit of fuel. -/
def upMinMax : Nat → List α → Nat → Bool → Res (List α)
  | 0, _, _, _ => .fault .outOfFuel
  | fuel + 1, h, i, min =>
    if hasGrandparent i then do
      let b ← Less lt h i (parent (parent i))
      if b == min then do
        let h ← Swap h i (parent (parent i))
        upMinMax fuel h (parent (parent i)) min
      else
        pure h
    else
      pure h

/-- `up(h, i)`.  The index shrinks in every iteration, so `i + 1` units of
fuel are enough. -/
def up (h : List α) (i : Nat) : Res (List α) := do
  let min := isMinLevel i
  let viol ← (if hasParent i then do
                let b ← Less lt h i (parent i)
                pure (b != min)
              else pure false)
  if viol then do
    let h ← Swap h i (parent i)
    upMinMax lt (i + 1) h (parent i) (!min)
  else
    upMinMax lt (i + 1) h i min

/-- The loop of `Init`, `for i := n/2 - 1; i >= 0; i--`, with `k = i + 1`
iterations still to run. -/
def initLoop (n : Nat) : Nat → List α → Res (List α)
  | 0, h => pure h
  | k + 1, h => do
    let h ← down lt h k n
    initLoop n k h

/-- `Init(h)`. -/
def Init (h : List α) : Res (List α) :=
  let n := Len h
  initLoop lt n (n / 2) h

/-- `Push(h, x)`. -/
def Push (h : List α) (x : α) : Res (List α) :=
  let h := Append h x
  up lt h (Len h - 1)

/-- `PopMin(h)`. -/
def PopMin (h : List α) : Res (α × List α) := do
  let n := Len h
  let h ← Swap h 0 (n - 1)
  let h ← down lt h 0 (n - 1)
  Pop h

/-- `PopMax(h)`. -/
def PopMax (h : List α) : Res (α × List α) := do
  let n := Len h
  if n ≤ 2 then
    Pop h
  else do
    let i := lchild 0
    let b ← Less lt h (rchild 0) i
    let i := if !b then rchild 0 else i
    let h ← Swap h i (n - 1)
    let h ← down lt h i (n - 1)
    Pop h

end Algorithms

/-- The comparison of the integer heaps of the tests: `h[i] < h[j]`. -/
def intLt (a b : Int) : Bool := decide (a < b)

/-! ### Specification vocabulary -/

section Specification

variable {α : Type}

/-- A strict weak ordering: irreflexive, transitive, and incomparability is
transitive. -/
structure StrictWeak (lt : α → α → Bool) : Prop where
  irrefl : ∀ a, lt a a = false
  trans : ∀ a b c, lt a b = true → lt b c = true → lt a c = true
  incomp : ∀ a b c, lt a b = false → lt b a = false → lt b c = false → lt c b = false →
    lt a c = false ∧ lt c a = false

/-- The order a level of kind `min` asks for between an element `a` on it and
an element `b` below it: on a min level `b` is not less than `a`, on a max
level `a` is not less than `b`. -/
def above (lt : α → α → Bool) (min : Bool) (a b : α) : Bool :=
  if min then !lt b a else !lt a b

/-- Index `j` is a child (`2i+1`, `2i+2`) or a grandchild (`4i+3 .. 4i+6`) of `i`. -/
def isChildOrGrandchild (i j : Nat) : Bool :=
  (decide (lchild i ≤ j) && decide (j ≤ rchild i)) ||
    (decide (lchild (lchild i) ≤ j) && decide (j ≤ rchild (rchild i)))

/-- The invariant between the positions `i` and `j` of `h` (true when one of them
is out of range). -/
def holdsAt (lt : α → α → Bool) (h : List α) (i j : Nat) : Bool :=
  match h[i]?, h[j]? with
  | some a, some b => above lt (isMinLevel i) a b
  | _, _ => true

/-- The min-max invariant condition of index `i`, restricted to indices below `n`:
on an even level no child or grandchild is less than element `i`, on an odd level
element `i` is not less than any child or grandchild. -/
def InvAt (lt : α → α → Bool) (h : List α) (n i : Nat) : Prop :=
  ∀ j, j < n → isChildOrGrandchild i j = true → holdsAt lt h i j = true

/-- The min-max invariant of a whole container. -/
def MinMaxInv (lt : α → α → Bool) (h : List α) : Prop :=
  ∀ i, i < h.length → InvAt lt h h.length i

instance (lt : α → α → Bool) (h : List α) (n i : Nat) : Decidable (InvAt lt h n i) := by
  unfold InvAt; infer_instance

instance (lt : α → α → Bool) (h : List α) : Decidable (MinMaxInv lt h) := by
  unfold MinMaxInv; infer_instance

/-- `Sub i j`: index `j` lies in the subtree rooted at index `i`. -/
inductive Sub : Nat → Nat → Prop where
  | refl (i : Nat) : Sub i i
  | left {i j : Nat} : Sub i j → Sub i (lchild j)
  | right {i j : Nat} : Sub i j → Sub i (rchild j)

/-- The invariant of index `k` against all of its descendants below `n`. -/
def DeepAt (lt : α → α → Bool) (h : List α) (n k : Nat) : Prop :=
  ∀ d, Sub k d → d ≠ k → d < n → holdsAt lt h k d = true

/-- The element `y` at index `b` is the pick of one round of `downMinMax` at
index `i`: a child or grandchild of `i` below `n` which, for a strict weak
ordering, is above (for the kind `min`) every child and grandchild below `n`. -/
def IsBest (lt : α → α → Bool) (h : List α) (n : Nat) (min : Bool) (i b : Nat) (y : α) : Prop :=
  b < n ∧ isChildOrGrandchild i b = true ∧ h[b]? = some y ∧
    (StrictWeak lt → ∀ k v, k < n → isChildOrGrandchild i k = true → h[k]? = some v →
      above lt min y v = true)

/-- The runs of `downMinMax(h, m, n, min)` as a relation between the container
before and after: one rule per way through the loop body. -/
inductive DownRel (lt : α → α → Bool) (n : Nat) (min : Bool) : List α → Nat → List α → Prop where
  | leaf {h : List α} {m : Nat} : ¬ lchild m < n → DownRel lt n min h m h
  | stop {h : List α} {m b : Nat} {x y : α} : lchild m < n → h[m]? = some x →
      IsBest lt h n min m b y → (lt y x == min) = false → DownRel lt n min h m h
  | child {h : List α} {m b : Nat} {x y : α} : lchild m < n → h[m]? = some x →
      IsBest lt h n min m b y → (lt y x == min) = true → b ≤ rchild m →
      DownRel lt n min h m ((h.set b x).set m y)
  | grand {h h1 h2 h3 : List α} {m b : Nat} {x y z : α} : lchild m < n → h[m]? = some x →
      IsBest lt h n min m b y → (lt y x == min) = true → lchild (lchild m) ≤ b →
      h1 = (h.set b x).set m y → h1[parent b]? = some z →
      ((lt z x == min) = true ∧ h2 = (h1.set b z).set (parent b) x) ∨
        ((lt z x == min) = false ∧ h2 = h1) →
      DownRel lt n min h2 b h3 → DownRel lt n min h m h3

/-- State of the selection of `downMinMax` after the candidates below index `j`
have been looked at. -/
def PartBest (lt : α → α → Bool) (h : List α) (n : Nat) (min : Bool) (i j m : Nat) (v : α)
    (child : Bool) : Prop :=
  m < n ∧ isChildOrGrandchild i m = true ∧ h[m]? = some v ∧
    (child = true → m ≤ rchild i) ∧ (child = false → lchild (lchild i) ≤ m) ∧
    (StrictWeak lt → ∀ k w, k < n → k < j → isChildOrGrandchild i k = true → h[k]? = some w →
      above lt min v w = true)

/-- The element `a` is above (for the kind `min`) every element of the subtree of `k`
below `n`. -/
def Dominates (lt : α → α → Bool) (h : List α) (n : Nat) (min : Bool) (k : Nat) (a : α) : Prop :=
  ∀ d, Sub k d → d < n → ∀ v, h[d]? = some v → above lt min a v = true

/-- The element at `k` is above, for the kind of its level, every element of its
subtree below `n`. -/
def GoodAt (lt : α → α → Bool) (h : List α) (n k : Nat) : Prop :=
  ∀ a, h[k]? = some a → Dominates lt h n (isMinLevel k) k a

/-- The invariant between an index `a` and an index `d` below it, on the elements. -/
def Pair (lt : α → α → Bool) (h : List α) (a d : Nat) : Prop :=
  ∀ va vd, h[a]? = some va → h[d]? = some vd → above lt (isMinLevel a) va vd = true

/-- Every index is in order with each of its proper descendants below `n`. -/
def AllPairs (lt : α → α → Bool) (h : List α) (n : Nat) : Prop :=
  ∀ a d, Sub a d → a ≠ d → d < n → Pair lt h a d

/-- State of the loop of `upMinMax` at index `i` on levels of kind `mu`: every index is
in order with each of its proper descendants below `n`, except possibly the ancestors
of `i` on levels of kind `mu` with `i` itself. -/
def AllBut (lt : α → α → Bool) (h : List α) (n i : Nat) (mu : Bool) : Prop :=
  ∀ a d, Sub a d → a ≠ d → d < n → (d = i → isMinLevel a ≠ mu) → Pair lt h a d

/-- The `k` calls `pop(h)` in a row (`pop` is `PopMin` or `PopMax`), as the drain loops
of the tests make them: the popped elements in order, and the container left. -/
def popAll (pop : List α → Res (α × List α)) : Nat → List α → Res (List α × List α)
  | 0, h => pure ([], h)
  | k + 1, h => do
    let (x, h) ← pop h
    let (out, h) ← popAll pop k h
    pure (x :: out, h)

/-- `Init` on the integers `xs`, then `PopMin` once for each element (`TestMin`,
`TestRandomSorted`). -/
def drainMin (xs : List Int) : Res (List Int × List Int) := do
  let h ← Init intLt xs
  popAll (PopMin intLt) (Len xs) h

/-- `Init` on the integers `xs`, then `PopMax` once for each element (`TestMax`,
`TestRandomSortedMax`). -/
def drainMax (xs : List Int) : Res (List Int × List Int) := do
  let h ← Init intLt xs
  popAll (PopMax intLt) (Len xs) h

/-- A call on an integer heap. -/
inductive Op where
  | push (x : Int)
  | popMin
  | popMax
  deriving DecidableEq, Repr

/-- Run a sequence of calls on the heap `h`: the popped elements in order, and the
container left. -/
def runHeap : List Op → List Int → Res (List Int × List Int)
  | [], h => pure ([], h)
  | Op.push x :: ops, h => do
    let h ← Push intLt h x
    runHeap ops h
  | Op.popMin :: ops, h => do
    let (y, h) ← PopMin intLt h
    let (out, h) ← runHeap ops h
    pure (y :: out, h)
  | Op.popMax :: ops, h => do
    let (y, h) ← PopMax intLt h
    let (out, h) ← runHeap ops h
    pure (y :: out, h)

/-- Reference double-ended priority queue, after the words of the specification: a
multiset of integers (a list read up to order) with extract-min.  `none` on the empty
multiset. -/
def refPopMin (s : List Int) : Option (Int × List Int) :=
  match s.min? with
  | some m => some (m, s.erase m)
  | none => none

/-- Reference extract-max; `none` on the empty multiset. -/
def refPopMax (s : List Int) : Option (Int × List Int) :=
  match s.max? with
  | some m => some (m, s.erase m)
  | none => none

/-- Run a sequence of calls on the reference multiset `s`: the extracted elements in
order, and the multiset left; `none` when a pop meets the empty multiset. -/
def runRef : List Op → List Int → Option (List Int × List Int)
  | [], s => some ([], s)
  | Op.push x :: ops, s => runRef ops (x :: s)
  | Op.popMin :: ops, s => do
    let (y, s) ← refPopMin s
    let (out, s) ← runRef ops s
    pure (y :: out, s)
  | Op.popMax :: ops, s => do
    let (y, s) ← refPopMax s
    let (out, s) ← runRef ops s
    pure (y :: out, s)

/-- `Init` on the integers `xs`, then the calls `ops` (`Test`, `TestMax`, `Example`). -/
def runFromInit (xs : List Int) (ops : List Op) : Res (List Int × List Int) := do
  let h ← Init intLt xs
  runHeap ops h

/-- The calls of the loop of `Test` from its round `i` on, `k` rounds:
`PopMin`, then `Push(20+i)` while `i < 20`. -/
def testRounds : Nat → Nat → List Op
  | 0, _ => []
  | k + 1, i =>
    if i < 20 then Op.popMin :: Op.push (20 + (i : Int)) :: testRounds k (i + 1)
    else Op.popMin :: testRounds k (i + 1)

/-- The calls of `Test` after its `Init`: `Push(10), …, Push(1)`, then the 39 rounds
of its loop. -/
def testOps : List Op :=
  [Op.push 10, Op.push 9, Op.push 8, Op.push 7, Op.push 6, Op.push 5, Op.push 4, Op.push 3,
    Op.push 2, Op.push 1] ++ testRounds 39 1

/-- Modelled from the spec: `Remove(h, i)`, which the source leaves as a TODO (the
repository holds only its tests).  After §4.8 of the specification: swap index `i` with
the last index `n-1`; truncate the sequence; if `i < n-1`, restore order at `i` by
sift-down followed by sift-up; return the removed element. -/
def Remove (lt : α → α → Bool) (h : List α) (i : Nat) : Res (α × List α) := do
  let n := Len h
  let h ← Swap h i (n - 1)
  let (x, h) ← Pop h
  if i < n - 1 then do
    let h ← down lt h i (Len h)
    let h ← up lt h i
    pure (x, h)
  else
    pure (x, h)

/-- Key/payload pairs ordered by key: elements that compare equal need not be
identical. -/
def ltKey (a b : Int × Int) : Bool := decide (a.1 < b.1)

/-- `level` on machine words of `w` bits: `uint(i)+1` wraps around modulo `2^w`. -/
def levelWord (w i : Nat) : Nat := bitsLen ((i + 1) % 2 ^ w) - 1

/-- A Go `int` of `w` bits: the integer `z` reduced to the range
`-2^(w-1) .. 2^(w-1) - 1` (two's complement wrap-around). -/
def wrapInt (w : Nat) (z : Int) : Int := (z + 2 ^ (w - 1)) % 2 ^ w - 2 ^ (w - 1)

/-- `lchild(i) = i*2 + 1` on `int`s of `w` bits: the product and the sum each wrap
around. -/
def lchildInt (w : Nat) (i : Int) : Int := wrapInt w (wrapInt w (i * 2) + 1)

/-- `rchild(i) = i*2 + 2` on `int`s of `w` bits: the product and the sum each wrap
around. -/
def rchildInt (w : Nat) (i : Int) : Int := wrapInt w (wrapInt w (i * 2) + 2)

/-- `parent(i) = (i - 1) / 2` on `int`s of `w` bits; Go's division truncates toward
zero. -/
def parentInt (w : Nat) (i : Int) : Int := wrapInt w (Int.tdiv (wrapInt w (i - 1)) 2)

/-- `level(i) = bits.Len(uint(i)+1) - 1` on `int`s of `w` bits: `uint(i)` is `i` modulo
`2^w`, and the addition wraps around modulo `2^w`. -/
def levelInt (w : Nat) (i : Int) : Int :=
  ((bitsLen ((i % 2 ^ w + 1) % 2 ^ w).toNat : Nat) : Int) - 1

/-- `isMinLevel(i) = level(i)%2 == 0` on `int`s of `w` bits; Go's remainder has the sign
of the dividend. -/
def isMinLevelInt (w : Nat) (i : Int) : Bool := Int.tmod (levelInt w i) 2 == 0

/-- The ordering that `myHeap.verify` of `heap_test.go` checks: every element is in order
with each of its children (on a min level no child is less than it, on a max level it is
less than no child).  Grandchildren are not compared with their grandparents. -/
def ChildInv (lt : α → α → Bool) (h : List α) : Prop :=
  ∀ j, j < h.length → 0 < j → holdsAt lt h (parent j) j = true

instance (lt : α → α → Bool) (h : List α) : Decidable (ChildInv lt h) := by
  unfold ChildInv; infer_instance

/-- State of the loop of `upMinMax` at index `j` on levels of kind `nu`, as far as the
children are concerned: for every index `r` between the root and `j` that is on a level
of kind `nu` and has a grandparent, the grandparent of `r` is above every child of `r`. -/
def GrandAbove (lt : α → α → Bool) (s : List α) (j : Nat) (nu : Bool) : Prop :=
  ∀ r c, Sub r j → isMinLevel r = nu → 2 < r → 0 < c → parent c = r →
    ∀ vg vc, s[parent (parent r)]? = some vg → s[c]? = some vc → above lt nu vg vc = true


/-- State between the sift-down and the sift-up of `Remove` at index `i`: every index is
in order with each of its proper descendants other than `i`, except possibly an ancestor
of `i` on a level of the other kind with the indices below `i`. -/
def AfterDown (lt : α → α → Bool) (s : List α) (i : Nat) : Prop :=
  ∀ a d, Sub a d → a ≠ d → d ≠ i → (Sub i d → Sub i a ∨ isMinLevel a = isMinLevel i) →
    Pair lt s a d


end Specification

/-! ## Theorems -/

section Order

variable {α : Type} {lt : α → α → Bool}

theorem StrictWeak.asymm (sw : StrictWeak lt) {a b : α} (hab : lt a b = true) :
    lt b a = false := by
  cases hba : lt b a with
  | false => rfl
  | true =>
    have := sw.trans a b a hab hba
    rw [sw.irrefl a] at this
    exact absurd this (by decide)

/-- Negative transitivity: `a ≤ b` and `b ≤ c` give `a ≤ c`. -/
theorem StrictWeak.le_trans (sw : StrictWeak lt) {a b c : α} (hba : lt b a = false)
    (hcb : lt c b = false) : lt c a = false := by
  cases hca : lt c a with
  | false => rfl
  | true =>
    exfalso
    cases hab : lt a b with
    | true =>
      have := sw.trans c a b hca hab
      rw [hcb] at this
      exact absurd this (by decide)
    | false =>
      cases hbc : lt b c with
      | true =>
        have := sw.trans b c a hbc hca
        rw [hba] at this
        exact absurd this (by decide)
      | false =>
        have := (sw.incomp a b c hab hba hbc hcb).2
        rw [hca] at this
        exact absurd this (by decide)

theorem above_refl (sw : StrictWeak lt) (min : Bool) (a : α) : above lt min a a = true := by
  cases min <;> simp [above, sw.irrefl]

theorem above_trans (sw : StrictWeak lt) {min : Bool} {a b c : α}
    (hab : above lt min a b = true) (hbc : above lt min b c = true) :
    above lt min a c = true := by
  cases min
  · simp only [above, Bool.false_eq_true, if_false, Bool.not_eq_true'] at *
    exact sw.le_trans hbc hab
  · simp only [above, if_true, Bool.not_eq_true'] at *
    exact sw.le_trans hab hbc

theorem above_flip (min : Bool) (a b : α) : above lt (!min) a b = above lt min b a := by
  cases min <;> simp [above]

/-- A test `Less(x, y) == min` that succeeds puts `x` above `y`. -/
theorem above_of_test (sw : StrictWeak lt) {min : Bool} {a b : α}
    (ht : (lt a b == min) = true) : above lt min a b = true := by
  cases min
  · simp only [above, Bool.false_eq_true, if_false]
    simpa using ht
  · simp only [above, if_true]
    have : lt a b = true := by simpa using ht
    simp [sw.asymm this]

/-- A test `Less(x, y) == min` that fails puts `y` above `x`. -/
theorem above_of_not_test (sw : StrictWeak lt) {min : Bool} {a b : α}
    (ht : (lt a b == min) = false) : above lt min b a = true := by
  cases min
  · simp only [above, Bool.false_eq_true, if_false]
    have : lt a b = true := by simpa using ht
    simp [sw.asymm this]
  · simp only [above, if_true]
    simpa using ht

theorem holdsAt_iff (h : List α) (i j : Nat) :
    holdsAt lt h i j = true ↔
      ∀ a b, h[i]? = some a → h[j]? = some b → above lt (isMinLevel i) a b = true := by
  unfold holdsAt
  constructor
  · intro hh a b ha hb
    rw [ha, hb] at hh
    exact hh
  · intro hh
    split
    · next a b ha hb => exact hh a b ha hb
    · rfl

theorem strictWeak_intLt : StrictWeak intLt := by
  refine ⟨?_, ?_, ?_⟩
  · intro a; simp [intLt]
  · intro a b c; simp only [intLt, decide_eq_true_eq]; omega
  · intro a b c; simp only [intLt, decide_eq_false_iff_not]; omega

end Order

/-! ### Levels and the tree on indices -/

section Tree

theorem bitsLenAux_fuel : ∀ (x f g : Nat), x ≤ f → x ≤ g → bitsLenAux f x = bitsLenAux g x := by
  intro x
  induction x using Nat.strong_induction_on with
  | _ x ih =>
    intro f g hf hg
    cases f with
    | zero =>
      have hx : x = 0 := by omega
      subst hx
      cases g <;> simp [bitsLenAux]
    | succ f =>
      cases g with
      | zero =>
        have hx : x = 0 := by omega
        subst hx
        simp [bitsLenAux]
      | succ g =>
        simp only [bitsLenAux]
        by_cases hx : x = 0
        · simp [hx]
        · simp only [hx, if_false]
          rw [ih (x / 2) (by omega) f g (by omega) (by omega)]

theorem bitsLen_pos {x : Nat} (hx : 0 < x) : 0 < bitsLen x := by
  unfold bitsLen
  cases x with
  | zero => omega
  | succ x => simp [bitsLenAux]

theorem bitsLen_double (x b : Nat) (hx : 0 < x) (hb : b < 2) :
    bitsLen (2 * x + b) = bitsLen x + 1 := by
  unfold bitsLen
  have h1 : 2 * x + b = (2 * x + b - 1) + 1 := by omega
  rw [h1, bitsLenAux]
  have h2 : ¬ (2 * x + b - 1 + 1 = 0) := by omega
  simp only [h2, if_false]
  have h3 : (2 * x + b - 1 + 1) / 2 = x := by omega
  rw [h3, bitsLenAux_fuel x (2 * x + b - 1) x (by omega) (by omega)]

theorem level_lchild (i : Nat) : level (lchild i) = level i + 1 := by
  unfold level lchild
  have h := bitsLen_double (i + 1) 0 (by omega) (by omega)
  have hp := bitsLen_pos (show 0 < i + 1 by omega)
  have e : i * 2 + 1 + 1 = 2 * (i + 1) + 0 := by omega
  rw [e, h]
  omega

theorem level_rchild (i : Nat) : level (rchild i) = level i + 1 := by
  unfold level rchild
  have h := bitsLen_double (i + 1) 1 (by omega) (by omega)
  have hp := bitsLen_pos (show 0 < i + 1 by omega)
  have e : i * 2 + 2 + 1 = 2 * (i + 1) + 1 := by omega
  rw [e, h]
  omega

theorem isMinLevel_lchild (i : Nat) : isMinLevel (lchild i) = !isMinLevel i := by
  unfold isMinLevel
  rw [level_lchild]
  rcases Nat.mod_two_eq_zero_or_one (level i) with h | h <;>
    simp [Nat.add_mod, h]

theorem isMinLevel_rchild (i : Nat) : isMinLevel (rchild i) = !isMinLevel i := by
  unfold isMinLevel
  rw [level_rchild]
  rcases Nat.mod_two_eq_zero_or_one (level i) with h | h <;>
    simp [Nat.add_mod, h]

theorem isMinLevel_zero : isMinLevel 0 = true := by decide

/-- Every index other than the root is the left or the right child of its parent. -/
theorem child_of_parent {j : Nat} (hj : 0 < j) :
    j = lchild (parent j) ∨ j = rchild (parent j) := by
  unfold lchild rchild parent
  omega

theorem isMinLevel_parent {j : Nat} (hj : 0 < j) :
    isMinLevel (parent j) = !isMinLevel j := by
  rcases child_of_parent hj with h | h
  · have := isMinLevel_lchild (parent j)
    rw [← h] at this
    rw [this]; simp
  · have := isMinLevel_rchild (parent j)
    rw [← h] at this
    rw [this]; simp

theorem Sub.le {i j : Nat} (s : Sub i j) : i ≤ j := by
  induction s with
  | refl => exact Nat.le_refl _
  | left _ ih => unfold lchild; omega
  | right _ ih => unfold rchild; omega

theorem Sub.trans {i j k : Nat} (s : Sub i j) (t : Sub j k) : Sub i k := by
  induction t with
  | refl => exact s
  | left _ ih => exact Sub.left ih
  | right _ ih => exact Sub.right ih

/-- A proper descendant of `i` lies below the left or the right child of `i`. -/
theorem Sub.below_child {i j : Nat} (s : Sub i j) :
    j = i ∨ Sub (lchild i) j ∨ Sub (rchild i) j := by
  induction s with
  | refl => exact Or.inl rfl
  | left _ ih =>
    rcases ih with h | h | h
    · subst h; exact Or.inr (Or.inl (Sub.refl _))
    · exact Or.inr (Or.inl (Sub.left h))
    · exact Or.inr (Or.inr (Sub.left h))
  | right _ ih =>
    rcases ih with h | h | h
    · subst h; exact Or.inr (Or.inr (Sub.refl _))
    · exact Or.inr (Or.inl (Sub.right h))
    · exact Or.inr (Or.inr (Sub.right h))

/-- The parent of a proper descendant of `i` is still in the subtree of `i`. -/
theorem Sub.parent_mem {i j : Nat} (s : Sub i j) (hne : j ≠ i) : Sub i (parent j) := by
  cases s with
  | refl => exact absurd rfl hne
  | @left k t =>
    have : parent (lchild k) = k := by unfold parent lchild; omega
    rw [this]; exact t
  | @right k t =>
    have : parent (rchild k) = k := by unfold parent rchild; omega
    rw [this]; exact t

theorem Sub.of_parent {i j : Nat} (hj : 0 < j) (s : Sub i (parent j)) : Sub i j := by
  rcases child_of_parent hj with h | h
  · rw [h]; exact Sub.left s
  · rw [h]; exact Sub.right s

/-- Two ancestors of the same index are comparable. -/
theorem Sub.comparable {a b d : Nat} (s : Sub a d) (t : Sub b d) : Sub a b ∨ Sub b a := by
  induction d using Nat.strong_induction_on with
  | _ d ih =>
    by_cases h1 : d = a
    · subst h1; exact Or.inr t
    · by_cases h2 : d = b
      · subst h2; exact Or.inl s
      · have hd : 0 < d := by
          have := s.le
          omega
        have hp : parent d < d := by unfold parent; omega
        exact ih (parent d) hp (s.parent_mem h1) (t.parent_mem h2)

theorem Sub.root (j : Nat) : Sub 0 j := by
  induction j using Nat.strong_induction_on with
  | _ j ih =>
    by_cases h : j = 0
    · subst h; exact Sub.refl 0
    · have hp : parent j < j := by unfold parent; omega
      exact Sub.of_parent (by omega) (ih (parent j) hp)

end Tree

/-! ### Running the container operations -/

section Run

variable {α : Type} {lt : α → α → Bool}

@[simp]
theorem ok_bind {β γ : Type} (v : β) (f : β → Res γ) : (Res.ok v >>= f) = f v := rfl

@[simp]
theorem fault_bind {β γ : Type} (e : Fault) (f : β → Res γ) :
    (Res.fault e >>= f) = Res.fault e := rfl

@[simp]
theorem pure_eq_ok {β : Type} (v : β) : (pure v : Res β) = Res.ok v := rfl

theorem get_of_lt {h : List α} {k : Nat} (hk : k < h.length) : ∃ v, h[k]? = some v :=
  ⟨h[k], List.getElem?_eq_getElem hk⟩

theorem lt_of_get {h : List α} {k : Nat} {v : α} (hk : h[k]? = some v) : k < h.length := by
  rcases Nat.lt_or_ge k h.length with hl | hl
  · exact hl
  · rw [List.getElem?_eq_none hl] at hk
    exact absurd hk (by simp)

theorem index_ok {h : List α} {i : Nat} {a : α} (ha : h[i]? = some a) : index h i = .ok a := by
  simp [index, ha]

theorem index_fault {h : List α} {i : Nat} (hi : h.length ≤ i) :
    index h i = .fault .indexOutOfRange := by
  simp [index, List.getElem?_eq_none hi]

theorem Less_ok {h : List α} {i j : Nat} {a b : α} (ha : h[i]? = some a) (hb : h[j]? = some b) :
    Less lt h i j = .ok (lt a b) := by
  simp [Less, index_ok ha, index_ok hb]

theorem Swap_ok {h : List α} {i j : Nat} {a b : α} (ha : h[i]? = some a) (hb : h[j]? = some b) :
    Swap h i j = .ok ((h.set i b).set j a) := by
  simp [Swap, index_ok ha, index_ok hb]

/-- Reading a container after an exchange of the elements `a` at `i` and `b` at `j`. -/
theorem get_swap {h : List α} {i j : Nat} {a b : α} (ha : h[i]? = some a)
    (hb : h[j]? = some b) (k : Nat) :
    ((h.set i b).set j a)[k]? = if k = j then some a else if k = i then some b else h[k]? := by
  have hi := lt_of_get ha
  have hj := lt_of_get hb
  rw [List.getElem?_set, List.getElem?_set]
  by_cases h1 : j = k
  · subst h1; simp [hj]
  · by_cases h2 : i = k
    · subst h2
      have h3 : ¬ i = j := fun e => h1 e.symm
      simp [h1, h3, hi]
    · have h3 : ¬ k = j := fun e => h1 e.symm
      have h4 : ¬ k = i := fun e => h2 e.symm
      simp [h1, h2, h3, h4]

theorem length_swap (h : List α) (i j : Nat) (a b : α) :
    ((h.set i b).set j a).length = h.length := by
  simp

theorem set_perm_cons_eraseIdx : ∀ (h : List α) (i : Nat) (a b : α), h[i]? = some a →
    (h.set i b).Perm (b :: h.eraseIdx i) := by
  intro h
  induction h with
  | nil => intro i a b ha; simp at ha
  | cons c t ih =>
    intro i a b ha
    cases i with
    | zero => simp
    | succ i =>
      simp only [List.getElem?_cons_succ] at ha
      simp only [List.set_cons_succ, List.eraseIdx_cons_succ]
      exact ((ih i a b ha).cons c).trans (List.Perm.swap b c _)

theorem set_self_of_get : ∀ (h : List α) (i : Nat) (a : α), h[i]? = some a → h.set i a = h := by
  intro h
  induction h with
  | nil => intro i a ha; simp
  | cons c t ih =>
    intro i a ha
    cases i with
    | zero =>
      simp only [List.getElem?_cons_zero, Option.some.injEq] at ha
      simp [ha]
    | succ i =>
      simp only [List.getElem?_cons_succ] at ha
      simp [ih i a ha]

/-- Exchanging two elements permutes the container. -/
theorem perm_swap {h : List α} {i j : Nat} {a b : α} (ha : h[i]? = some a)
    (hb : h[j]? = some b) : ((h.set i b).set j a).Perm h := by
  by_cases hij : i = j
  · subst hij
    rw [List.set_set, set_self_of_get h i a ha]
  · have hb1 : (h.set i b)[j]? = some b := by
      rw [List.getElem?_set_ne hij]; exact hb
    have p1 := set_perm_cons_eraseIdx (h.set i b) j b a hb1
    have p2 := set_perm_cons_eraseIdx (h.set i b) j b b hb1
    rw [set_self_of_get _ j b hb1] at p2
    have p3 := set_perm_cons_eraseIdx h i a b ha
    have p4 := set_perm_cons_eraseIdx h i a a ha
    rw [set_self_of_get _ i a ha] at p4
    have p5 : ((h.set i b).eraseIdx j).Perm (h.eraseIdx i) :=
      (List.perm_cons b).1 (p2.symm.trans p3)
    exact p1.trans ((p5.cons a).trans p4.symm)

end Run

/-! ### Sift-down: the runs of `downMinMax` and what they preserve -/

section Down

variable {α : Type} {lt : α → α → Bool}

theorem pickChild_ok (lt : α → α → Bool) (h : List α) (n : Nat) (min : Bool) (i : Nat) (hn : n ≤ h.length)
    (hc : lchild i < n) :
    ∃ m v, (if rchild i < n then (do
              let b ← Less lt h (rchild i) (lchild i)
              pure (if b == min then rchild i else lchild i))
            else (pure (lchild i) : Res Nat)) = .ok m ∧
      PartBest lt h n min i (lchild (lchild i)) m v true := by
  obtain ⟨vl, hvl⟩ := get_of_lt (show lchild i < h.length by omega)
  by_cases hr : rchild i < n
  · obtain ⟨vr, hvr⟩ := get_of_lt (show rchild i < h.length by omega)
    simp only [hr, if_true, Less_ok hvr hvl, ok_bind, pure_eq_ok]
    cases ht : (lt vr vl == min)
    · refine ⟨lchild i, vl, by simp, hc, ?_, hvl, fun _ => ?_, fun hf => by simp at hf, ?_⟩
      · simp [isChildOrGrandchild, lchild, rchild]
      · simp [lchild, rchild]
      · intro sw k w hk hkj hcand hw
        have hk2 : k = lchild i ∨ k = rchild i := by
          simp only [isChildOrGrandchild, lchild, rchild, Bool.or_eq_true, Bool.and_eq_true,
            decide_eq_true_eq] at hcand hkj
          simp only [lchild, rchild]
          omega
        rcases hk2 with e | e
        · subst e; rw [hvl] at hw; cases hw; exact above_refl sw _ _
        · subst e; rw [hvr] at hw; cases hw; exact above_of_not_test sw ht
    · refine ⟨rchild i, vr, by simp, hr, ?_, hvr, fun _ => ?_, fun hf => by simp at hf, ?_⟩
      · simp [isChildOrGrandchild, lchild, rchild]
      · simp
      · intro sw k w hk hkj hcand hw
        have hk2 : k = lchild i ∨ k = rchild i := by
          simp only [isChildOrGrandchild, lchild, rchild, Bool.or_eq_true, Bool.and_eq_true,
            decide_eq_true_eq] at hcand hkj
          simp only [lchild, rchild]
          omega
        rcases hk2 with e | e
        · subst e; rw [hvl] at hw; cases hw; exact above_of_test sw ht
        · subst e; rw [hvr] at hw; cases hw; exact above_refl sw _ _
  · simp only [hr, if_false, pure_eq_ok]
    refine ⟨lchild i, vl, rfl, hc, ?_, hvl, fun _ => ?_, fun hf => by simp at hf, ?_⟩
    · simp [isChildOrGrandchild, lchild, rchild]
    · simp [lchild, rchild]
    · intro sw k w hk hkj hcand hw
      have hk2 : k = lchild i := by
        simp only [isChildOrGrandchild, lchild, rchild, Bool.or_eq_true, Bool.and_eq_true,
          decide_eq_true_eq] at hcand hkj hr
        simp only [lchild, rchild]
        omega
      subst hk2; rw [hvl] at hw; cases hw; exact above_refl sw _ _

theorem scanGrandchildren_ok (h : List α) (n : Nat) (min : Bool) (i : Nat)
    (hn : n ≤ h.length) :
    ∀ (fuel j m : Nat) (child : Bool) (v : α), lchild (lchild i) ≤ j →
      j ≤ rchild (rchild i) + 1 → rchild (rchild i) + 2 ≤ j + fuel →
      PartBest lt h n min i j m v child →
      ∃ m1 c1 v1, scanGrandchildren lt h n min i fuel j m child = .ok (m1, c1) ∧
        PartBest lt h n min i (rchild (rchild i) + 1) m1 v1 c1 := by
  intro fuel
  induction fuel with
  | zero => intro j m child v h1 h2 h3; omega
  | succ fuel ih =>
    intro j m child v h1 h2 h3 hp
    obtain ⟨hmn, hmc, hmv, hc1, hc2, hbest⟩ := hp
    unfold scanGrandchildren
    by_cases hj : j < n ∧ j ≤ rchild (rchild i)
    · obtain ⟨w, hw⟩ := get_of_lt (show j < h.length by omega)
      have hjc : isChildOrGrandchild i j = true := by
        simp only [isChildOrGrandchild, Bool.or_eq_true, Bool.and_eq_true, decide_eq_true_eq]
        exact Or.inr ⟨h1, hj.2⟩
      simp only [hj, and_self, if_true, Less_ok hw hmv, ok_bind]
      cases ht : (lt w v == min)
      · simp only [Bool.false_eq_true, if_false]
        refine ih (j + 1) m child v (by omega) (by omega) (by omega)
          ⟨hmn, hmc, hmv, hc1, hc2, ?_⟩
        intro sw k u hk hkj hcand hu
        by_cases e : k = j
        · subst e; rw [hw] at hu; cases hu; exact above_of_not_test sw ht
        · exact hbest sw k u hk (by omega) hcand hu
      · simp only [if_true]
        refine ih (j + 1) j false w (by omega) (by omega) (by omega)
          ⟨hj.1, hjc, hw, fun hf => by simp at hf, fun _ => h1, ?_⟩
        intro sw k u hk hkj hcand hu
        by_cases e : k = j
        · subst e; rw [hw] at hu; cases hu; exact above_refl sw _ _
        · exact above_trans sw (above_of_test sw ht) (hbest sw k u hk (by omega) hcand hu)
    · simp only [hj, if_false, pure_eq_ok]
      refine ⟨m, child, v, rfl, hmn, hmc, hmv, hc1, hc2, ?_⟩
      intro sw k u hk hkj hcand hu
      refine hbest sw k u hk ?_ hcand hu
      simp only [isChildOrGrandchild, lchild, rchild, Bool.or_eq_true, Bool.and_eq_true,
        decide_eq_true_eq] at hcand
      simp only [lchild, rchild] at hj h1 h2 hkj
      omega

theorem PartBest.isBest {h : List α} {n : Nat} {min : Bool} {i m : Nat} {v : α} {c : Bool}
    (hp : PartBest lt h n min i (rchild (rchild i) + 1) m v c) : IsBest lt h n min i m v := by
  obtain ⟨hmn, hmc, hmv, _, _, hbest⟩ := hp
  refine ⟨hmn, hmc, hmv, ?_⟩
  intro sw k w hk hcand hw
  refine hbest sw k w hk ?_ hcand hw
  simp only [isChildOrGrandchild, lchild, rchild, Bool.or_eq_true, Bool.and_eq_true,
    decide_eq_true_eq] at hcand
  simp only [lchild, rchild]
  omega

/-- With enough fuel `downMinMax` returns, and its run is one of `DownRel`. -/
theorem downMinMax_rel (n : Nat) (min : Bool) :
    ∀ (fuel : Nat) (h : List α) (m : Nat), n ≤ h.length → n - m < fuel →
      ∃ h1, downMinMax lt fuel h m n min = .ok h1 ∧ DownRel lt n min h m h1 := by
  intro fuel
  induction fuel with
  | zero => intro h m hn hf; omega
  | succ fuel ih =>
    intro h m hn hf
    unfold downMinMax
    by_cases hc : lchild m < n
    · have hm : m < h.length := by unfold lchild at hc; omega
      obtain ⟨x, hx⟩ := get_of_lt hm
      obtain ⟨m0, v0, e0, p0⟩ := pickChild_ok lt h n min m hn hc
      obtain ⟨b, c, y, e1, p1⟩ := scanGrandchildren_ok h n min m hn 5 (lchild (lchild m)) m0 true v0
        (Nat.le_refl _) (by unfold lchild rchild; omega) (by unfold lchild rchild; omega) p0
      have hbest := p1.isBest
      obtain ⟨hbn, hbc, hby, hc1, hc2, _⟩ := p1
      simp only [hasChildren, hc, decide_True, if_true]
      rw [e0]
      simp only [ok_bind]
      rw [e1]
      simp only [ok_bind, Less_ok hby hx]
      cases ht : (lt y x == min)
      · have : (lt y x != min) = true := by
          cases hl : lt y x <;> cases min <;> simp_all
        simp only [this, if_true, pure_eq_ok]
        exact ⟨h, rfl, DownRel.stop hc hx hbest ht⟩
      · have : (lt y x != min) = false := by
          cases hl : lt y x <;> cases min <;> simp_all
        simp only [this, Bool.false_eq_true, if_false, Swap_ok hby hx, ok_bind]
        cases c
        · simp only [Bool.false_eq_true, if_false]
          have hgb := hc2 rfl
          have hpb : parent b < h.length := by unfold parent; omega
          have hlen1 : ((h.set b x).set m y).length = h.length := length_swap h b m y x
          obtain ⟨z, hz⟩ := get_of_lt (show parent b < ((h.set b x).set m y).length by omega)
          have hb1 : ((h.set b x).set m y)[b]? = some x := by
            rw [get_swap hby hx]
            have : ¬ b = m := by unfold lchild at hgb; omega
            simp [this]
          simp only [Less_ok hz hb1]
          have hfu : n - b < fuel := by unfold lchild at hgb; omega
          cases ht2 : (lt z x == min)
          · simp only [ht2, Bool.false_eq_true, if_false, pure_eq_ok, ok_bind]
            obtain ⟨h3, e3, r3⟩ := ih ((h.set b x).set m y) b (by omega) hfu
            exact ⟨h3, e3, DownRel.grand hc hx hbest ht hgb rfl hz (Or.inr ⟨ht2, rfl⟩) r3⟩
          · simp only [ht2, if_true, Swap_ok hb1 hz, ok_bind]
            obtain ⟨h3, e3, r3⟩ := ih ((((h.set b x).set m y).set b z).set (parent b) x) b
              (by simp; omega) hfu
            exact ⟨h3, e3, DownRel.grand hc hx hbest ht hgb rfl hz (Or.inl ⟨ht2, rfl⟩) r3⟩
        · simp only [if_true, pure_eq_ok]
          exact ⟨_, rfl, DownRel.child hc hx hbest ht (hc1 rfl)⟩
    · simp only [hasChildren, hc, decide_False, Bool.false_eq_true, if_false, pure_eq_ok]
      exact ⟨h, rfl, DownRel.leaf hc⟩

theorem down_rel (lt : α → α → Bool) (h : List α) (i n : Nat) (hn : n ≤ h.length) :
    ∃ h1, down lt h i n = .ok h1 ∧ DownRel lt n (isMinLevel i) h i h1 :=
  downMinMax_rel n (isMinLevel i) (n + 1) h i hn (by omega)

theorem cand_bounds {i j : Nat} (hc : isChildOrGrandchild i j = true) :
    lchild i ≤ j ∧ j ≤ rchild (rchild i) := by
  simp only [isChildOrGrandchild, lchild, rchild, Bool.or_eq_true, Bool.and_eq_true,
    decide_eq_true_eq] at hc
  simp only [lchild, rchild]
  omega

theorem cand_of_child {i j : Nat} (h1 : lchild i ≤ j) (h2 : j ≤ rchild i) :
    isChildOrGrandchild i j = true := by
  simp only [isChildOrGrandchild, Bool.or_eq_true, Bool.and_eq_true, decide_eq_true_eq]
  exact Or.inl ⟨h1, h2⟩

theorem cand_of_grandchild {i j : Nat} (h1 : lchild (lchild i) ≤ j) (h2 : j ≤ rchild (rchild i)) :
    isChildOrGrandchild i j = true := by
  simp only [isChildOrGrandchild, Bool.or_eq_true, Bool.and_eq_true, decide_eq_true_eq]
  exact Or.inr ⟨h1, h2⟩

theorem Sub.antisymm {a b : Nat} (s : Sub a b) (t : Sub b a) : a = b :=
  Nat.le_antisymm s.le t.le

theorem Sub.child {i j : Nat} (h1 : lchild i ≤ j) (h2 : j ≤ rchild i) : Sub i j := by
  have : j = lchild i ∨ j = rchild i := by
    simp only [lchild, rchild] at *; omega
  rcases this with e | e
  · rw [e]; exact Sub.left (Sub.refl i)
  · rw [e]; exact Sub.right (Sub.refl i)

theorem parent_child {i j : Nat} (h1 : lchild i ≤ j) (h2 : j ≤ rchild i) : parent j = i := by
  simp only [lchild, rchild, parent] at *; omega

theorem parent_grandchild {i j : Nat} (h1 : lchild (lchild i) ≤ j) (h2 : j ≤ rchild (rchild i)) :
    lchild i ≤ parent j ∧ parent j ≤ rchild i := by
  simp only [lchild, rchild, parent] at *; omega

theorem Sub.grandchild {i j : Nat} (h1 : lchild (lchild i) ≤ j) (h2 : j ≤ rchild (rchild i)) :
    Sub i j := by
  have hp := parent_grandchild h1 h2
  have hj : 0 < j := by simp only [lchild] at h1; omega
  exact Sub.of_parent hj (Sub.child hp.1 hp.2)

theorem Sub.of_cand {i j : Nat} (hc : isChildOrGrandchild i j = true) : Sub i j := by
  simp only [isChildOrGrandchild, Bool.or_eq_true, Bool.and_eq_true, decide_eq_true_eq] at hc
  rcases hc with ⟨h1, h2⟩ | ⟨h1, h2⟩
  · exact Sub.child h1 h2
  · exact Sub.grandchild h1 h2

theorem isMinLevel_child {i j : Nat} (h1 : lchild i ≤ j) (h2 : j ≤ rchild i) :
    isMinLevel j = !isMinLevel i := by
  have : j = lchild i ∨ j = rchild i := by
    simp only [lchild, rchild] at *; omega
  rcases this with e | e
  · rw [e, isMinLevel_lchild]
  · rw [e, isMinLevel_rchild]

theorem isMinLevel_grandchild {i j : Nat} (h1 : lchild (lchild i) ≤ j)
    (h2 : j ≤ rchild (rchild i)) : isMinLevel j = isMinLevel i := by
  have hp := parent_grandchild h1 h2
  have hj : 0 < j := by simp only [lchild] at h1; omega
  have e1 := isMinLevel_parent hj
  have e2 := isMinLevel_child hp.1 hp.2
  rw [e2] at e1
  cases hi : isMinLevel i <;> cases hjj : isMinLevel j <;> simp_all

/-- A proper descendant of `i` is a child of `i`, a grandchild of `i`, or a proper
descendant of a grandchild of `i`. -/
theorem Sub.below_grandchild {i j : Nat} (s : Sub i j) (hne : j ≠ i) :
    isChildOrGrandchild i j = true ∨
      ∃ g, lchild (lchild i) ≤ g ∧ g ≤ rchild (rchild i) ∧ Sub g j ∧ j ≠ g := by
  have step : ∀ c, Sub c j → (lchild i ≤ c ∧ c ≤ rchild i) →
      isChildOrGrandchild i j = true ∨
        ∃ g, lchild (lchild i) ≤ g ∧ g ≤ rchild (rchild i) ∧ Sub g j ∧ j ≠ g := by
    intro c sc hc
    by_cases e1 : j = c
    · subst e1; exact Or.inl (cand_of_child hc.1 hc.2)
    · have hg : ∀ g, Sub g j → (lchild c ≤ g ∧ g ≤ rchild c) →
          isChildOrGrandchild i j = true ∨
            ∃ g, lchild (lchild i) ≤ g ∧ g ≤ rchild (rchild i) ∧ Sub g j ∧ j ≠ g := by
        intro g sg hgc
        have b1 : lchild (lchild i) ≤ g ∧ g ≤ rchild (rchild i) := by
          simp only [lchild, rchild] at *; omega
        by_cases e2 : j = g
        · subst e2; exact Or.inl (cand_of_grandchild b1.1 b1.2)
        · exact Or.inr ⟨g, b1.1, b1.2, sg, e2⟩
      rcases sc.below_child with e | t | t
      · exact absurd e e1
      · exact hg _ t ⟨Nat.le_refl _, by simp [lchild, rchild]⟩
      · exact hg _ t ⟨by simp [lchild, rchild], Nat.le_refl _⟩
  rcases s.below_child with e | t | t
  · exact absurd e hne
  · exact step _ t ⟨Nat.le_refl _, by simp [lchild, rchild]⟩
  · exact step _ t ⟨by simp [lchild, rchild], Nat.le_refl _⟩

/-- The container after the exchanges of one round of `downMinMax` that goes on at
the grandchild `b`. -/
theorem grand_shape {h h1 h2 : List α} {min : Bool} {m b : Nat} {x y z : α}
    (hx : h[m]? = some x) (hy : h[b]? = some y) (hgb : lchild (lchild m) ≤ b)
    (e1 : h1 = (h.set b x).set m y) (hz : h1[parent b]? = some z)
    (hcase : ((lt z x == min) = true ∧ h2 = (h1.set b z).set (parent b) x) ∨
        ((lt z x == min) = false ∧ h2 = h1)) :
    h[parent b]? = some z ∧ ∃ u w,
      ((u = x ∧ w = z ∧ (lt z x == min) = true) ∨ (u = z ∧ w = x ∧ (lt z x == min) = false)) ∧
      h2.length = h.length ∧ h2.Perm h ∧
      ∀ k, h2[k]? = if k = m then some y else if k = parent b then some u
        else if k = b then some w else h[k]? := by
  have hbm : ¬ b = m := by simp only [lchild] at hgb; omega
  have hpm : ¬ parent b = m := by simp only [lchild, parent] at *; omega
  have hpb : ¬ parent b = b := by simp only [lchild, parent] at *; omega
  have g1 : ∀ k, h1[k]? = if k = m then some y else if k = b then some x else h[k]? := by
    intro k; rw [e1]; exact get_swap hy hx k
  have hz0 : h[parent b]? = some z := by
    have := g1 (parent b)
    simp only [hpm, hpb, if_false] at this
    rw [← this]; exact hz
  have hb1 : h1[b]? = some x := by
    have := g1 b
    simpa [hbm] using this
  have l1 : h1.length = h.length := by rw [e1]; simp
  have p1 : h1.Perm h := by rw [e1]; exact perm_swap hy hx
  refine ⟨hz0, ?_⟩
  rcases hcase with ⟨ht, e2⟩ | ⟨ht, e2⟩
  · refine ⟨x, z, Or.inl ⟨rfl, rfl, ht⟩, by rw [e2]; simp [l1],
      by rw [e2]; exact (perm_swap hb1 hz).trans p1, ?_⟩
    intro k
    rw [e2, get_swap hb1 hz k, g1 k]
    by_cases k1 : k = m
    · subst k1
      have : ¬ k = parent b := fun e => hpm e.symm
      have hbk : ¬ k = b := fun e => hbm e.symm
      simp [this, hbk]
    · by_cases k2 : k = parent b
      · simp [k2, hpm]
      · by_cases k3 : k = b
        · have hbp : ¬ b = parent b := fun e => hpb e.symm
          simp [k3, hbm, hbp]
        · simp [k1, k2, k3]
  · refine ⟨z, x, Or.inr ⟨rfl, rfl, ht⟩, by rw [e2]; exact l1, by rw [e2]; exact p1, ?_⟩
    intro k
    rw [e2, g1 k]
    by_cases k1 : k = m
    · simp [k1]
    · by_cases k2 : k = parent b
      · subst k2; simp [hpm, hpb, hz0]
      · simp [k1, k2]

theorem DownRel.length_eq {n : Nat} {min : Bool} {h h1 : List α} {m : Nat}
    (r : DownRel lt n min h m h1) : h1.length = h.length := by
  induction r with
  | leaf _ => rfl
  | stop _ _ _ _ => rfl
  | child _ _ _ _ _ => simp
  | grand hc hx hb ht hgb e1 hz hcase _ ih =>
    obtain ⟨_, _, _, _, hl, _, _⟩ := grand_shape hx hb.2.2.1 hgb e1 hz hcase
    rw [ih, hl]

theorem DownRel.perm {n : Nat} {min : Bool} {h h1 : List α} {m : Nat}
    (r : DownRel lt n min h m h1) : h1.Perm h := by
  induction r with
  | leaf _ => exact List.Perm.refl _
  | stop _ _ _ _ => exact List.Perm.refl _
  | child _ hx hb _ _ => exact perm_swap hb.2.2.1 hx
  | grand hc hx hb ht hgb e1 hz hcase _ ih =>
    obtain ⟨_, _, _, _, _, hp, _⟩ := grand_shape hx hb.2.2.1 hgb e1 hz hcase
    exact ih.trans hp

/-- Sift-down changes nothing outside the subtree of `m` and nothing from `n` on. -/
theorem DownRel.frame {n : Nat} {min : Bool} {h h1 : List α} {m : Nat}
    (r : DownRel lt n min h m h1) : ∀ k, (¬ Sub m k ∨ n ≤ k) → h1[k]? = h[k]? := by
  induction r with
  | leaf _ => intro k _; rfl
  | stop _ _ _ _ => intro k _; rfl
  | @child h m b x y hc hx hb _ _ =>
    intro k hk
    obtain ⟨hbn, hbc, hby, _⟩ := hb
    rw [get_swap hby hx k]
    have hmb := (cand_bounds hbc).1
    have k1 : ¬ k = m := by
      rintro rfl
      rcases hk with hk | hk
      · exact hk (Sub.refl _)
      · simp only [lchild] at hc; omega
    have k2 : ¬ k = b := by
      rintro rfl
      rcases hk with hk | hk
      · exact hk (Sub.of_cand hbc)
      · omega
    simp [k1, k2]
  | @grand h h1 h2 h3 m b x y z hc hx hb ht hgb e1 hz hcase _ ih =>
    intro k hk
    obtain ⟨hbn, hbc, hby, _⟩ := hb
    obtain ⟨_, u, w, _, _, _, hg⟩ := grand_shape hx hby hgb e1 hz hcase
    have hb4 := (cand_bounds hbc).2
    have hpp := parent_grandchild hgb hb4
    have smb : Sub m b := Sub.of_cand hbc
    have k0 : ¬ Sub b k ∨ n ≤ k := by
      rcases hk with hk | hk
      · exact Or.inl (fun s => hk (smb.trans s))
      · exact Or.inr hk
    rw [ih k k0, hg k]
    have k1 : ¬ k = m := by
      rintro rfl
      rcases hk with hk | hk
      · exact hk (Sub.refl _)
      · simp only [lchild] at hc; omega
    have k2 : ¬ k = b := by
      rintro rfl
      rcases hk with hk | hk
      · exact hk smb
      · omega
    have k3 : ¬ k = parent b := by
      rintro rfl
      rcases hk with hk | hk
      · exact hk (Sub.child hpp.1 hpp.2)
      · simp only [parent] at hk; omega
    simp [k1, k2, k3]

/-- Every element that sift-down leaves in the subtree of `m` below `n` was in that
part of the container before. -/
theorem DownRel.values {n : Nat} {min : Bool} {h h1 : List α} {m : Nat}
    (r : DownRel lt n min h m h1) :
    ∀ k, Sub m k → k < n → ∃ j, Sub m j ∧ j < n ∧ h1[k]? = h[j]? := by
  induction r with
  | leaf _ => intro k s hk; exact ⟨k, s, hk, rfl⟩
  | stop _ _ _ _ => intro k s hk; exact ⟨k, s, hk, rfl⟩
  | @child h m b x y hc hx hb _ _ =>
    intro k s hk
    obtain ⟨hbn, hbc, hby, _⟩ := hb
    have hmn : m < n := by simp only [lchild] at hc; omega
    rw [get_swap hby hx k]
    by_cases k1 : k = m
    · exact ⟨b, Sub.of_cand hbc, hbn, by rw [if_pos k1, hby]⟩
    · by_cases k2 : k = b
      · exact ⟨m, Sub.refl _, hmn, by rw [if_neg k1, if_pos k2, hx]⟩
      · exact ⟨k, s, hk, by rw [if_neg k1, if_neg k2]⟩
  | @grand h h1 h2 h3 m b x y z hc hx hb ht hgb e1 hz hcase _ ih =>
    intro k s hk
    obtain ⟨hbn, hbc, hby, _⟩ := hb
    obtain ⟨hz0, u, w, huw, _, _, hg⟩ := grand_shape hx hby hgb e1 hz hcase
    have hb4 := (cand_bounds hbc).2
    have hpp := parent_grandchild hgb hb4
    have smb : Sub m b := Sub.of_cand hbc
    have smp : Sub m (parent b) := Sub.child hpp.1 hpp.2
    have hmn : m < n := by simp only [lchild] at hc; omega
    have hpn : parent b < n := by simp only [parent]; omega
    have h2v : ∀ k, Sub m k → k < n → ∃ j, Sub m j ∧ j < n ∧ h2[k]? = h[j]? := by
      intro k s hk
      rw [hg k]
      by_cases k1 : k = m
      · exact ⟨b, smb, hbn, by rw [if_pos k1, hby]⟩
      · by_cases k2 : k = parent b
        · rcases huw with ⟨eu, _, _⟩ | ⟨eu, _, _⟩
          · exact ⟨m, Sub.refl _, hmn, by rw [if_neg k1, if_pos k2, eu, hx]⟩
          · exact ⟨parent b, smp, hpn, by rw [if_neg k1, if_pos k2, eu, hz0]⟩
        · by_cases k3 : k = b
          · rcases huw with ⟨_, ew, _⟩ | ⟨_, ew, _⟩
            · exact ⟨parent b, smp, hpn, by rw [if_neg k1, if_neg k2, if_pos k3, ew, hz0]⟩
            · exact ⟨m, Sub.refl _, hmn, by rw [if_neg k1, if_neg k2, if_pos k3, ew, hx]⟩
          · exact ⟨k, s, hk, by rw [if_neg k1, if_neg k2, if_neg k3]⟩
    by_cases sb : Sub b k
    · obtain ⟨j, sj, hj, ej⟩ := ih k sb hk
      obtain ⟨j2, sj2, hj2, ej2⟩ := h2v j (smb.trans sj) hj
      exact ⟨j2, sj2, hj2, ej.trans ej2⟩
    · obtain ⟨j2, sj2, hj2, ej2⟩ := h2v k s hk
      exact ⟨j2, sj2, hj2, (DownRel.frame ‹DownRel lt n min h2 b h3› k (Or.inl sb)).trans ej2⟩

theorem deepAt_iff_goodAt (sw : StrictWeak lt) (h : List α) (n k : Nat) :
    DeepAt lt h n k ↔ GoodAt lt h n k := by
  constructor
  · intro hd a ha d s hdn v hv
    by_cases e : d = k
    · subst e; rw [ha] at hv; cases hv; exact above_refl sw _ _
    · exact (holdsAt_iff h k d).1 (hd d s e hdn) a v ha hv
  · intro hg d s _ hdn
    exact (holdsAt_iff h k d).2 (fun a b ha hb => hg a ha d s hdn b hb)

theorem goodAt_congr {h h1 : List α} {n k : Nat} (he : ∀ d, Sub k d → h1[d]? = h[d]?)
    (hg : GoodAt lt h n k) : GoodAt lt h1 n k := by
  intro a ha d s hdn v hv
  rw [he k (Sub.refl k)] at ha
  rw [he d s] at hv
  exact hg a ha d s hdn v hv

/-- An element that dominates the subtree of `k` still does so after a sift-down at
`b`, unless `k` lies strictly inside the subtree of `b`. -/
theorem dominates_down {n : Nat} {min mu : Bool} {h h1 : List α} {b k : Nat} {a : α}
    (r : DownRel lt n min h b h1) (hk : Sub k b ∨ ¬ Sub b k)
    (hd : Dominates lt h n mu k a) : Dominates lt h1 n mu k a := by
  intro d s hdn v hv
  by_cases sb : Sub b d
  · obtain ⟨j, sj, hj, ej⟩ := r.values d sb hdn
    have skb : Sub k b := by
      rcases hk with hk | hk
      · exact hk
      · rcases Sub.comparable s sb with c | c
        · exact c
        · exact absurd c hk
    rw [ej] at hv
    exact hd j (skb.trans sj) hj v hv
  · rw [r.frame d (Or.inl sb)] at hv
    exact hd d s hdn v hv

/-- The pick of a round is above every proper descendant of `m` below `n`. -/
theorem best_dominates (sw : StrictWeak lt) {h : List α} {n : Nat} {min : Bool} {m b : Nat}
    {y : α} (hb : IsBest lt h n min m b y) (hmin : min = isMinLevel m) (hn : n ≤ h.length)
    (pre : ∀ k, Sub m k → k ≠ m → GoodAt lt h n k) :
    ∀ d, Sub m d → d ≠ m → d < n → ∀ v, h[d]? = some v → above lt min y v = true := by
  intro d s hne hdn v hv
  obtain ⟨_, _, _, hext⟩ := hb
  rcases s.below_grandchild hne with hc | ⟨g, g1, g2, sg, hdg⟩
  · exact hext sw d v hdn hc hv
  · have hgn : g < n := Nat.lt_of_le_of_lt sg.le hdn
    obtain ⟨vg, hvg⟩ := get_of_lt (show g < h.length by omega)
    have a1 := hext sw g vg hgn (cand_of_grandchild g1 g2) hvg
    have hgm : g ≠ m := by
      intro e; subst e; simp only [lchild] at g1; omega
    have a2 := pre g (Sub.grandchild g1 g2) hgm vg hvg d sg hdn v hv
    rw [isMinLevel_grandchild g1 g2, ← hmin] at a2
    exact above_trans sw a1 a2

/-- An index of the subtree of `m` that has the child `c` of `m` below it is `m` or `c`. -/
theorem Sub.above_child {m c k : Nat} (h1 : lchild m ≤ c) (h2 : c ≤ rchild m) (sm : Sub m k)
    (sk : Sub k c) : k = m ∨ k = c := by
  by_cases e : k = c
  · exact Or.inr e
  · have := sk.parent_mem (fun e2 => e e2.symm)
    rw [parent_child h1 h2] at this
    exact Or.inl (Sub.antisymm this sm)

/-- An index of the subtree of `m` that has the grandchild `b` of `m` below it is `m`,
the parent of `b`, or `b`. -/
theorem Sub.above_grandchild {m b k : Nat} (h1 : lchild (lchild m) ≤ b)
    (h2 : b ≤ rchild (rchild m)) (sm : Sub m k) (sk : Sub k b) :
    k = m ∨ k = parent b ∨ k = b := by
  by_cases e : k = b
  · exact Or.inr (Or.inr e)
  · have hp := parent_grandchild h1 h2
    rcases Sub.above_child hp.1 hp.2 sm (sk.parent_mem (fun e2 => e e2.symm)) with c | c
    · exact Or.inl c
    · exact Or.inr (Or.inl c)

/-- Sift-down at `m` makes every index of the subtree of `m` good, when every index of
that subtree other than `m` was good before. -/
theorem DownRel.good (sw : StrictWeak lt) {n : Nat} {min : Bool} {h h1 : List α} {m : Nat}
    (r : DownRel lt n min h m h1) :
    min = isMinLevel m → n ≤ h.length → (∀ k, Sub m k → k ≠ m → GoodAt lt h n k) →
      ∀ k, Sub m k → GoodAt lt h1 n k := by
  induction r with
  | @leaf h m hc =>
    intro hmin hn pre k sk
    by_cases e : k = m
    · subst e
      intro a ha d s hdn v hv
      by_cases e2 : d = k
      · subst e2; rw [ha] at hv; cases hv; exact above_refl sw _ _
      · exfalso
        rcases s.below_child with c | c | c
        · exact e2 c
        · have := c.le; omega
        · have := c.le; simp only [lchild, rchild] at *; omega
    · exact pre k sk e
  | @stop h m b x y hc hx hb ht =>
    intro hmin hn pre k sk
    by_cases e : k = m
    · subst e
      intro a ha d s hdn v hv
      rw [hx] at ha; cases ha
      rw [← hmin]
      by_cases e2 : d = k
      · subst e2; rw [hx] at hv; cases hv; exact above_refl sw _ _
      · exact above_trans sw (above_of_not_test sw ht)
          (best_dominates sw hb hmin hn pre d s e2 hdn v hv)
    · exact pre k sk e
  | @child h m b x y hc hx hb ht hbr =>
    intro hmin hn pre k sk
    have hbd := best_dominates sw hb hmin hn pre
    obtain ⟨hbn, hbc, hby, _⟩ := hb
    have hbl := (cand_bounds hbc).1
    have smb : Sub m b := Sub.of_cand hbc
    have hbm : b ≠ m := by simp only [lchild] at hbl; omega
    have hg := get_swap hby hx
    by_cases e : k = m
    · subst e
      intro a ha d s hdn v hv
      rw [hg] at ha hv
      rw [if_pos rfl] at ha; cases ha
      rw [← hmin]
      by_cases d1 : d = k
      · rw [if_pos d1] at hv; cases hv; exact above_refl sw _ _
      · rw [if_neg d1] at hv
        by_cases d2 : d = b
        · rw [if_pos d2] at hv; cases hv; exact above_of_test sw ht
        · rw [if_neg d2] at hv
          exact hbd d s d1 hdn v hv
    · by_cases e2 : k = b
      · subst e2
        intro a ha d s hdn v hv
        rw [hg] at ha hv
        rw [if_neg e, if_pos rfl] at ha; cases ha
        rw [isMinLevel_child hbl hbr, ← hmin]
        have d1 : ¬ d = m := by
          intro e3; subst e3
          exact hbm (Sub.antisymm s smb)
        rw [if_neg d1] at hv
        by_cases d2 : d = k
        · rw [if_pos d2] at hv; cases hv; exact above_refl sw _ _
        · rw [if_neg d2] at hv
          have a1 := pre k smb hbm y hby d s hdn v hv
          rw [isMinLevel_child hbl hbr, ← hmin] at a1
          have a2 : above lt (!min) x y = true := by
            rw [above_flip]; exact above_of_test sw ht
          exact above_trans sw a2 a1
      · refine goodAt_congr ?_ (pre k sk e)
        intro d s
        rw [hg]
        have d1 : ¬ d = m := by
          intro e3; subst e3
          exact e (Sub.antisymm s sk)
        have d2 : ¬ d = b := by
          intro e3; subst e3
          rcases Sub.above_child hbl hbr sk s with c | c
          · exact e c
          · exact e2 c
        rw [if_neg d1, if_neg d2]
  | @grand h h1 h2 h3 m b x y z hc hx hb ht hgb e1 hz hcase r3 ih =>
    intro hmin hn pre k sk
    have hbd := best_dominates sw hb hmin hn pre
    obtain ⟨hbn, hbc, hby, _⟩ := hb
    obtain ⟨hz0, u, w, huw, hl2, _, hg⟩ := grand_shape hx hby hgb e1 hz hcase
    have hb4 := (cand_bounds hbc).2
    have hpp := parent_grandchild hgb hb4
    have smb : Sub m b := Sub.of_cand hbc
    have smp : Sub m (parent b) := Sub.child hpp.1 hpp.2
    have spb : Sub (parent b) b := by
      have hb0 : 0 < b := by simp only [lchild] at hgb; omega
      exact Sub.of_parent hb0 (Sub.refl _)
    have hmb : m < b := by simp only [lchild] at hgb; omega
    have hmp : m < parent b := by simp only [lchild] at hpp; omega
    have hpb : parent b < b := by simp only [lchild, parent] at *; omega
    have hpn : parent b < n := by omega
    have hminb : min = isMinLevel b := by rw [isMinLevel_grandchild hgb hb4]; exact hmin
    have pre2 : ∀ k, Sub b k → k ≠ b → GoodAt lt h2 n k := by
      intro k s hne
      have hbk : b < k := Nat.lt_of_le_of_ne s.le (fun e => hne e.symm)
      refine goodAt_congr ?_ (pre k (smb.trans s) (by omega))
      intro d sd
      have := sd.le
      rw [hg, if_neg (by omega), if_neg (by omega), if_neg (by omega)]
    have post := ih hminb (by omega) pre2
    by_cases sb : Sub b k
    · exact post k sb
    · intro a ha
      rw [r3.frame k (Or.inl sb)] at ha
      refine dominates_down r3 (Or.inr sb) ?_
      -- the values `x`, `z` and every element below `m` are dominated by `y`
      have dx : above lt min y x = true := above_of_test sw ht
      have dz : above lt min y z = true :=
        hbd (parent b) smp (by omega) hpn z hz0
      have du : above lt min y u = true := by
        rcases huw with ⟨eu, _, _⟩ | ⟨eu, _, _⟩
        · rw [eu]; exact dx
        · rw [eu]; exact dz
      have dw : above lt min y w = true := by
        rcases huw with ⟨_, ew, _⟩ | ⟨_, ew, _⟩
        · rw [ew]; exact dz
        · rw [ew]; exact dx
      have wu : above lt (!min) u w = true := by
        rw [above_flip]
        rcases huw with ⟨eu, ew, t⟩ | ⟨eu, ew, t⟩
        · rw [eu, ew]; exact above_of_test sw t
        · rw [eu, ew]; exact above_of_not_test sw t
      by_cases k1 : k = m
      · subst k1
        rw [hg, if_pos rfl] at ha; cases ha
        rw [← hmin]
        intro d s hdn v hv
        rw [hg] at hv
        by_cases d1 : d = k
        · rw [if_pos d1] at hv; cases hv; exact above_refl sw _ _
        · rw [if_neg d1] at hv
          by_cases d2 : d = parent b
          · rw [if_pos d2] at hv; cases hv; exact du
          · rw [if_neg d2] at hv
            by_cases d3 : d = b
            · rw [if_pos d3] at hv; cases hv; exact dw
            · rw [if_neg d3] at hv
              exact hbd d s d1 hdn v hv
      · by_cases k2 : k = parent b
        · subst k2
          rw [hg, if_neg k1, if_pos rfl] at ha; cases ha
          rw [isMinLevel_child hpp.1 hpp.2, ← hmin]
          intro d s hdn v hv
          rw [hg] at hv
          have d1 : ¬ d = m := by have := s.le; omega
          rw [if_neg d1] at hv
          by_cases d2 : d = parent b
          · rw [if_pos d2] at hv; cases hv; exact above_refl sw _ _
          · rw [if_neg d2] at hv
            by_cases d3 : d = b
            · rw [if_pos d3] at hv; cases hv; exact wu
            · rw [if_neg d3] at hv
              have a1 := pre (parent b) smp k1 z hz0 d s hdn v hv
              rw [isMinLevel_child hpp.1 hpp.2, ← hmin] at a1
              rcases huw with ⟨eu, _, t⟩ | ⟨eu, _, _⟩
              · rw [eu]
                have a2 : above lt (!min) x z = true := by
                  rw [above_flip]; exact above_of_test sw t
                exact above_trans sw a2 a1
              · rw [eu]; exact a1
        · have hgk : GoodAt lt h2 n k := by
            refine goodAt_congr ?_ (pre k sk k1)
            intro d s
            rw [hg]
            have d1 : ¬ d = m := by
              intro e3; subst e3
              exact k1 (Sub.antisymm s sk)
            have d2 : ¬ d = parent b := by
              intro e3; subst e3
              rcases Sub.above_child hpp.1 hpp.2 sk s with c | c
              · exact k1 c
              · exact k2 c
            have d3 : ¬ d = b := by
              intro e3; subst e3
              rcases Sub.above_grandchild hgb hb4 sk s with c | c | c
              · exact k1 c
              · exact k2 c
              · exact sb (c ▸ Sub.refl _)
            rw [if_neg d1, if_neg d2, if_neg d3]
          exact hgk a ha

end Down

/-! ### The invariant: children-and-grandchildren form and subtree form -/

section Invariant

variable {α : Type} {lt : α → α → Bool}

theorem invAt_of_goodAt {h : List α} {n k : Nat} (hg : GoodAt lt h n k) : InvAt lt h n k := by
  intro j hj hc
  exact (holdsAt_iff h k j).2 (fun a b ha hb => hg a ha j (Sub.of_cand hc) hj b hb)

/-- The condition on children and grandchildren, imposed on every index of the subtree
of `k`, puts the element at `k` above its whole subtree. -/
theorem goodAt_of_invAt (sw : StrictWeak lt) {h : List α} {n k : Nat} (hn : n ≤ h.length)
    (hloc : ∀ j, Sub k j → InvAt lt h n j) : GoodAt lt h n k := by
  intro a ha d
  induction d using Nat.strong_induction_on with
  | _ d ih =>
    intro s hdn v hv
    by_cases e : d = k
    · subst e; rw [ha] at hv; cases hv; exact above_refl sw _ _
    · have hkd : k < d := Nat.lt_of_le_of_ne s.le (fun e2 => e e2.symm)
      have sj : Sub k (parent d) := s.parent_mem e
      have hjd : parent d < d := by simp only [parent]; omega
      have cj : lchild (parent d) ≤ d ∧ d ≤ rchild (parent d) := by
        simp only [lchild, rchild, parent]; omega
      obtain ⟨vj, hvj⟩ := get_of_lt (show parent d < h.length by omega)
      have aj : above lt (isMinLevel (parent d)) vj v = true :=
        (holdsAt_iff h (parent d) d).1
          (hloc (parent d) sj d hdn (cand_of_child cj.1 cj.2)) vj v hvj hv
      by_cases e2 : parent d = k
      · rw [e2] at aj hvj
        rw [ha] at hvj; cases hvj
        exact aj
      · have hkj : k < parent d := Nat.lt_of_le_of_ne sj.le (fun e3 => e2 e3.symm)
        have sg : Sub k (parent (parent d)) := sj.parent_mem e2
        have hgd : parent (parent d) < d := by simp only [parent]; omega
        have cg : lchild (lchild (parent (parent d))) ≤ d ∧
            d ≤ rchild (rchild (parent (parent d))) := by
          simp only [lchild, rchild, parent] at *; omega
        obtain ⟨vg, hvg⟩ := get_of_lt (show parent (parent d) < h.length by omega)
        have ag : above lt (isMinLevel (parent (parent d))) vg v = true :=
          (holdsAt_iff h (parent (parent d)) d).1
            (hloc (parent (parent d)) sg d hdn (cand_of_grandchild cg.1 cg.2)) vg v hvg hv
        have kj : isMinLevel (parent d) = !isMinLevel d := isMinLevel_child cj.1 cj.2 ▸ by simp
        have kg : isMinLevel (parent (parent d)) = isMinLevel d :=
          (isMinLevel_grandchild cg.1 cg.2).symm
        by_cases ek : isMinLevel d = isMinLevel k
        · rw [kg, ek] at ag
          exact above_trans sw (ih _ hgd sg (by omega) vg hvg) ag
        · have : isMinLevel (parent d) = isMinLevel k := by
            rw [kj]
            cases hd1 : isMinLevel d <;> cases hk1 : isMinLevel k <;> simp_all
          rw [this] at aj
          exact above_trans sw (ih _ hjd sj (by omega) vj hvj) aj

theorem minMaxInv_iff_good (sw : StrictWeak lt) (h : List α) :
    MinMaxInv lt h ↔ ∀ k, GoodAt lt h h.length k := by
  constructor
  · intro hi k
    refine goodAt_of_invAt sw (Nat.le_refl _) ?_
    intro j _
    by_cases hj : j < h.length
    · exact hi j hj
    · intro d hd hc
      have := (cand_bounds hc).1
      simp only [lchild] at this
      omega
  · intro hg i _
    exact invAt_of_goodAt (hg i)

/-- An index without a child below `n` is good. -/
theorem goodAt_leaf (sw : StrictWeak lt) (h : List α) {n k : Nat} (hk : n ≤ lchild k) :
    GoodAt lt h n k := by
  intro a ha d s hdn v hv
  rcases s.below_child with c | c | c
  · subst c; rw [ha] at hv; cases hv; exact above_refl sw _ _
  · have := c.le; omega
  · have := c.le; simp only [lchild, rchild] at *; omega

end Invariant

/-! ### `Init` -/

section InitProofs

variable {α : Type} {lt : α → α → Bool}

theorem initLoop_spec (lt : α → α → Bool) (n : Nat) :
    ∀ (k : Nat) (h : List α), n = h.length →
      ∃ h1, initLoop lt n k h = .ok h1 ∧ h1.length = h.length ∧ h1.Perm h ∧
        (StrictWeak lt → (∀ j, k ≤ j → GoodAt lt h n j) → ∀ j, GoodAt lt h1 n j) := by
  intro k
  induction k with
  | zero =>
    intro h _
    exact ⟨h, rfl, rfl, List.Perm.refl _, fun _ hg j => hg j (Nat.zero_le _)⟩
  | succ k ih =>
    intro h hn
    obtain ⟨h1, e1, r1⟩ := down_rel lt h k n (by omega)
    obtain ⟨h2, e2, l2, p2, g2⟩ := ih h1 (by rw [r1.length_eq]; exact hn)
    refine ⟨h2, ?_, by rw [l2, r1.length_eq], p2.trans r1.perm, ?_⟩
    · simp only [initLoop, e1, ok_bind]
      exact e2
    · intro sw hg
      refine g2 sw ?_
      intro j hj
      by_cases sj : Sub k j
      · refine r1.good sw rfl (by omega) ?_ j sj
        intro i si hne
        have := si.le
        exact hg i (by omega)
      · have hkj : k < j := by
          rcases Nat.lt_or_ge k j with c | c
          · exact c
          · exfalso
            have : j = k := by omega
            exact sj (this ▸ Sub.refl _)
        refine goodAt_congr ?_ (hg j (by omega))
        intro d sd
        refine r1.frame d (Or.inl ?_)
        intro skd
        rcases Sub.comparable skd sd with c | c
        · exact sj c
        · have := c.le; omega

theorem Init_spec (lt : α → α → Bool) (h : List α) :
    ∃ h1, Init lt h = .ok h1 ∧ h1.length = h.length ∧ h1.Perm h ∧
      (StrictWeak lt → MinMaxInv lt h1) := by
  obtain ⟨h1, e1, l1, p1, g1⟩ := initLoop_spec lt h.length (h.length / 2) h rfl
  refine ⟨h1, e1, l1, p1, ?_⟩
  intro sw
  rw [minMaxInv_iff_good sw, l1]
  refine g1 sw ?_
  intro j hj
  refine goodAt_leaf sw h ?_
  simp only [lchild]
  omega

end InitProofs

/-! ### Removing the element at an index: `PopMin` and `PopMax` -/

section PopProofs

variable {α : Type} {lt : α → α → Bool}

theorem goodAt_congr_below {h h1 : List α} {n n1 k : Nat} (hn : n1 ≤ n)
    (he : ∀ d, Sub k d → d < n1 → h1[d]? = h[d]?) (hg : GoodAt lt h n k) :
    GoodAt lt h1 n1 k := by
  intro a ha d s hdn v hv
  have hk : k < n1 := Nat.lt_of_le_of_lt s.le hdn
  rw [he k (Sub.refl k) hk] at ha
  rw [he d s hdn] at hv
  exact hg a ha d s (by omega) v hv

theorem Pop_ok {h : List α} {x : α} (hx : h[h.length - 1]? = some x) :
    Pop h = .ok (x, h.take (h.length - 1)) ∧ (x :: h.take (h.length - 1)).Perm h := by
  refine ⟨by simp [Pop, index_ok hx], ?_⟩
  have hl := lt_of_get hx
  have e1 : h.drop (h.length - 1) = [x] := by
    rw [List.drop_eq_getElem_cons hl]
    have e2 : h.drop (h.length - 1 + 1) = [] := List.drop_eq_nil_of_le (by omega)
    rw [e2]
    have := (List.getElem?_eq_some.1 hx).2
    rw [this]
  have e3 := List.take_append_drop (h.length - 1) h
  rw [e1] at e3
  exact (List.perm_append_singleton x _).symm.trans (by rw [e3])

theorem Pop_fault_nil : Pop ([] : List α) = .fault .indexOutOfRange := by
  simp [Pop, index]

/-- The common body of `PopMin` and `PopMax`: exchange index `i` with the last index,
sift down from `i` over the first `n-1` elements, pop the last element. -/
theorem popAt_spec (lt : α → α → Bool) (h : List α) (i : Nat) (hi : i < h.length) :
    ∃ x h1, (do
        let h0 ← Swap h i (h.length - 1)
        let h0 ← down lt h0 i (h.length - 1)
        Pop h0) = Res.ok (x, h1) ∧ h[i]? = some x ∧ h1.length + 1 = h.length ∧
      (x :: h1).Perm h ∧
      (StrictWeak lt → i ≤ 2 → (∀ k, GoodAt lt h h.length k) →
        ∀ k, GoodAt lt h1 (h.length - 1) k) := by
  obtain ⟨a, ha⟩ := get_of_lt hi
  obtain ⟨b, hb⟩ := get_of_lt (show h.length - 1 < h.length by omega)
  have hg := get_swap ha hb
  have hl1 : ((h.set i b).set (h.length - 1) a).length = h.length := by simp
  obtain ⟨h2, e2, r2⟩ := down_rel lt ((h.set i b).set (h.length - 1) a) i (h.length - 1)
    (by omega)
  have hl2 : h2.length = h.length := by rw [r2.length_eq, hl1]
  have hx2 : h2[h2.length - 1]? = some a := by
    rw [hl2, r2.frame _ (Or.inr (Nat.le_refl _)), hg, if_pos rfl]
  obtain ⟨e3, p3⟩ := Pop_ok hx2
  have p2 : h2.Perm h := r2.perm.trans (perm_swap ha hb)
  refine ⟨a, h2.take (h2.length - 1), ?_, ha, ?_, p3.trans p2, ?_⟩
  · simp only [Swap_ok ha hb, ok_bind, e2]
    exact e3
  · rw [List.length_take, hl2]; omega
  · intro sw hi2 good k
    rw [hl2]
    -- it is enough to look at the container before the last element is cut off
    suffices hk : GoodAt lt h2 (h.length - 1) k by
      refine goodAt_congr_below (Nat.le_refl _) ?_ hk
      intro d _ hd
      rw [List.getElem?_take, if_pos hd]
    have pre : ∀ k, Sub i k → k ≠ i → GoodAt lt ((h.set i b).set (h.length - 1) a)
        (h.length - 1) k := by
      intro k s hne
      have hik : i < k := Nat.lt_of_le_of_ne s.le (fun e => hne e.symm)
      refine goodAt_congr_below (by omega) ?_ (good k)
      intro d sd hd
      have := sd.le
      rw [hg, if_neg (by omega), if_neg (by omega)]
    have post := r2.good sw rfl (by omega) pre
    by_cases sk : Sub i k
    · exact post k sk
    · by_cases k0 : k = 0
      · subst k0
        intro r hr d _ _ v hv
        have hi0 : i ≠ 0 := fun e => sk (e ▸ Sub.refl _)
        rw [r2.frame 0 (Or.inl sk), hg, if_neg (by omega), if_neg (by omega)] at hr
        have hv2 : v ∈ h := p2.mem_iff.1 (List.mem_iff_getElem?.2 ⟨d, hv⟩)
        obtain ⟨j, hj⟩ := List.mem_iff_getElem?.1 hv2
        exact good 0 r hr j (Sub.root j) (lt_of_get hj) v hj
      · have hi0 : 0 < i := by
          rcases Nat.eq_zero_or_pos i with e | e
          · exact absurd (e ▸ Sub.root k) sk
          · exact e
        have hci : lchild 0 ≤ i ∧ i ≤ rchild 0 := by
          simp only [lchild, rchild]; omega
        have nki : ¬ Sub k i := by
          intro s
          rcases Sub.above_child hci.1 hci.2 (Sub.root k) s with c | c
          · exact k0 c
          · exact sk (c ▸ Sub.refl _)
        refine goodAt_congr_below (Nat.sub_le _ _) ?_ (good k)
        intro d sd hd
        have nid : ¬ Sub i d := by
          intro s
          rcases Sub.comparable s sd with c | c
          · exact sk c
          · exact nki c
        have hdi : ¬ d = i := fun e => nid (e ▸ Sub.refl _)
        rw [r2.frame d (Or.inl nid), hg, if_neg (by omega), if_neg hdi]

end PopProofs

section PopSpecs

variable {α : Type} {lt : α → α → Bool}

theorem good_take (sw : StrictWeak lt) {h : List α} {n : Nat} (hn : n ≤ h.length)
    (hg : ∀ k, GoodAt lt h n k) : MinMaxInv lt (h.take n) := by
  rw [minMaxInv_iff_good sw]
  intro k
  have hl : (h.take n).length = n := by rw [List.length_take]; omega
  rw [hl]
  refine goodAt_congr_below (Nat.le_refl _) ?_ (hg k)
  intro d _ hd
  rw [List.getElem?_take, if_pos hd]

theorem PopMin_spec (lt : α → α → Bool) (h : List α) (hl : 1 ≤ h.length) :
    ∃ x h1, PopMin lt h = .ok (x, h1) ∧ h[0]? = some x ∧ h1.length + 1 = h.length ∧
      (x :: h1).Perm h ∧
      (StrictWeak lt → MinMaxInv lt h → MinMaxInv lt h1 ∧ ∀ y ∈ h1, lt y x = false) := by
  obtain ⟨x, h1, e, hx, hlen, hp, hgood⟩ := popAt_spec lt h 0 (by omega)
  refine ⟨x, h1, e, hx, hlen, hp, ?_⟩
  intro sw hinv
  have good := (minMaxInv_iff_good sw h).1 hinv
  have g1 := hgood sw (by omega) good
  constructor
  · rw [minMaxInv_iff_good sw]
    have : h1.length = h.length - 1 := by omega
    rw [this]
    exact g1
  · intro y hy
    have hy2 : y ∈ h := hp.mem_iff.1 (List.mem_cons_of_mem x hy)
    obtain ⟨j, hj⟩ := List.mem_iff_getElem?.1 hy2
    have := good 0 x hx j (Sub.root j) (lt_of_get hj) y hj
    rw [isMinLevel_zero] at this
    simpa [above] using this

theorem isMinLevel_one : isMinLevel 1 = false := by decide

theorem isMinLevel_two : isMinLevel 2 = false := by decide

/-- In a good container with at least three elements the larger child of the root, as
`PopMax` picks it, is not less than any element. -/
theorem max_at_child (sw : StrictWeak lt) {h : List α} (good : ∀ k, GoodAt lt h h.length k)
    {v1 v2 : α} (h1 : h[1]? = some v1) (h2 : h[2]? = some v2) :
    ∀ (d : Nat) (v : α), h[d]? = some v →
      above lt false (if (!lt v2 v1) = true then v2 else v1) v = true := by
  intro d v hv
  have hd := lt_of_get hv
  have a1 : Sub 1 d → above lt false v1 v = true := by
    intro s
    have := good 1 v1 h1 d s hd v hv
    rw [isMinLevel_one] at this
    exact this
  have a2 : Sub 2 d → above lt false v2 v = true := by
    intro s
    have := good 2 v2 h2 d s hd v hv
    rw [isMinLevel_two] at this
    exact this
  have a0 : ∀ w : α, h[(1 : Nat)]? = some w ∨ h[(2 : Nat)]? = some w → d = 0 → above lt false w v = true := by
    intro w hw e
    subst e
    have : above lt true v w = true := by
      rcases hw with hw | hw
      · have := good 0 v hv 1 (Sub.root 1) (lt_of_get hw) w hw
        rw [isMinLevel_zero] at this
        exact this
      · have := good 0 v hv 2 (Sub.root 2) (lt_of_get hw) w hw
        rw [isMinLevel_zero] at this
        exact this
    simpa [above] using this
  cases ht : lt v2 v1
  · -- the right child is picked
    have a21 : above lt false v2 v1 = true := by simp [above, ht]
    simp only [Bool.not_false, if_true]
    rcases (Sub.root d).below_child with c | c | c
    · exact a0 v2 (Or.inr h2) c
    · exact above_trans sw a21 (a1 c)
    · exact a2 c
  · -- the left child is picked
    have a12 : above lt false v1 v2 = true := by simp [above, sw.asymm ht]
    simp only [Bool.not_true, Bool.false_eq_true, if_false]
    rcases (Sub.root d).below_child with c | c | c
    · exact a0 v1 (Or.inl h1) c
    · exact a1 c
    · exact above_trans sw a12 (a2 c)

theorem PopMax_spec (lt : α → α → Bool) (h : List α) (hl : 1 ≤ h.length) :
    ∃ x h1, PopMax lt h = .ok (x, h1) ∧ h1.length + 1 = h.length ∧ (x :: h1).Perm h ∧
      (h.length ≤ 2 → h[h.length - 1]? = some x) ∧
      (3 ≤ h.length → h[1]? = some x ∨ h[2]? = some x) ∧
      (StrictWeak lt → MinMaxInv lt h → MinMaxInv lt h1 ∧ ∀ y ∈ h1, lt x y = false) := by
  by_cases hn : h.length ≤ 2
  · obtain ⟨x, hx⟩ := get_of_lt (show h.length - 1 < h.length by omega)
    obtain ⟨e, p⟩ := Pop_ok hx
    refine ⟨x, h.take (h.length - 1), ?_, ?_, p, fun _ => hx, fun h3 => by omega, ?_⟩
    · simp only [PopMax, Len, hn, if_true]
      exact e
    · rw [List.length_take]; omega
    · intro sw hinv
      have good := (minMaxInv_iff_good sw h).1 hinv
      constructor
      · refine good_take sw (by omega) ?_
        intro k
        exact goodAt_congr_below (Nat.sub_le _ _) (fun _ _ _ => rfl) (good k)
      · intro y hy
        obtain ⟨d, hd⟩ := List.mem_iff_getElem?.1 hy
        have hd2 := lt_of_get hd
        rw [List.length_take] at hd2
        have hd0 : d = 0 := by omega
        have hl2 : h.length - 1 = 1 := by omega
        subst hd0
        rw [List.getElem?_take, if_pos (by omega)] at hd
        rw [hl2] at hx
        have := good 0 y hd 1 (Sub.root 1) (by omega) x hx
        rw [isMinLevel_zero] at this
        simpa [above] using this
  · obtain ⟨v1, h1⟩ := get_of_lt (show 1 < h.length by omega)
    obtain ⟨v2, h2⟩ := get_of_lt (show 2 < h.length by omega)
    have hi : (if (!lt v2 v1) = true then rchild 0 else lchild 0) < h.length := by
      split <;> simp only [lchild, rchild] <;> omega
    obtain ⟨x, hr, e, hx, hlen, hp, hgood⟩ := popAt_spec lt h _ hi
    have hx2 : some x = some (if (!lt v2 v1) = true then v2 else v1) := by
      rw [← hx]
      cases lt v2 v1
      · simpa [rchild] using h2
      · simpa [lchild] using h1
    have hx3 : x = if (!lt v2 v1) = true then v2 else v1 := Option.some.inj hx2
    refine ⟨x, hr, ?_, hlen, hp, fun h3 => by omega, ?_, ?_⟩
    · have e1 : Less lt h (rchild 0) (lchild 0) = .ok (lt v2 v1) := Less_ok h2 h1
      simp only [PopMax, Len, hn, if_false, e1, ok_bind]
      exact e
    · intro _
      rw [hx3]
      cases lt v2 v1
      · exact Or.inr h2
      · exact Or.inl h1
    · intro sw hinv
      have good := (minMaxInv_iff_good sw h).1 hinv
      have g1 := hgood sw (by split <;> simp only [lchild, rchild] <;> omega) good
      constructor
      · rw [minMaxInv_iff_good sw]
        have : hr.length = h.length - 1 := by omega
        rw [this]
        exact g1
      · intro y hy
        have hy2 : y ∈ h := hp.mem_iff.1 (List.mem_cons_of_mem x hy)
        obtain ⟨j, hj⟩ := List.mem_iff_getElem?.1 hy2
        have := max_at_child sw good h1 h2 j y hj
        rw [← hx3] at this
        simpa [above] using this

/-- On three or more elements `PopMax` returns the element at index 2 unless the one at
index 2 is `Less` than the one at index 1, and then the element at index 1. -/
theorem PopMax_pick (lt : α → α → Bool) (h : List α) (h3 : 3 ≤ h.length) {v1 v2 : α}
    (h1 : h[1]? = some v1) (h2 : h[2]? = some v2) :
    ∃ hr, PopMax lt h = .ok (if lt v2 v1 = true then v1 else v2, hr) := by
  have hn : ¬ h.length ≤ 2 := by omega
  have hi : (if (!lt v2 v1) = true then rchild 0 else lchild 0) < h.length := by
    split <;> simp only [lchild, rchild] <;> omega
  obtain ⟨x, hr, e, hx, _⟩ := popAt_spec lt h _ hi
  have hx3 : x = if lt v2 v1 = true then v1 else v2 := by
    have : some x = some (if lt v2 v1 = true then v1 else v2) := by
      rw [← hx]
      cases lt v2 v1
      · simpa [rchild] using h2
      · simpa [lchild] using h1
    exact Option.some.inj this
  refine ⟨hr, ?_⟩
  have e1 : Less lt h (rchild 0) (lchild 0) = .ok (lt v2 v1) := Less_ok h2 h1
  simp only [PopMax, Len, hn, if_false, e1, ok_bind]
  rw [← hx3]
  exact e

end PopSpecs


/-! ### Sift-up and `Push` -/

section UpProofs

variable {α : Type} {lt : α → α → Bool}

theorem allPairs_iff_good (sw : StrictWeak lt) (h : List α) (n : Nat) :
    AllPairs lt h n ↔ ∀ k, GoodAt lt h n k := by
  constructor
  · intro hp k a ha d s hdn v hv
    by_cases e : k = d
    · subst e; rw [ha] at hv; cases hv; exact above_refl sw _ _
    · exact hp k d s e hdn a v ha hv
  · intro hg a d s _ hdn va vd ha hd
    exact hg a va ha d s hdn vd hd

/-- A proper ancestor of `i` is the parent of `i` or an ancestor of its grandparent. -/
theorem Sub.anc_cases {a i : Nat} (s : Sub a i) (hne : a ≠ i) :
    0 < i ∧ (a = parent i ∨ (2 < i ∧ Sub a (parent (parent i)))) := by
  have hai : a < i := Nat.lt_of_le_of_ne s.le hne
  have sp := s.parent_mem (fun e => hne e.symm)
  refine ⟨by omega, ?_⟩
  by_cases e : a = parent i
  · exact Or.inl e
  · have hap : a < parent i := Nat.lt_of_le_of_ne sp.le e
    refine Or.inr ⟨by simp only [parent] at hap; omega, sp.parent_mem (fun e2 => e e2.symm)⟩

theorem isMinLevel_grandparent {i : Nat} (hi : 2 < i) :
    isMinLevel (parent (parent i)) = isMinLevel i := by
  have h1 := isMinLevel_parent (show 0 < i by omega)
  have h2 := isMinLevel_parent (show 0 < parent i by simp only [parent]; omega)
  rw [h2, h1]; simp

theorem upMinMax_spec (lt : α → α → Bool) (mu : Bool) :
    ∀ (fuel : Nat) (h : List α) (i : Nat), i < fuel → i < h.length →
      ∃ h1, upMinMax lt fuel h i mu = .ok h1 ∧ h1.length = h.length ∧ h1.Perm h ∧
        (StrictWeak lt → isMinLevel i = mu → AllBut lt h h.length i mu →
          AllPairs lt h1 h.length) := by
  intro fuel
  induction fuel with
  | zero => intro h i hf; omega
  | succ fuel ih =>
    intro h i hf hi
    unfold upMinMax
    by_cases hg : 2 < i
    · have hgp : parent (parent i) < i := by simp only [parent]; omega
      obtain ⟨vi, hvi⟩ := get_of_lt hi
      obtain ⟨vg, hvg⟩ := get_of_lt (show parent (parent i) < h.length by omega)
      simp only [hasGrandparent, gt_iff_lt, hg, decide_True, if_true, Less_ok hvi hvg, ok_bind]
      have sgi : Sub (parent (parent i)) i :=
        Sub.of_parent (by omega) (Sub.of_parent (by simp only [parent]; omega) (Sub.refl _))
      have spi : Sub (parent i) i := Sub.of_parent (by omega) (Sub.refl _)
      have sgp : Sub (parent (parent i)) (parent i) :=
        Sub.of_parent (by simp only [parent]; omega) (Sub.refl _)
      have hpi : parent i < i := by simp only [parent]; omega
      have hgpp : parent (parent i) < parent i := by simp only [parent]; omega
      cases ht : (lt vi vg == mu)
      · simp only [Bool.false_eq_true, if_false, pure_eq_ok]
        refine ⟨h, rfl, rfl, List.Perm.refl _, ?_⟩
        intro sw hk hall a d s hne hdn
        by_cases e : d = i ∧ isMinLevel a = mu
        · obtain ⟨e1, e2⟩ := e
          subst e1
          intro va vd ha hd
          rw [hvi] at hd; cases hd
          rw [e2]
          have top : above lt mu vg vi = true := above_of_not_test sw ht
          rcases s.anc_cases hne with ⟨_, c | ⟨_, c⟩⟩
          · exfalso
            rw [c, isMinLevel_parent (by omega), hk] at e2
            cases mu <;> simp at e2
          · by_cases e3 : a = parent (parent d)
            · rw [e3, hvg] at ha; cases ha; exact top
            · have := hall a (parent (parent d)) c e3 (by omega) (fun e4 => by omega) va vg ha hvg
              rw [e2] at this
              exact above_trans sw this top
        · refine hall a d s hne hdn ?_
          intro e1 e2
          exact e ⟨e1, e2⟩
      · simp only [if_true, Swap_ok hvi hvg, ok_bind]
        have hsw := get_swap hvi hvg
        obtain ⟨h1, e1, l1, p1, g1⟩ := ih ((h.set i vg).set (parent (parent i)) vi)
          (parent (parent i)) (by omega) (by simp; omega)
        have hl : ((h.set i vg).set (parent (parent i)) vi).length = h.length := by simp
        refine ⟨h1, e1, by rw [l1, hl], p1.trans (perm_swap hvi hvg), ?_⟩
        intro sw hk hall
        rw [hl] at g1
        refine g1 sw (by rw [isMinLevel_grandparent hg]; exact hk) ?_
        have top : above lt mu vi vg = true := above_of_test sw ht
        have hkg : isMinLevel (parent (parent i)) = mu := by
          rw [isMinLevel_grandparent hg]; exact hk
        intro a d s hne hdn hex va vd ha hd
        rw [hsw] at ha hd
        by_cases a1 : a = parent (parent i)
        · subst a1
          rw [if_pos rfl] at ha; cases ha
          rw [if_neg (fun e => hne e.symm)] at hd
          rw [hkg]
          by_cases d1 : d = i
          · rw [if_pos d1] at hd; cases hd; exact top
          · rw [if_neg d1] at hd
            have := hall _ d s hne hdn (fun e => absurd e d1) vg vd hvg hd
            rw [hkg] at this
            exact above_trans sw top this
        · rw [if_neg a1] at ha
          by_cases a2 : a = i
          · subst a2
            rw [if_pos rfl] at ha; cases ha
            have hda : a < d := Nat.lt_of_le_of_ne s.le hne
            rw [if_neg (by omega), if_neg (by omega)] at hd
            have := hall _ d (sgi.trans s) (by omega) hdn (fun e => by omega) vg vd hvg hd
            rw [hkg, ← hk] at this
            exact this
          · rw [if_neg a2] at ha
            by_cases d1 : d = parent (parent i)
            · rw [if_pos d1] at hd; cases hd
              have hka : isMinLevel a ≠ mu := hex d1
              exact hall a i (s.trans (d1 ▸ sgi)) a2 hi (fun _ => hka) va vi ha hvi
            · rw [if_neg d1] at hd
              by_cases d2 : d = i
              · rw [if_pos d2] at hd; cases hd
                subst d2
                rcases s.anc_cases hne with ⟨_, c | ⟨_, c⟩⟩
                · have := hall _ _ sgp (by omega) (by omega) (fun e => by omega) vg va hvg
                    (c ▸ ha)
                  rw [hkg] at this
                  rw [c, isMinLevel_parent (by omega), hk, above_flip]
                  exact this
                · exact hall a _ c a1 (by omega) (fun e => by omega) va vg ha hvg
              · rw [if_neg d2] at hd
                exact hall a d s hne hdn (fun e => absurd e d2) va vd ha hd
    · simp only [hasGrandparent, gt_iff_lt, hg, decide_False, Bool.false_eq_true, if_false,
        pure_eq_ok]
      refine ⟨h, rfl, rfl, List.Perm.refl _, ?_⟩
      intro sw hk hall a d s hne hdn
      refine hall a d s hne hdn ?_
      intro e1 e2
      subst e1
      rcases s.anc_cases hne with ⟨h0, c | ⟨c, _⟩⟩
      · rw [c, isMinLevel_parent h0, hk] at e2
        cases mu <;> simp at e2
      · omega

theorem up_spec (lt : α → α → Bool) (h : List α) (i : Nat) (hi : i < h.length) :
    ∃ h1, up lt h i = .ok h1 ∧ h1.length = h.length ∧ h1.Perm h ∧
      (StrictWeak lt → h.length ≤ lchild i →
        (∀ a d, Sub a d → a ≠ d → d < h.length → d ≠ i → Pair lt h a d) →
        AllPairs lt h1 h.length) := by
  unfold up
  obtain ⟨vi, hvi⟩ := get_of_lt hi
  by_cases h0 : 0 < i
  · have hpi : parent i < i := by simp only [parent]; omega
    obtain ⟨vp, hvp⟩ := get_of_lt (show parent i < h.length by omega)
    have spi : Sub (parent i) i := Sub.of_parent h0 (Sub.refl _)
    have hkp : isMinLevel (parent i) = !isMinLevel i := isMinLevel_parent h0
    simp only [hasParent, gt_iff_lt, h0, decide_True, if_true, Less_ok hvi hvp, ok_bind,
      pure_eq_ok]
    cases ht : (lt vi vp == isMinLevel i)
    · have hv : (lt vi vp != isMinLevel i) = true := by
        cases hl : lt vi vp <;> cases hm : isMinLevel i <;> simp_all
      simp only [hv, if_true, Swap_ok hvi hvp, ok_bind]
      have hsw := get_swap hvi hvp
      have hl : ((h.set i vp).set (parent i) vi).length = h.length := by simp
      obtain ⟨h1, e1, l1, p1, g1⟩ := upMinMax_spec lt (!isMinLevel i) (i + 1)
        ((h.set i vp).set (parent i) vi) (parent i) (by omega) (by omega)
      refine ⟨h1, e1, by rw [l1, hl], p1.trans (perm_swap hvi hvp), ?_⟩
      intro sw hleaf hall
      rw [hl] at g1
      refine g1 sw hkp ?_
      have low : above lt (isMinLevel i) vp vi = true := above_of_not_test sw ht
      have low2 : above lt (!isMinLevel i) vi vp = true := by rw [above_flip]; exact low
      intro a d s hne hdn hex va vd ha hd
      rw [hsw] at ha hd
      by_cases a1 : a = parent i
      · subst a1
        rw [if_pos rfl] at ha; cases ha
        rw [if_neg (fun e => hne e.symm)] at hd
        rw [hkp]
        by_cases d1 : d = i
        · rw [if_pos d1] at hd; cases hd; exact low2
        · rw [if_neg d1] at hd
          have := hall _ d s hne hdn d1 vp vd hvp hd
          rw [hkp] at this
          exact above_trans sw low2 this
      · rw [if_neg a1] at ha
        by_cases a2 : a = i
        · exfalso
          subst a2
          have hda : a < d := Nat.lt_of_le_of_ne s.le hne
          rcases s.below_child with c | c | c
          · omega
          · have := c.le; omega
          · have := c.le; simp only [lchild, rchild] at *; omega
        · rw [if_neg a2] at ha
          by_cases d1 : d = parent i
          · rw [if_pos d1] at hd; cases hd
            subst d1
            have hka : isMinLevel a = isMinLevel i := by
              have := hex rfl
              cases h1 : isMinLevel a <;> cases h2 : isMinLevel i <;> simp_all
            have := hall a _ s hne hdn (by omega) va vp ha hvp
            rw [hka] at this ⊢
            exact above_trans sw this low
          · rw [if_neg d1] at hd
            by_cases d2 : d = i
            · rw [if_pos d2] at hd; cases hd
              subst d2
              have sp := s.parent_mem (fun e => hne e.symm)
              exact hall a _ sp a1 (by omega) (by omega) va vp ha hvp
            · rw [if_neg d2] at hd
              exact hall a d s hne hdn d2 va vd ha hd
    · have hv : (lt vi vp != isMinLevel i) = false := by
        cases hl : lt vi vp <;> cases hm : isMinLevel i <;> simp_all
      simp only [hv, Bool.false_eq_true, if_false]
      obtain ⟨h1, e1, l1, p1, g1⟩ := upMinMax_spec lt (isMinLevel i) (i + 1) h i
        (by omega) hi
      refine ⟨h1, e1, l1, p1, ?_⟩
      intro sw _ hall
      refine g1 sw rfl ?_
      have up1 : above lt (!isMinLevel i) vp vi = true := by
        rw [above_flip]; exact above_of_test sw ht
      intro a d s hne hdn hex
      by_cases d1 : d = i
      · subst d1
        have hka : isMinLevel a = !isMinLevel d := by
          have := hex rfl
          cases h1 : isMinLevel a <;> cases h2 : isMinLevel d <;> simp_all
        intro va vd ha hd
        rw [hvi] at hd; cases hd
        rw [hka]
        by_cases a1 : a = parent d
        · rw [a1, hvp] at ha; cases ha; exact up1
        · have sp := s.parent_mem (fun e => hne e.symm)
          have := hall a _ sp a1 (by omega) (by omega) va vp ha hvp
          rw [hka] at this
          exact above_trans sw this up1
      · exact hall a d s hne hdn d1
  · have hi0 : i = 0 := by omega
    subst hi0
    simp only [hasParent, gt_iff_lt, Nat.lt_irrefl, decide_False, Bool.false_eq_true, if_false,
      pure_eq_ok, ok_bind]
    obtain ⟨h1, e1, l1, p1, g1⟩ := upMinMax_spec lt (isMinLevel 0) (0 + 1) h 0 (by omega) hi
    refine ⟨h1, e1, l1, p1, ?_⟩
    intro sw _ hall
    refine g1 sw rfl ?_
    intro a d s hne hdn _
    refine hall a d s hne hdn ?_
    have := s.le
    omega

theorem Push_spec (lt : α → α → Bool) (h : List α) (x : α) :
    ∃ h1, Push lt h x = .ok h1 ∧ h1.length = h.length + 1 ∧ h1.Perm (x :: h) ∧
      (StrictWeak lt → MinMaxInv lt h → MinMaxInv lt h1) := by
  have hl : (h ++ [x]).length = h.length + 1 := by simp
  obtain ⟨h1, e1, l1, p1, g1⟩ := up_spec lt (h ++ [x]) h.length (by omega)
  refine ⟨h1, ?_, by rw [l1, hl], p1.trans (List.perm_append_singleton x h), ?_⟩
  · simp only [Push, Append, Len, hl, Nat.add_sub_cancel]
    exact e1
  · intro sw hinv
    have good := (allPairs_iff_good sw h h.length).2 ((minMaxInv_iff_good sw h).1 hinv)
    rw [minMaxInv_iff_good sw, l1, ← allPairs_iff_good sw]
    refine g1 sw (by simp only [hl, lchild]; omega) ?_
    intro a d s hne hdn hd va vd ha hb
    have hd2 : d < h.length := by omega
    have ha2 : a < h.length := by have := s.le; omega
    rw [List.getElem?_append_left ha2] at ha
    rw [List.getElem?_append_left hd2] at hb
    exact good a d s hne hd2 va vd ha hb

end UpProofs


/-! ### Draining a heap, and the heap as a double-ended priority queue -/

section DrainProofs

variable {α : Type} {lt : α → α → Bool}

theorem popAll_min_spec (sw : StrictWeak lt) :
    ∀ (k : Nat) (h : List α), k = h.length → MinMaxInv lt h →
      ∃ out, popAll (PopMin lt) k h = .ok (out, []) ∧ out.Perm h ∧
        out.Pairwise (fun a b => lt b a = false) := by
  intro k
  induction k with
  | zero =>
    intro h hk _
    have : h = [] := List.length_eq_zero.1 hk.symm
    subst this
    exact ⟨[], rfl, List.Perm.refl _, List.Pairwise.nil⟩
  | succ k ih =>
    intro h hk hinv
    obtain ⟨x, h1, e, _, hl, hp, g⟩ := PopMin_spec lt h (by omega)
    obtain ⟨i1, low⟩ := g sw hinv
    obtain ⟨out, e2, p2, s2⟩ := ih h1 (by omega) i1
    refine ⟨x :: out, ?_, (p2.cons x).trans hp, ?_⟩
    · simp only [popAll, e, ok_bind, e2, pure_eq_ok]
    · rw [List.pairwise_cons]
      exact ⟨fun b hb => low b (p2.mem_iff.1 hb), s2⟩

theorem popAll_max_spec (sw : StrictWeak lt) :
    ∀ (k : Nat) (h : List α), k = h.length → MinMaxInv lt h →
      ∃ out, popAll (PopMax lt) k h = .ok (out, []) ∧ out.Perm h ∧
        out.Pairwise (fun a b => lt a b = false) := by
  intro k
  induction k with
  | zero =>
    intro h hk _
    have : h = [] := List.length_eq_zero.1 hk.symm
    subst this
    exact ⟨[], rfl, List.Perm.refl _, List.Pairwise.nil⟩
  | succ k ih =>
    intro h hk hinv
    obtain ⟨x, h1, e, hl, hp, _, _, g⟩ := PopMax_spec lt h (by omega)
    obtain ⟨i1, high⟩ := g sw hinv
    obtain ⟨out, e2, p2, s2⟩ := ih h1 (by omega) i1
    refine ⟨x :: out, ?_, (p2.cons x).trans hp, ?_⟩
    · simp only [popAll, e, ok_bind, e2, pure_eq_ok]
    · rw [List.pairwise_cons]
      exact ⟨fun b hb => high b (p2.mem_iff.1 hb), s2⟩

theorem intLt_false_iff (a b : Int) : intLt a b = false ↔ b ≤ a := by
  simp [intLt]

theorem min?_spec {s : List Int} {m : Int} (hm : s.min? = some m) :
    m ∈ s ∧ ∀ b ∈ s, m ≤ b := by
  haveI : Std.Antisymm (fun a b : Int => a ≤ b) := ⟨fun h1 h2 => Int.le_antisymm h1 h2⟩
  exact (List.min?_eq_some_iff (fun _ => Int.le_refl _) (fun a b => by omega)
    (fun a b c => by omega)).1 hm

theorem max?_spec {s : List Int} {m : Int} (hm : s.max? = some m) :
    m ∈ s ∧ ∀ b ∈ s, b ≤ m := by
  haveI : Std.Antisymm (fun a b : Int => a ≤ b) := ⟨fun h1 h2 => Int.le_antisymm h1 h2⟩
  exact (List.max?_eq_some_iff (fun _ => Int.le_refl _) (fun a b => by omega)
    (fun a b c => by omega)).1 hm

/-- The heap and the reference multiset go through a sequence of calls in step. -/
theorem runHeap_simulates :
    ∀ (ops : List Op) (h s : List Int) (outs t : List Int), MinMaxInv intLt h → h.Perm s →
      runRef ops s = some (outs, t) →
      ∃ h1, runHeap ops h = .ok (outs, h1) ∧ h1.Perm t ∧ MinMaxInv intLt h1 := by
  intro ops
  induction ops with
  | nil =>
    intro h s outs t hinv hp hr
    simp only [runRef, Option.some.injEq, Prod.mk.injEq] at hr
    obtain ⟨e1, e2⟩ := hr
    subst e1 e2
    exact ⟨h, rfl, hp, hinv⟩
  | cons op ops ih =>
    intro h s outs t hinv hp hr
    cases op with
    | push x =>
      simp only [runRef] at hr
      obtain ⟨h1, e1, _, p1, g1⟩ := Push_spec intLt h x
      obtain ⟨h2, e2, p2, i2⟩ := ih h1 (x :: s) outs t (g1 strictWeak_intLt hinv)
        (p1.trans (hp.cons x)) hr
      exact ⟨h2, by simp only [runHeap, e1, ok_bind]; exact e2, p2, i2⟩
    | popMin =>
      simp only [runRef, refPopMin] at hr
      cases hm : s.min? with
      | none => rw [hm] at hr; simp at hr
      | some m =>
        rw [hm] at hr
        simp only [Option.bind_eq_bind, Option.some_bind] at hr
        obtain ⟨hms, hmin⟩ := min?_spec hm
        have hlen : 1 ≤ h.length := by
          rw [hp.length_eq]
          exact List.length_pos_of_mem hms
        obtain ⟨x, h1, e1, _, _, p1, g1⟩ := PopMin_spec intLt h hlen
        obtain ⟨i1, low⟩ := g1 strictWeak_intLt hinv
        have hxs : x ∈ s := hp.mem_iff.1 (p1.mem_iff.1 (List.mem_cons_self x h1))
        have hmx : m ≤ x := hmin x hxs
        have hxm : x ≤ m := by
          have : m ∈ x :: h1 := p1.mem_iff.2 (hp.mem_iff.2 hms)
          rcases List.mem_cons.1 this with c | c
          · omega
          · exact (intLt_false_iff m x).1 (low m c)
        have hx : x = m := Int.le_antisymm hxm hmx
        subst hx
        have p3 : h1.Perm (s.erase x) := by
          have := (p1.trans hp).erase x
          rwa [List.erase_cons_head] at this
        cases hrr : runRef ops (s.erase x) with
        | none => rw [hrr] at hr; simp at hr
        | some r =>
          obtain ⟨o2, t2⟩ := r
          rw [hrr] at hr
          simp only [Option.bind_eq_bind, Option.some_bind, Option.pure_def, Option.some.injEq,
            Prod.mk.injEq] at hr
          obtain ⟨e3, e4⟩ := hr
          subst e3 e4
          obtain ⟨h2, e2, p2, i2⟩ := ih h1 (s.erase x) o2 t2 i1 p3 hrr
          exact ⟨h2, by simp only [runHeap, e1, ok_bind, e2, pure_eq_ok], p2, i2⟩
    | popMax =>
      simp only [runRef, refPopMax] at hr
      cases hm : s.max? with
      | none => rw [hm] at hr; simp at hr
      | some m =>
        rw [hm] at hr
        simp only [Option.bind_eq_bind, Option.some_bind] at hr
        obtain ⟨hms, hmax⟩ := max?_spec hm
        have hlen : 1 ≤ h.length := by
          rw [hp.length_eq]
          exact List.length_pos_of_mem hms
        obtain ⟨x, h1, e1, _, p1, _, _, g1⟩ := PopMax_spec intLt h hlen
        obtain ⟨i1, high⟩ := g1 strictWeak_intLt hinv
        have hxs : x ∈ s := hp.mem_iff.1 (p1.mem_iff.1 (List.mem_cons_self x h1))
        have hxm : x ≤ m := hmax x hxs
        have hmx : m ≤ x := by
          have : m ∈ x :: h1 := p1.mem_iff.2 (hp.mem_iff.2 hms)
          rcases List.mem_cons.1 this with c | c
          · omega
          · exact (intLt_false_iff x m).1 (high m c)
        have hx : x = m := Int.le_antisymm hxm hmx
        subst hx
        have p3 : h1.Perm (s.erase x) := by
          have := (p1.trans hp).erase x
          rwa [List.erase_cons_head] at this
        cases hrr : runRef ops (s.erase x) with
        | none => rw [hrr] at hr; simp at hr
        | some r =>
          obtain ⟨o2, t2⟩ := r
          rw [hrr] at hr
          simp only [Option.bind_eq_bind, Option.some_bind, Option.pure_def, Option.some.injEq,
            Prod.mk.injEq] at hr
          obtain ⟨e3, e4⟩ := hr
          subst e3 e4
          obtain ⟨h2, e2, p2, i2⟩ := ih h1 (s.erase x) o2 t2 i1 p3 hrr
          exact ⟨h2, by simp only [runHeap, e1, ok_bind, e2, pure_eq_ok], p2, i2⟩

end DrainProofs


/-! ### The embedding on the runs of the package tests -/

section Runs

/-- The run of `Example`: `Init` on `2, 1, 5`, `Push(3)`, then `PopMin` returns `1` and
`PopMax` returns `5`. -/
theorem example_run :
    runFromInit [2, 1, 5] [Op.push 3, Op.popMin, Op.popMax] = .ok ([1, 5], [2, 3]) := by
  decide

/-- The run of `TestInit2`. -/
theorem testInit2_run :
    Init intLt [6, 10, 13, 3, 12, 8, 12, 2, 12, 16] =
      .ok [2, 16, 13, 3, 10, 8, 12, 6, 12, 12] := by
  decide

/-- Popping the empty container panics with an index out of range. -/
theorem pop_empty_run :
    PopMin intLt [] = .fault .indexOutOfRange ∧ PopMax intLt [] = .fault .indexOutOfRange := by
  decide

end Runs


/-! ### Levels as logarithms, and where the extremes are -/

section LevelProofs

theorem bitsLen_one : bitsLen 1 = 1 := by decide

/-- `bits.Len(x)` is the number of binary digits of `x`. -/
theorem bitsLen_bounds : ∀ x, 0 < x → 2 ^ bitsLen x ≤ 2 * x ∧ x < 2 ^ bitsLen x := by
  intro x
  induction x using Nat.strong_induction_on with
  | _ x ih =>
    intro hx
    by_cases h1 : x = 1
    · subst h1; rw [bitsLen_one]; omega
    · have hy : 0 < x / 2 := by omega
      have e : x = 2 * (x / 2) + x % 2 := by omega
      obtain ⟨b1, b2⟩ := ih (x / 2) (by omega) hy
      have hd := bitsLen_double (x / 2) (x % 2) hy (by omega)
      rw [← e] at hd
      rw [hd, Nat.pow_succ]
      omega

theorem level_bounds (i : Nat) : 2 ^ level i ≤ i + 1 ∧ i + 1 < 2 ^ (level i + 1) := by
  obtain ⟨b1, b2⟩ := bitsLen_bounds (i + 1) (by omega)
  have hp := bitsLen_pos (show 0 < i + 1 by omega)
  have e : level i + 1 = bitsLen (i + 1) := by unfold level; omega
  rw [e]
  refine ⟨?_, b2⟩
  rw [← e, Nat.pow_succ] at b1
  omega

theorem level_eq_log (i : Nat) : level i = Nat.log 2 (i + 1) := by
  obtain ⟨b1, b2⟩ := level_bounds i
  exact (Nat.log_eq_of_pow_le_of_lt_pow b1 b2).symm

theorem levelWord_eq (w i : Nat) (hi : i + 1 < 2 ^ w) : levelWord w i = level i := by
  unfold levelWord level
  rw [Nat.mod_eq_of_lt hi]

theorem two_pow_pred (w : Nat) (hw : 0 < w) : (2 : Int) ^ w = 2 * 2 ^ (w - 1) := by
  obtain ⟨k, rfl⟩ : ∃ k, w = k + 1 := ⟨w - 1, by omega⟩
  rw [Nat.add_sub_cancel, pow_succ]
  ring

theorem wrapInt_eq (w : Nat) (hw : 0 < w) (z : Int) (h1 : -(2 ^ (w - 1)) ≤ z)
    (h2 : z < 2 ^ (w - 1)) : wrapInt w z = z := by
  unfold wrapInt
  have hp := two_pow_pred w hw
  rw [Int.emod_eq_of_lt (by omega) (by omega)]
  omega

theorem levelInt_eq (w i : Nat) (hi : i + 1 < 2 ^ w) : levelInt w i = level i := by
  have hc : ((i + 1 : Nat) : Int) < ((2 ^ w : Nat) : Int) := by exact_mod_cast hi
  push_cast at hc
  unfold levelInt level
  have e1 : (i : Int) % 2 ^ w = i := Int.emod_eq_of_lt (by omega) (by omega)
  have e2 : ((i : Int) + 1) % 2 ^ w = i + 1 := Int.emod_eq_of_lt (by omega) hc
  rw [e1, e2]
  have e : ((i : Int) + 1).toNat = i + 1 := by omega
  rw [e]
  have hp := bitsLen_pos (show 0 < i + 1 by omega)
  omega

theorem isMinLevelInt_eq (w i : Nat) (hi : i + 1 < 2 ^ w) :
    isMinLevelInt w i = isMinLevel i := by
  unfold isMinLevelInt isMinLevel
  rw [levelInt_eq w i hi]
  have e : Int.tmod ((level i : Nat) : Int) 2 = ((level i % 2 : Nat) : Int) := by
    rw [Int.tmod_eq_emod (by omega) (by decide)]
    omega
  rw [e]
  rcases Nat.mod_two_eq_zero_or_one (level i) with h | h <;> simp [h]

theorem parentInt_eq (w i : Nat) (hw : 0 < w) (h0 : 0 < i) (hi : i < 2 ^ (w - 1)) :
    parentInt w i = parent i := by
  have hc : ((i : Nat) : Int) < ((2 ^ (w - 1) : Nat) : Int) := by exact_mod_cast hi
  push_cast at hc
  unfold parentInt parent
  rw [wrapInt_eq w hw ((i : Int) - 1) (by omega) (by omega)]
  have e : Int.tdiv ((i : Int) - 1) 2 = (((i - 1) / 2 : Nat) : Int) := by
    rw [Int.tdiv_eq_ediv (by omega) (by decide)]
    omega
  rw [e]
  exact wrapInt_eq w hw _ (by omega) (by omega)

end LevelProofs

section ExtremeProofs

variable {α : Type} {lt : α → α → Bool}

theorem root_is_min (sw : StrictWeak lt) {h : List α} (hinv : MinMaxInv lt h) {x : α}
    (hx : h[0]? = some x) : ∀ y ∈ h, lt y x = false := by
  have good := (minMaxInv_iff_good sw h).1 hinv
  intro y hy
  obtain ⟨j, hj⟩ := List.mem_iff_getElem?.1 hy
  have := good 0 x hx j (Sub.root j) (lt_of_get hj) y hj
  rw [isMinLevel_zero] at this
  simpa [above] using this

theorem extremes_spec (sw : StrictWeak lt) {h : List α} (hn : 1 ≤ h.length)
    (hinv : MinMaxInv lt h) :
    (∃ x, h[0]? = some x ∧ ∀ y ∈ h, lt y x = false) ∧
      (h.length = 1 → ∃ x, h[0]? = some x ∧ ∀ y ∈ h, lt x y = false) ∧
      (h.length = 2 → ∃ x, h[1]? = some x ∧ ∀ y ∈ h, lt x y = false) ∧
      (3 ≤ h.length → ∃ x, (h[1]? = some x ∨ h[2]? = some x) ∧ ∀ y ∈ h, lt x y = false) := by
  have good := (minMaxInv_iff_good sw h).1 hinv
  obtain ⟨v0, h0⟩ := get_of_lt (show 0 < h.length by omega)
  refine ⟨⟨v0, h0, root_is_min sw hinv h0⟩, ?_, ?_, ?_⟩
  · intro h1
    refine ⟨v0, h0, ?_⟩
    intro y hy
    obtain ⟨j, hj⟩ := List.mem_iff_getElem?.1 hy
    have hj0 : j = 0 := by have := lt_of_get hj; omega
    subst hj0
    rw [h0] at hj; cases hj
    exact sw.irrefl _
  · intro h2
    obtain ⟨v1, h1⟩ := get_of_lt (show 1 < h.length by omega)
    refine ⟨v1, h1, ?_⟩
    intro y hy
    obtain ⟨j, hj⟩ := List.mem_iff_getElem?.1 hy
    have hjl := lt_of_get hj
    by_cases hj0 : j = 0
    · subst hj0
      have := root_is_min sw hinv hj v1 (List.mem_iff_getElem?.2 ⟨1, h1⟩)
      exact this
    · have hj1 : j = 1 := by omega
      subst hj1
      rw [h1] at hj; cases hj
      exact sw.irrefl _
  · intro h3
    obtain ⟨v1, h1⟩ := get_of_lt (show 1 < h.length by omega)
    obtain ⟨v2, h2⟩ := get_of_lt (show 2 < h.length by omega)
    refine ⟨if (!lt v2 v1) = true then v2 else v1, ?_, ?_⟩
    · cases lt v2 v1
      · exact Or.inr h2
      · exact Or.inl h1
    · intro y hy
      obtain ⟨j, hj⟩ := List.mem_iff_getElem?.1 hy
      have := max_at_child sw good h1 h2 j y hj
      simpa [above] using this

end ExtremeProofs


/-! ### Termination: no run of a loop uses up its fuel -/

section Termination

variable {α : Type} {lt : α → α → Bool}

theorem index_noFuel (h : List α) (i : Nat) : index h i ≠ .fault .outOfFuel := by
  unfold index
  cases h[i]? <;> simp

theorem fault_ne_of {β γ : Type} {r : Res β} {e : Fault} (hr : r ≠ .fault .outOfFuel)
    (he : r = .fault e) : (Res.fault e : Res γ) ≠ .fault .outOfFuel := by
  intro h1
  apply hr
  rw [he]
  rw [Res.fault.injEq] at h1 ⊢
  exact h1

theorem bind_noFuel {β γ : Type} {r : Res β} {f : β → Res γ} (hr : r ≠ .fault .outOfFuel)
    (hf : ∀ v, r = .ok v → f v ≠ .fault .outOfFuel) : (r >>= f) ≠ .fault .outOfFuel := by
  cases r with
  | ok v => exact hf v rfl
  | fault e =>
    rw [fault_bind]
    exact fault_ne_of hr rfl

theorem Less_noFuel (h : List α) (i j : Nat) : Less lt h i j ≠ .fault .outOfFuel := by
  unfold Less
  refine bind_noFuel (index_noFuel h i) (fun a _ => ?_)
  refine bind_noFuel (index_noFuel h j) (fun b _ => ?_)
  simp

theorem Swap_noFuel (h : List α) (i j : Nat) : Swap h i j ≠ .fault .outOfFuel := by
  unfold Swap
  refine bind_noFuel (index_noFuel h i) (fun a _ => ?_)
  refine bind_noFuel (index_noFuel h j) (fun b _ => ?_)
  simp

theorem Pop_noFuel (h : List α) : Pop h ≠ .fault .outOfFuel := by
  unfold Pop
  refine bind_noFuel (index_noFuel h _) (fun a _ => ?_)
  simp

/-- The scan of the grandchildren ends within five evaluations of its condition, and a
pick it reports as a grandchild is an index from `lchild(lchild(i))` on and below `n`. -/
theorem scanGrandchildren_noFuel (lt : α → α → Bool) (h : List α) (n : Nat) (min : Bool) (i : Nat) :
    ∀ (fuel j m : Nat) (child : Bool), lchild (lchild i) ≤ j → j ≤ rchild (rchild i) + 1 →
      rchild (rchild i) + 2 ≤ j + fuel → (child = false → lchild (lchild i) ≤ m ∧ m < n) →
      scanGrandchildren lt h n min i fuel j m child ≠ .fault .outOfFuel ∧
        ∀ m1 c1, scanGrandchildren lt h n min i fuel j m child = .ok (m1, c1) →
          c1 = false → lchild (lchild i) ≤ m1 ∧ m1 < n := by
  intro fuel
  induction fuel with
  | zero => intro j m child h1 h2 h3; omega
  | succ fuel ih =>
    intro j m child h1 h2 h3 hp
    unfold scanGrandchildren
    by_cases hj : j < n ∧ j ≤ rchild (rchild i)
    · simp only [hj, and_self, if_true]
      have s1 := ih (j + 1) j false (by omega) (by omega) (by omega) (fun _ => ⟨h1, hj.1⟩)
      have s2 := ih (j + 1) m child (by omega) (by omega) (by omega) hp
      cases hl : Less lt h j m with
      | fault e =>
        simp only [fault_bind]
        exact ⟨fault_ne_of (Less_noFuel h j m) hl, fun m1 c1 hh => by simp at hh⟩
      | ok b =>
        simp only [ok_bind]
        cases hb : (b == min)
        · simp only [Bool.false_eq_true, if_false]; exact s2
        · simp only [if_true]; exact s1
    · simp only [hj, if_false, pure_eq_ok]
      refine ⟨by simp, ?_⟩
      intro m1 c1 hh hc
      simp only [Res.ok.injEq, Prod.mk.injEq] at hh
      obtain ⟨e1, e2⟩ := hh
      subst e1 e2
      exact hp hc

/-- The loop of `downMinMax` ends: `n - m + 1` evaluations of its condition are enough
on every container, in bounds or not. -/
theorem downMinMax_noFuel (n : Nat) (min : Bool) :
    ∀ (fuel : Nat) (h : List α) (m : Nat), n - m < fuel →
      downMinMax lt fuel h m n min ≠ .fault .outOfFuel := by
  intro fuel
  induction fuel with
  | zero => intro h m hf; omega
  | succ fuel ih =>
    intro h m hf
    unfold downMinMax
    by_cases hc : lchild m < n
    · simp only [hasChildren, hc, decide_True, if_true]
      refine bind_noFuel ?_ (fun m0 _ => ?_)
      · by_cases hr : rchild m < n
        · simp only [hr, if_true]
          exact bind_noFuel (Less_noFuel h _ _) (fun b _ => by simp)
        · simp only [hr, if_false]; simp
      · obtain ⟨s1, s2⟩ := scanGrandchildren_noFuel lt h n min m 5 (lchild (lchild m))
          m0 true (Nat.le_refl _) (by unfold lchild rchild; omega)
          (by unfold lchild rchild; omega) (fun hf => by simp at hf)
        refine bind_noFuel s1 (fun r hr => ?_)
        obtain ⟨b, c⟩ := r
        have hb := s2 b c hr
        simp only
        refine bind_noFuel (Less_noFuel h _ _) (fun t _ => ?_)
        cases ht : (t != min)
        · simp only [Bool.false_eq_true, if_false]
          refine bind_noFuel (Swap_noFuel h _ _) (fun h1 _ => ?_)
          cases c
          · simp only [Bool.false_eq_true, if_false]
            refine bind_noFuel (Less_noFuel h1 _ _) (fun t2 _ => ?_)
            refine bind_noFuel ?_ (fun h2 _ => ?_)
            · cases (t2 == min)
              · simp
              · simp only [if_true]; exact Swap_noFuel h1 _ _
            · have := hb rfl
              refine ih h2 b ?_
              simp only [lchild] at this
              omega
          · simp
        · simp
    · simp [hasChildren, hc]

/-- The loop of `upMinMax` ends: `i + 1` evaluations of its condition are enough on
every container, in bounds or not. -/
theorem upMinMax_noFuel (min : Bool) :
    ∀ (fuel : Nat) (h : List α) (i : Nat), i < fuel →
      upMinMax lt fuel h i min ≠ .fault .outOfFuel := by
  intro fuel
  induction fuel with
  | zero => intro h i hf; omega
  | succ fuel ih =>
    intro h i hf
    unfold upMinMax
    by_cases hg : 2 < i
    · simp only [hasGrandparent, gt_iff_lt, hg, decide_True, if_true]
      refine bind_noFuel (Less_noFuel h _ _) (fun t _ => ?_)
      cases (t == min)
      · simp
      · simp only [if_true]
        refine bind_noFuel (Swap_noFuel h _ _) (fun h1 _ => ?_)
        refine ih h1 _ ?_
        simp only [parent]; omega
    · simp [hasGrandparent, hg]

theorem bind_congr_ok {β γ : Type} {r : Res β} {f g : β → Res γ}
    (hfg : ∀ v, r = .ok v → f v = g v) : (r >>= f) = (r >>= g) := by
  cases r with
  | ok v => exact hfg v rfl
  | fault e => rfl

/-- Fuel beyond `n - m + 1` does not change what `downMinMax` returns. -/
theorem downMinMax_fuel (n : Nat) (min : Bool) :
    ∀ (fuel1 fuel2 : Nat) (h : List α) (m : Nat), n - m < fuel1 → n - m < fuel2 →
      downMinMax lt fuel1 h m n min = downMinMax lt fuel2 h m n min := by
  intro fuel1
  induction fuel1 with
  | zero => intro fuel2 h m hf; omega
  | succ fuel1 ih =>
    intro fuel2 h m hf1 hf2
    cases fuel2 with
    | zero => omega
    | succ fuel2 =>
      unfold downMinMax
      by_cases hc : lchild m < n
      · simp only [hasChildren, hc, decide_True, if_true]
        refine bind_congr_ok (fun m0 _ => ?_)
        obtain ⟨_, s2⟩ := scanGrandchildren_noFuel lt h n min m 5 (lchild (lchild m))
          m0 true (Nat.le_refl _) (by unfold lchild rchild; omega)
          (by unfold lchild rchild; omega) (fun hf => by simp at hf)
        refine bind_congr_ok (fun r hr => ?_)
        obtain ⟨b, c⟩ := r
        have hb := s2 b c hr
        simp only
        refine bind_congr_ok (fun t _ => ?_)
        cases ht : (t != min)
        · simp only [Bool.false_eq_true, if_false]
          refine bind_congr_ok (fun h1 _ => ?_)
          cases c
          · simp only [Bool.false_eq_true, if_false]
            refine bind_congr_ok (fun t2 _ => ?_)
            refine bind_congr_ok (fun h2 _ => ?_)
            have := hb rfl
            simp only [lchild] at this
            exact ih fuel2 h2 b (by omega) (by omega)
          · rfl
        · rfl
      · simp [hasChildren, hc]

/-- Fuel beyond `i + 1` does not change what `upMinMax` returns. -/
theorem upMinMax_fuel (min : Bool) :
    ∀ (fuel1 fuel2 : Nat) (h : List α) (i : Nat), i < fuel1 → i < fuel2 →
      upMinMax lt fuel1 h i min = upMinMax lt fuel2 h i min := by
  intro fuel1
  induction fuel1 with
  | zero => intro fuel2 h i hf; omega
  | succ fuel1 ih =>
    intro fuel2 h i hf1 hf2
    cases fuel2 with
    | zero => omega
    | succ fuel2 =>
      unfold upMinMax
      by_cases hg : 2 < i
      · simp only [hasGrandparent, gt_iff_lt, hg, decide_True, if_true]
        refine bind_congr_ok (fun t _ => ?_)
        cases (t == min)
        · rfl
        · simp only [if_true]
          refine bind_congr_ok (fun h1 _ => ?_)
          have : parent (parent i) < i := by simp only [parent]; omega
          exact ih fuel2 h1 _ (by omega) (by omega)
      · simp [hasGrandparent, hg]

end Termination


/-! ### Ties under the tests `Less(..) == min`, and the modelled `Remove` -/

section Ties

variable {α : Type} {lt : α → α → Bool}

theorem strictWeak_ltKey : StrictWeak ltKey := by
  refine ⟨?_, ?_, ?_⟩
  · intro a; simp [ltKey]
  · intro a b c; simp only [ltKey, decide_eq_true_eq]; omega
  · intro a b c; simp only [ltKey, decide_eq_false_iff_not]; omega

theorem PopMin_noFuel (lt : α → α → Bool) (h : List α) : PopMin lt h ≠ .fault .outOfFuel := by
  by_cases hn : 1 ≤ h.length
  · obtain ⟨x, h1, e, _⟩ := PopMin_spec lt h hn
    rw [e]; simp
  · have : h = [] := List.length_eq_zero.1 (by omega)
    subst this
    simp [PopMin, Len, Swap, index]

theorem PopMax_noFuel (lt : α → α → Bool) (h : List α) : PopMax lt h ≠ .fault .outOfFuel := by
  by_cases hn : 1 ≤ h.length
  · obtain ⟨x, h1, e, _⟩ := PopMax_spec lt h hn
    rw [e]; simp
  · have : h = [] := List.length_eq_zero.1 (by omega)
    subst this
    simp [PopMax, Len, Pop, index]

/-- A round of `downMinMax` whose pick is in order with the element at `m` (strictly so
on a max level) returns the container as it is. -/
theorem down_stop_spec (sw : StrictWeak lt) {h : List α} {m n : Nat} {x y : α}
    (hn : n ≤ h.length) (hx : h[m]? = some x)
    (hbest : ∀ k v, k < n → isChildOrGrandchild m k = true → h[k]? = some v →
      above lt (isMinLevel m) y v = true)
    (hstop : (isMinLevel m = true ∧ lt y x = false) ∨ (isMinLevel m = false ∧ lt y x = true)) :
    down lt h m n = .ok h := by
  obtain ⟨h1, e, r⟩ := down_rel lt h m n hn
  rw [e]
  have key : ∀ (b1 : Nat) (x1 y1 : α), h[m]? = some x1 →
      IsBest lt h n (isMinLevel m) m b1 y1 → (lt y1 x1 == isMinLevel m) = true → False := by
    intro b1 x1 y1 hx1 hb1 ht
    rw [hx] at hx1; cases hx1
    obtain ⟨hb1n, hb1c, hy1, _⟩ := hb1
    have a2 : above lt (isMinLevel m) y y1 = true := hbest b1 y1 hb1n hb1c hy1
    rcases hstop with ⟨hm, hs⟩ | ⟨hm, hs⟩
    · rw [hm] at a2 ht
      simp only [above, if_true, Bool.not_eq_true'] at a2
      have : lt y1 x = false := sw.le_trans hs a2
      rw [this] at ht
      simp at ht
    · rw [hm] at a2 ht
      simp only [above, Bool.false_eq_true, if_false, Bool.not_eq_true'] at a2
      have h1 : lt y1 x = false := by simpa using ht
      have : lt y x = false := sw.le_trans h1 a2
      rw [this] at hs
      simp at hs
  cases r with
  | leaf hl => rfl
  | stop _ _ _ _ => rfl
  | child _ hx1 hb1 ht _ => exact absurd (key _ _ _ hx1 hb1 ht) id
  | grand _ hx1 hb1 ht _ _ _ _ _ => exact absurd (key _ _ _ hx1 hb1 ht) id

theorem up_root (lt : α → α → Bool) (h : List α) : up lt h 0 = .ok h := by
  simp [up, hasParent, upMinMax, hasGrandparent]

theorem up_parent_rule (lt : α → α → Bool) {h : List α} {i : Nat} {vi vp : α} (h0 : 0 < i)
    (hvi : h[i]? = some vi) (hvp : h[parent i]? = some vp) :
    up lt h i =
      if (isMinLevel i = true ∧ lt vi vp = false) ∨ (isMinLevel i = false ∧ lt vi vp = true)
      then upMinMax lt (i + 1) ((h.set i vp).set (parent i) vi) (parent i) (!isMinLevel i)
      else upMinMax lt (i + 1) h i (isMinLevel i) := by
  unfold up
  simp only [hasParent, gt_iff_lt, h0, decide_True, if_true, Less_ok hvi hvp, ok_bind,
    pure_eq_ok]
  cases hl : lt vi vp <;> cases hm : isMinLevel i <;> simp [Swap_ok hvi hvp]

theorem upMinMax_round_rule (lt : α → α → Bool) {h : List α} {j : Nat} {vj vg : α}
    (fuel : Nat) (min : Bool) (hj : 2 < j) (hvj : h[j]? = some vj)
    (hvg : h[parent (parent j)]? = some vg) :
    upMinMax lt (fuel + 1) h j min =
      if (min = true ∧ lt vj vg = true) ∨ (min = false ∧ lt vj vg = false)
      then upMinMax lt fuel ((h.set j vg).set (parent (parent j)) vj) (parent (parent j)) min
      else .ok h := by
  rw [upMinMax]
  simp only [hasGrandparent, gt_iff_lt, hj, decide_True, if_true, Less_ok hvj hvg, ok_bind]
  cases hl : lt vj vg <;> cases min <;> simp [Swap_ok hvj hvg]

/-- The `Remove` modelled from the specification returns, on every container and at
every index in range, the element that was at that index, and keeps all the others. -/
theorem Remove_spec (lt : α → α → Bool) (h : List α) (i : Nat) (hi : i < h.length) :
    ∃ x h1, Remove lt h i = .ok (x, h1) ∧ h[i]? = some x ∧ h1.length + 1 = h.length ∧
      (x :: h1).Perm h := by
  obtain ⟨a, ha⟩ := get_of_lt hi
  obtain ⟨b, hb⟩ := get_of_lt (show h.length - 1 < h.length by omega)
  have hg := get_swap ha hb
  have hl : ((h.set i b).set (h.length - 1) a).length = h.length := by simp
  have hx : ((h.set i b).set (h.length - 1) a)[
      ((h.set i b).set (h.length - 1) a).length - 1]? = some a := by
    rw [hl, hg, if_pos rfl]
  obtain ⟨e1, p1⟩ := Pop_ok hx
  rw [hl] at e1 p1
  have p2 := p1.trans (perm_swap ha hb)
  have lt1 : (List.take (h.length - 1) ((h.set i b).set (h.length - 1) a)).length =
      h.length - 1 := by
    rw [List.length_take, hl]; omega
  by_cases hlast : i < h.length - 1
  · obtain ⟨t2, e2, r2⟩ := down_rel lt
      (List.take (h.length - 1) ((h.set i b).set (h.length - 1) a)) i
      (List.take (h.length - 1) ((h.set i b).set (h.length - 1) a)).length (Nat.le_refl _)
    have l2 : t2.length = h.length - 1 := by rw [r2.length_eq, lt1]
    obtain ⟨t3, e3, l3, p3, _⟩ := up_spec lt t2 i (by omega)
    refine ⟨a, t3, ?_, ha, by omega, ((p3.trans r2.perm).cons a).trans p2⟩
    simp only [Remove, Len, Swap_ok ha hb, ok_bind, e1, hlast, if_true, e2, e3, pure_eq_ok]
  · refine ⟨a, _, ?_, ha, by omega, p2⟩
    simp only [Remove, Len, Swap_ok ha hb, ok_bind, e1, hlast, if_false, pure_eq_ok]

end Ties


/-! ### The modelled `Remove` keeps every element in order with its children -/

section RemoveProofs

variable {α : Type} {lt : α → α → Bool}

theorem childInv_iff (s : List α) :
    ChildInv lt s ↔ ∀ k, 0 < k → ∀ vp vk, s[parent k]? = some vp → s[k]? = some vk →
      above lt (isMinLevel (parent k)) vp vk = true := by
  constructor
  · intro hc k hk vp vk hp hkk
    exact (holdsAt_iff s (parent k) k).1 (hc k (lt_of_get hkk) hk) vp vk hp hkk
  · intro hc k _ hk
    exact (holdsAt_iff s (parent k) k).2 (hc k hk)

/-- The min-max invariant implies the order between parents and children. -/
theorem childInv_of_allPairs {s : List α} (hp : AllPairs lt s s.length) : ChildInv lt s := by
  rw [childInv_iff]
  intro k hk vp vk hvp hvk
  have hpk : parent k < k := by simp only [parent]; omega
  exact hp (parent k) k (Sub.of_parent hk (Sub.refl _)) (by omega) (lt_of_get hvk) vp vk hvp hvk

/-- The loop of `upMinMax`, on the order between parents and children. -/
theorem upMinMax_children (lt : α → α → Bool) (nu : Bool) :
    ∀ (fuel : Nat) (s : List α) (j : Nat), j < fuel → j < s.length →
      ∃ s1, upMinMax lt fuel s j nu = .ok s1 ∧
        (StrictWeak lt → isMinLevel j = nu → ChildInv lt s → GrandAbove lt s j nu →
          ChildInv lt s1) := by
  intro fuel
  induction fuel with
  | zero => intro s j hf; omega
  | succ fuel ih =>
    intro s j hf hj
    unfold upMinMax
    by_cases hg : 2 < j
    · have hgp : parent (parent j) < j := by simp only [parent]; omega
      obtain ⟨vi, hvi⟩ := get_of_lt hj
      obtain ⟨vg, hvg⟩ := get_of_lt (show parent (parent j) < s.length by omega)
      simp only [hasGrandparent, gt_iff_lt, hg, decide_True, if_true, Less_ok hvi hvg, ok_bind]
      have hpj : parent j < j := by simp only [parent]; omega
      have hgpp : parent (parent j) < parent j := by simp only [parent]; omega
      have hp0 : 0 < parent j := by simp only [parent]; omega
      cases ht : (lt vi vg == nu)
      · simp only [Bool.false_eq_true, if_false, pure_eq_ok]
        exact ⟨s, rfl, fun _ _ hc _ => hc⟩
      · simp only [if_true, Swap_ok hvi hvg, ok_bind]
        have hsw := get_swap hvi hvg
        obtain ⟨s1, e1, g1⟩ := ih ((s.set j vg).set (parent (parent j)) vi)
          (parent (parent j)) (by omega) (by simp; omega)
        refine ⟨s1, e1, ?_⟩
        intro sw hk hc hb
        have hkg : isMinLevel (parent (parent j)) = nu := by
          rw [isMinLevel_grandparent hg]; exact hk
        have hkp : isMinLevel (parent j) = !nu := by
          rw [isMinLevel_parent (by omega), hk]
        have top : above lt nu vi vg = true := above_of_test sw ht
        have sgj : Sub (parent (parent j)) j :=
          Sub.of_parent (by omega) (Sub.of_parent hp0 (Sub.refl _))
        rw [childInv_iff] at hc
        refine g1 sw hkg ?_ ?_
        · rw [childInv_iff]
          intro k hk0 vp vk hp hkk
          rw [hsw] at hp hkk
          by_cases k1 : k = j
          · subst k1
            rw [if_neg (by omega), if_pos rfl] at hkk; cases hkk
            rw [if_neg (by omega), if_neg (by omega)] at hp
            have := hc (parent k) hp0 vg vp hvg hp
            rw [hkg] at this
            rw [hkp, above_flip]
            exact this
          · by_cases k2 : parent k = j
            · rw [k2, if_neg (by omega), if_pos rfl] at hp; cases hp
              have hkj : j < k := by rw [← k2]; simp only [parent]; omega
              rw [if_neg (by omega), if_neg (by omega)] at hkk
              rw [k2, hk]
              exact hb j k (Sub.refl _) hk hg hk0 k2 vg vk hvg hkk
            · by_cases k3 : k = parent (parent j)
              · subst k3
                rw [if_pos rfl] at hkk; cases hkk
                have hlt : parent (parent (parent j)) < parent (parent j) := by
                  simp only [parent] at hk0 ⊢; omega
                rw [if_neg (by omega), if_neg (by omega)] at hp
                have hkgp : isMinLevel (parent (parent (parent j))) = !nu := by
                  rw [isMinLevel_parent hk0, hkg]
                have old := hc _ hk0 vp vg hp hvg
                rw [hkgp] at old ⊢
                refine above_trans sw old ?_
                rw [above_flip]; exact top
              · by_cases k4 : parent k = parent (parent j)
                · rw [k4, if_pos rfl] at hp; cases hp
                  rw [if_neg k3, if_neg k1] at hkk
                  have old := hc k hk0 vg vk (k4 ▸ hvg) hkk
                  rw [k4, hkg] at old ⊢
                  exact above_trans sw top old
                · rw [if_neg k4, if_neg k2] at hp
                  rw [if_neg k3, if_neg k1] at hkk
                  exact hc k hk0 vp vk hp hkk
        · intro r c sr hr h2 hc0 hpc vg1 vc hg1 hc1
          have hrle := sr.le
          have hgr : parent (parent r) < r := by simp only [parent]; omega
          rw [hsw, if_neg (by omega), if_neg (by omega)] at hg1
          have hkc : isMinLevel c = !nu := by
            have := isMinLevel_parent hc0
            rw [hpc, hr] at this
            rw [this, Bool.not_not]
          have c1 : ¬ c = parent (parent j) := by
            intro e; rw [e, hkg] at hkc; cases nu <;> simp at hkc
          have c2 : ¬ c = j := by
            intro e; rw [e, hk] at hkc; cases nu <;> simp at hkc
          rw [hsw, if_neg c1, if_neg c2] at hc1
          exact hb r c (sr.trans sgj) hr h2 hc0 hpc vg1 vc hg1 hc1
    · simp only [hasGrandparent, gt_iff_lt, hg, decide_False, Bool.false_eq_true, if_false,
        pure_eq_ok]
      exact ⟨s, rfl, fun _ _ hc _ => hc⟩

theorem AfterDown.parent_pair {s : List α} {i : Nat} (hd : AfterDown lt s i) {k : Nat} (hk : 0 < k)
    (hki : k ≠ i) : Pair lt s (parent k) k := by
  have hpk : parent k < k := by simp only [parent]; omega
  refine hd (parent k) k (Sub.of_parent hk (Sub.refl _)) (by omega) hki ?_
  intro sik
  exact Or.inl (sik.parent_mem hki)

theorem AfterDown.grandAbove {s : List α} {i : Nat} (hd : AfterDown lt s i) :
    GrandAbove lt s i (isMinLevel i) := by
  intro r c sr hr h2 hc0 hpc vg vc hg hc
  have hgr : parent (parent r) < r := by simp only [parent]; omega
  have hrc : r < c := by rw [← hpc]; simp only [parent]; omega
  have hkc : isMinLevel c = !isMinLevel i := by
    have := isMinLevel_parent hc0
    rw [hpc, hr] at this
    rw [this, Bool.not_not]
  have hci : c ≠ i := by
    intro e; rw [e] at hkc; cases hm : isMinLevel i <;> simp [hm] at hkc
  have hkg : isMinLevel (parent (parent r)) = isMinLevel i := by
    rw [isMinLevel_grandparent h2]; exact hr
  have sgr : Sub (parent (parent r)) r :=
    Sub.of_parent (by omega) (Sub.of_parent (by simp only [parent]; omega) (Sub.refl _))
  have sgc : Sub (parent (parent r)) c := Sub.of_parent hc0 (hpc ▸ sgr)
  have := hd (parent (parent r)) c sgc (by omega) hci (fun _ => Or.inr hkg) vg vc hg hc
  rw [hkg] at this
  exact this

/-- The sift-up of `Remove`: from the state the sift-down leaves, `up` puts every element
in order with its children. -/
theorem up_children (lt : α → α → Bool) (s : List α) (i : Nat) (hi : i < s.length) :
    ∃ s1, up lt s i = .ok s1 ∧ (StrictWeak lt → AfterDown lt s i → ChildInv lt s1) := by
  unfold up
  obtain ⟨vi, hvi⟩ := get_of_lt hi
  by_cases h0 : 0 < i
  · have hpi : parent i < i := by simp only [parent]; omega
    obtain ⟨vp, hvp⟩ := get_of_lt (show parent i < s.length by omega)
    have spi : Sub (parent i) i := Sub.of_parent h0 (Sub.refl _)
    have hkp : isMinLevel (parent i) = !isMinLevel i := isMinLevel_parent h0
    simp only [hasParent, gt_iff_lt, h0, decide_True, if_true, Less_ok hvi hvp, ok_bind,
      pure_eq_ok]
    cases ht : (lt vi vp == isMinLevel i)
    · have hv : (lt vi vp != isMinLevel i) = true := by
        cases hl : lt vi vp <;> cases hm : isMinLevel i <;> simp_all
      simp only [hv, if_true, Swap_ok hvi hvp, ok_bind]
      have hsw := get_swap hvi hvp
      obtain ⟨s1, e1, g1⟩ := upMinMax_children lt (!isMinLevel i) (i + 1)
        ((s.set i vp).set (parent i) vi) (parent i) (by omega) (by simp; omega)
      refine ⟨s1, e1, ?_⟩
      intro sw hd
      have low : above lt (isMinLevel i) vp vi = true := above_of_not_test sw ht
      have low2 : above lt (!isMinLevel i) vi vp = true := by rw [above_flip]; exact low
      have nsub : ∀ k, k < i → ¬ Sub i k := fun k hk sk => by have := sk.le; omega
      refine g1 sw hkp ?_ ?_
      · rw [childInv_iff]
        intro k hk0 v1 v2 h1 h2
        rw [hsw] at h1 h2
        have hpk : parent k < k := by simp only [parent]; omega
        by_cases k1 : k = i
        · subst k1
          rw [if_pos rfl] at h1; cases h1
          rw [if_neg (by omega), if_pos rfl] at h2; cases h2
          rw [hkp]; exact low2
        · by_cases k2 : parent k = i
          · rw [k2, if_neg (by omega), if_pos rfl] at h1; cases h1
            rw [if_neg (by omega), if_neg k1] at h2
            have sik : Sub i k := Sub.of_parent hk0 (k2 ▸ Sub.refl _)
            have := hd i k sik (by omega) k1 (fun _ => Or.inl (Sub.refl i)) vi v2 hvi h2
            rw [k2]
            exact above_trans sw low this
          · by_cases k3 : k = parent i
            · subst k3
              rw [if_pos rfl] at h2; cases h2
              rw [if_neg (by omega), if_neg (by omega)] at h1
              have old := hd.parent_pair hk0 (by omega) v1 vp h1 hvp
              have hkk : isMinLevel (parent (parent i)) = isMinLevel i := by
                rw [isMinLevel_parent hk0, hkp, Bool.not_not]
              rw [hkk] at old ⊢
              exact above_trans sw old low
            · by_cases k4 : parent k = parent i
              · rw [k4, if_pos rfl] at h1; cases h1
                rw [if_neg k3, if_neg k1] at h2
                have old := hd.parent_pair hk0 k1 vp v2 (k4 ▸ hvp) h2
                rw [k4, hkp] at old ⊢
                exact above_trans sw low2 old
              · rw [if_neg k4, if_neg k2] at h1
                rw [if_neg k3, if_neg k1] at h2
                exact hd.parent_pair hk0 k1 v1 v2 h1 h2
      · intro r c sr hr h2 hc0 hpc vg vc hg hc
        have hrle := sr.le
        have hgr : parent (parent r) < r := by simp only [parent]; omega
        have hrc : r < c := by rw [← hpc]; simp only [parent]; omega
        rw [hsw, if_neg (by omega), if_neg (by omega)] at hg
        have hkg : isMinLevel (parent (parent r)) = !isMinLevel i := by
          rw [isMinLevel_grandparent h2]; exact hr
        have sgr : Sub (parent (parent r)) r :=
          Sub.of_parent (by omega) (Sub.of_parent (by simp only [parent]; omega) (Sub.refl _))
        have hkc : isMinLevel c = isMinLevel i := by
          have := isMinLevel_parent hc0
          rw [hpc, hr] at this
          cases hm : isMinLevel c <;> cases hm2 : isMinLevel i <;> simp [hm, hm2] at this ⊢
        have c1 : ¬ c = parent i := by
          intro e; rw [e, hkp] at hkc; cases hm : isMinLevel i <;> simp [hm] at hkc
        rw [hsw, if_neg c1] at hc
        by_cases c2 : c = i
        · rw [if_pos c2] at hc; cases hc
          have hrp : r = parent i := by rw [← hpc, c2]
          subst hrp
          have := hd (parent (parent (parent i))) (parent i) sgr (by omega) (by omega)
            (fun sk => absurd sk (nsub _ hpi)) vg vp hg hvp
          rw [hkg] at this
          exact this
        · rw [if_neg c2] at hc
          have sgc : Sub (parent (parent r)) c := Sub.of_parent hc0 (hpc ▸ sgr)
          have nic : ¬ Sub i c := by
            intro sk
            have := (sk.parent_mem c2).le
            rw [hpc] at this
            omega
          have := hd (parent (parent r)) c sgc (by omega) c2 (fun sk => absurd sk nic) vg vc
            hg hc
          rw [hkg] at this
          exact this
    · have hv : (lt vi vp != isMinLevel i) = false := by
        cases hl : lt vi vp <;> cases hm : isMinLevel i <;> simp_all
      simp only [hv, Bool.false_eq_true, if_false]
      obtain ⟨s1, e1, g1⟩ := upMinMax_children lt (isMinLevel i) (i + 1) s i (by omega) hi
      refine ⟨s1, e1, ?_⟩
      intro sw hd
      refine g1 sw rfl ?_ hd.grandAbove
      have up1 : above lt (!isMinLevel i) vp vi = true := by
        rw [above_flip]; exact above_of_test sw ht
      rw [childInv_iff]
      intro k hk0 v1 v2 h1 h2
      by_cases k1 : k = i
      · subst k1
        rw [hvp] at h1; cases h1
        rw [hvi] at h2; cases h2
        rw [hkp]; exact up1
      · exact hd.parent_pair hk0 k1 v1 v2 h1 h2
  · have hi0 : i = 0 := by omega
    subst hi0
    simp only [hasParent, gt_iff_lt, Nat.lt_irrefl, decide_False, Bool.false_eq_true, if_false,
      pure_eq_ok, ok_bind]
    obtain ⟨s1, e1, g1⟩ := upMinMax_children lt (isMinLevel 0) (0 + 1) s 0 (by omega) hi
    refine ⟨s1, e1, ?_⟩
    intro sw hd
    refine g1 sw rfl ?_ hd.grandAbove
    rw [childInv_iff]
    intro k hk0 v1 v2 h1 h2
    exact hd.parent_pair hk0 (by omega) v1 v2 h1 h2


/-- An element that is above everything a sift-down at `m` starts with below `m` is above
everything the sift-down leaves below `m`: what moves down from `m` was beaten by one of
them. -/
theorem DownRel.below_dominated (sw : StrictWeak lt) {n : Nat} {min : Bool} {t t2 : List α}
    {m : Nat} (r : DownRel lt n min t m t2) (w : α)
    (hw : ∀ d, Sub m d → d ≠ m → d < n → ∀ v, t[d]? = some v → above lt min w v = true) :
    ∀ d, Sub m d → d ≠ m → d < n → ∀ v, t2[d]? = some v → above lt min w v = true := by
  have moved : ∀ (b : Nat) (x y : α), t[m]? = some x → IsBest lt t n min m b y →
      (lt y x == min) = true →
      ∀ d, Sub m d → d ≠ m → d < n → ∀ v, t2[d]? = some v → above lt min w v = true := by
    intro b x y hx hb ht d sd _ hdn v hv
    obtain ⟨hbn, hbc, hy, _⟩ := hb
    have hbm : b ≠ m := by
      have := (cand_bounds hbc).1
      simp only [lchild] at this
      omega
    have wy : above lt min w y = true := hw b (Sub.of_cand hbc) hbm hbn y hy
    have wx : above lt min w x = true := above_trans sw wy (above_of_test sw ht)
    obtain ⟨j, sj, hjn, ej⟩ := r.values d sd hdn
    rw [ej] at hv
    by_cases e : j = m
    · rw [e, hx] at hv; cases hv; exact wx
    · exact hw j sj e hjn v hv
  cases r with
  | leaf hl => exact hw
  | stop _ _ _ _ => exact hw
  | child _ hx hb ht _ => exact moved _ _ _ hx hb ht
  | grand _ hx hb ht _ _ _ _ _ => exact moved _ _ _ hx hb ht

/-- The modelled `Remove` returns the element at the index, keeps the others, and, on a
container that satisfies the min-max invariant, leaves every element in order with its
children. -/
theorem Remove_children (lt : α → α → Bool) (h : List α) (i : Nat) (hi : i < h.length) :
    ∃ x h1, Remove lt h i = .ok (x, h1) ∧ h[i]? = some x ∧ h1.length + 1 = h.length ∧
      (x :: h1).Perm h ∧ (StrictWeak lt → MinMaxInv lt h → ChildInv lt h1) := by
  obtain ⟨a, ha⟩ := get_of_lt hi
  obtain ⟨b, hb⟩ := get_of_lt (show h.length - 1 < h.length by omega)
  have hg := get_swap ha hb
  have hl : ((h.set i b).set (h.length - 1) a).length = h.length := by simp
  have hx : ((h.set i b).set (h.length - 1) a)[
      ((h.set i b).set (h.length - 1) a).length - 1]? = some a := by
    rw [hl, hg, if_pos rfl]
  obtain ⟨e1, p1⟩ := Pop_ok hx
  rw [hl] at e1 p1
  have p2 := p1.trans (perm_swap ha hb)
  have lt1 : (List.take (h.length - 1) ((h.set i b).set (h.length - 1) a)).length =
      h.length - 1 := by
    rw [List.length_take, hl]; omega
  have hT : ∀ k, k < h.length - 1 → k ≠ i →
      (List.take (h.length - 1) ((h.set i b).set (h.length - 1) a))[k]? = h[k]? := by
    intro k hk hki
    rw [List.getElem?_take, if_pos hk, hg, if_neg (by omega), if_neg hki]
  by_cases hlast : i < h.length - 1
  · obtain ⟨t2, e2, r2⟩ := down_rel lt
      (List.take (h.length - 1) ((h.set i b).set (h.length - 1) a)) i
      (List.take (h.length - 1) ((h.set i b).set (h.length - 1) a)).length (Nat.le_refl _)
    have l2 : t2.length = h.length - 1 := by rw [r2.length_eq, lt1]
    obtain ⟨t3, e3, l3, p3, _⟩ := up_spec lt t2 i (by omega)
    obtain ⟨t4, e4, g4⟩ := up_children lt t2 i (by omega)
    have e34 : t4 = t3 := by
      have := e4.symm.trans e3
      injection this
    subst e34
    refine ⟨a, t4, ?_, ha, by omega, ((p3.trans r2.perm).cons a).trans p2, ?_⟩
    · simp only [Remove, Len, Swap_ok ha hb, ok_bind, e1, hlast, if_true, e2, e3, pure_eq_ok]
    · intro sw hinv
      have good := (minMaxInv_iff_good sw h).1 hinv
      have ap := (allPairs_iff_good sw h h.length).2 good
      refine g4 sw ?_
      rw [lt1] at r2
      have pre : ∀ k, Sub i k → k ≠ i → GoodAt lt
          (List.take (h.length - 1) ((h.set i b).set (h.length - 1) a)) (h.length - 1) k := by
        intro k s hne
        have hik : i < k := Nat.lt_of_le_of_ne s.le (fun e => hne e.symm)
        refine goodAt_congr_below (Nat.sub_le _ _) ?_ (good k)
        intro d sd hd
        have := sd.le
        exact hT d hd (by omega)
      have post := r2.good sw rfl (by rw [lt1]) pre
      intro c d s hne hdi hcond vc vd hc hd
      have hdn : d < h.length - 1 := by rw [← l2]; exact lt_of_get hd
      have hcd : c < d := Nat.lt_of_le_of_ne s.le hne
      by_cases sic : Sub i c
      · exact post c sic vc hc d s hdn vd hd
      · have hci : c ≠ i := fun e => sic (e ▸ Sub.refl _)
        rw [r2.frame c (Or.inl sic), hT c (by omega) hci] at hc
        by_cases sid : Sub i d
        · have hk : isMinLevel c = isMinLevel i := by
            rcases hcond sid with q | q
            · exact absurd q sic
            · exact q
          have sci : Sub c i := by
            rcases Sub.comparable s sid with q | q
            · exact q
            · exact absurd q sic
          have hlt : c < i := Nat.lt_of_le_of_ne sci.le hci
          rw [hk]
          refine r2.below_dominated sw vc ?_ d sid hdi hdn vd hd
          intro d1 s1 hne1 hd1 v hv
          rw [hT d1 hd1 hne1] at hv
          have hle := s1.le
          have := ap c d1 (sci.trans s1) (by omega) (by omega) vc v hc hv
          rw [hk] at this
          exact this
        · rw [r2.frame d (Or.inl sid), hT d hdn hdi] at hd
          exact ap c d s hne (by omega) vc vd hc hd
  · refine ⟨a, _, ?_, ha, by omega, p2, ?_⟩
    · simp only [Remove, Len, Swap_ok ha hb, ok_bind, e1, hlast, if_false, pure_eq_ok]
    · intro sw hinv
      have good := (minMaxInv_iff_good sw h).1 hinv
      have ap := (allPairs_iff_good sw h h.length).2 good
      rw [childInv_iff]
      intro k hk0 v1 v2 h1 h2
      have hkn : k < h.length - 1 := by rw [← lt1]; exact lt_of_get h2
      have hpk : parent k < k := by simp only [parent]; omega
      rw [hT (parent k) (by omega) (by omega)] at h1
      rw [hT k hkn (by omega)] at h2
      exact ap (parent k) k (Sub.of_parent hk0 (Sub.refl _)) (by omega) (by omega) v1 v2 h1 h2


end RemoveProofs



/-! ## The claims -/

section Claims

variable {α : Type}

/-- C1. `Init` returns on every container, whatever the order of its elements; the
container it leaves holds the same `n` elements (same length, a permutation of the
input) and satisfies the min-max invariant at every index: on an even level no child or
grandchild is `Less` than the element, on an odd level the element is not `Less` than
any child or grandchild (`Less` a strict weak ordering). -/
theorem Init_establishes_invariant (lt : α → α → Bool) (sw : StrictWeak lt) (h : List α) :
    ∃ h1, Init lt h = .ok h1 ∧ Len h1 = Len h ∧ h1.Perm h ∧ MinMaxInv lt h1 := by
  obtain ⟨h1, e1, l1, p1, g1⟩ := Init_spec lt h
  exact ⟨h1, e1, l1, p1, g1 sw⟩

/-- Witness of C1 on the input of `TestInit2`. -/
theorem Init_establishes_invariant_witness :
    StrictWeak intLt ∧
      ∃ h1, Init intLt [6, 10, 13, 3, 12, 8, 12, 2, 12, 16] = .ok h1 ∧
        Len h1 = Len [6, 10, 13, 3, 12, 8, 12, 2, 12, (16 : Int)] ∧
        h1.Perm [6, 10, 13, 3, 12, 8, 12, 2, 12, 16] ∧ MinMaxInv intLt h1 :=
  ⟨strictWeak_intLt,
    Init_establishes_invariant intLt strictWeak_intLt [6, 10, 13, 3, 12, 8, 12, 2, 12, 16]⟩

/-- C2. On a container with at least one element that satisfies the min-max invariant,
`PopMin` returns the element that was at index 0 before the call, and no element that
remains in the container is `Less` than it. -/
theorem PopMin_returns_minimum (lt : α → α → Bool) (sw : StrictWeak lt) (h : List α)
    (hn : 1 ≤ Len h) (hinv : MinMaxInv lt h) :
    ∃ x h1, PopMin lt h = .ok (x, h1) ∧ h[0]? = some x ∧ ∀ y ∈ h1, lt y x = false := by
  obtain ⟨x, h1, e, hx, _, _, g⟩ := PopMin_spec lt h hn
  exact ⟨x, h1, e, hx, (g sw hinv).2⟩

/-- Witness of C2 on a heap of ten integers. -/
theorem PopMin_returns_minimum_witness :
    StrictWeak intLt ∧ 1 ≤ Len [2, 16, 13, 3, 10, 8, 12, 6, 12, (12 : Int)] ∧
      MinMaxInv intLt [2, 16, 13, 3, 10, 8, 12, 6, 12, 12] ∧
      ∃ x h1, PopMin intLt [2, 16, 13, 3, 10, 8, 12, 6, 12, 12] = .ok (x, h1) ∧
        [2, 16, 13, 3, 10, 8, 12, 6, 12, (12 : Int)][0]? = some x ∧
        ∀ y ∈ h1, intLt y x = false :=
  ⟨strictWeak_intLt, by decide, by decide,
    PopMin_returns_minimum intLt strictWeak_intLt [2, 16, 13, 3, 10, 8, 12, 6, 12, 12]
      (by decide) (by decide)⟩

/-- C3. On a container with at least one element that satisfies the min-max invariant,
`PopMax` returns an element `x` of the container (`x` together with the remaining
elements is a permutation of the old contents) that is not `Less` than any element of
the container, so not `Less` than any element that remains; for `n ≤ 2` it is the last
element, for `n ≥ 3` it is the element at index 1 or at index 2 (the one at index 2
unless that one is `Less` than the one at index 1). -/
theorem PopMax_returns_maximum (lt : α → α → Bool) (sw : StrictWeak lt) (h : List α)
    (hn : 1 ≤ Len h) (hinv : MinMaxInv lt h) :
    ∃ x h1, PopMax lt h = .ok (x, h1) ∧ (x :: h1).Perm h ∧
      (∀ y ∈ h, lt x y = false) ∧ (∀ y ∈ h1, lt x y = false) ∧
      (Len h ≤ 2 → h[Len h - 1]? = some x) ∧
      (3 ≤ Len h → h[1]? = some x ∨ h[2]? = some x) ∧
      (3 ≤ Len h → ∀ v1 v2, h[1]? = some v1 → h[2]? = some v2 →
        x = if lt v2 v1 = true then v1 else v2) := by
  obtain ⟨x, h1, e, _, hp, h2, h3, g⟩ := PopMax_spec lt h hn
  refine ⟨x, h1, e, hp, ?_, (g sw hinv).2, h2, h3, ?_⟩
  · intro y hy
    rcases List.mem_cons.1 (hp.mem_iff.2 hy) with c | c
    · rw [c]; exact sw.irrefl x
    · exact (g sw hinv).2 y c
  · intro hl v1 v2 hv1 hv2
    obtain ⟨hr, e2⟩ := PopMax_pick lt h hl hv1 hv2
    rw [e] at e2
    simp only [Res.ok.injEq, Prod.mk.injEq] at e2
    exact e2.1

/-- Witness of C3 on a heap of ten integers. -/
theorem PopMax_returns_maximum_witness :
    StrictWeak intLt ∧ 1 ≤ Len [2, 16, 13, 3, 10, 8, 12, 6, 12, (12 : Int)] ∧
      MinMaxInv intLt [2, 16, 13, 3, 10, 8, 12, 6, 12, 12] ∧
      ∃ x h1, PopMax intLt [2, 16, 13, 3, 10, 8, 12, 6, 12, 12] = .ok (x, h1) ∧
        (x :: h1).Perm [2, 16, 13, 3, 10, 8, 12, 6, 12, 12] ∧
        (∀ y ∈ [2, 16, 13, 3, 10, 8, 12, 6, 12, (12 : Int)], intLt x y = false) ∧
        (∀ y ∈ h1, intLt x y = false) ∧
        (Len [2, 16, 13, 3, 10, 8, 12, 6, 12, (12 : Int)] ≤ 2 →
          [2, 16, 13, 3, 10, 8, 12, 6, 12, (12 : Int)][
            Len [2, 16, 13, 3, 10, 8, 12, 6, 12, (12 : Int)] - 1]? = some x) ∧
        (3 ≤ Len [2, 16, 13, 3, 10, 8, 12, 6, 12, (12 : Int)] →
          [2, 16, 13, 3, 10, 8, 12, 6, 12, (12 : Int)][1]? = some x ∨
            [2, 16, 13, 3, 10, 8, 12, 6, 12, (12 : Int)][2]? = some x) ∧
        (3 ≤ Len [2, 16, 13, 3, 10, 8, 12, 6, 12, (12 : Int)] → ∀ v1 v2,
          [2, 16, 13, 3, 10, 8, 12, 6, 12, (12 : Int)][1]? = some v1 →
          [2, 16, 13, 3, 10, 8, 12, 6, 12, (12 : Int)][2]? = some v2 →
          x = if intLt v2 v1 = true then v1 else v2) :=
  ⟨strictWeak_intLt, by decide, by decide,
    PopMax_returns_maximum intLt strictWeak_intLt [2, 16, 13, 3, 10, 8, 12, 6, 12, 12]
      (by decide) (by decide)⟩

/-- C4. `Push` preserves the invariant: on a container that satisfies the min-max
invariant (children-and-grandchildren form), `Push(h, x)` returns for every element `x`,
and the container it leaves holds the old elements and `x` (one element more, a
permutation of `x` and the old contents) and satisfies the min-max invariant at every
index. -/
theorem Push_preserves_invariant (lt : α → α → Bool) (sw : StrictWeak lt) (h : List α) (x : α)
    (hinv : MinMaxInv lt h) :
    ∃ h1, Push lt h x = .ok h1 ∧ Len h1 = Len h + 1 ∧ h1.Perm (x :: h) ∧
      MinMaxInv lt h1 := by
  obtain ⟨h1, e, l, p, g⟩ := Push_spec lt h x
  exact ⟨h1, e, l, p, g sw hinv⟩

/-- Witness of C4: pushing `1` onto a heap of ten integers. -/
theorem Push_preserves_invariant_witness :
    StrictWeak intLt ∧ MinMaxInv intLt [2, 16, 13, 3, 10, 8, 12, 6, 12, 12] ∧
      ∃ h1, Push intLt [2, 16, 13, 3, 10, 8, 12, 6, 12, 12] 1 = .ok h1 ∧
        Len h1 = Len [2, 16, 13, 3, 10, 8, 12, 6, 12, (12 : Int)] + 1 ∧
        h1.Perm (1 :: [2, 16, 13, 3, 10, 8, 12, 6, 12, 12]) ∧ MinMaxInv intLt h1 :=
  ⟨strictWeak_intLt, by decide,
    Push_preserves_invariant intLt strictWeak_intLt [2, 16, 13, 3, 10, 8, 12, 6, 12, 12] 1
      (by decide)⟩

/-- C5. `PopMin` preserves the invariant: on a container with `n ≥ 1` elements that
satisfies the min-max invariant, `PopMin` returns the element `x` that was at index 0,
and the `n - 1` elements that remain (with `x` they are a permutation of the old
contents) satisfy the min-max invariant at every index. -/
theorem PopMin_preserves_invariant (lt : α → α → Bool) (sw : StrictWeak lt) (h : List α)
    (hn : 1 ≤ Len h) (hinv : MinMaxInv lt h) :
    ∃ x h1, PopMin lt h = .ok (x, h1) ∧ h[0]? = some x ∧ Len h1 = Len h - 1 ∧
      (x :: h1).Perm h ∧ MinMaxInv lt h1 := by
  obtain ⟨x, h1, e, hx, hl, hp, g⟩ := PopMin_spec lt h hn
  refine ⟨x, h1, e, hx, ?_, hp, (g sw hinv).1⟩
  simp only [Len]; omega

/-- Witness of C5 on a heap of ten integers. -/
theorem PopMin_preserves_invariant_witness :
    StrictWeak intLt ∧ 1 ≤ Len [2, 16, 13, 3, 10, 8, 12, 6, 12, (12 : Int)] ∧
      MinMaxInv intLt [2, 16, 13, 3, 10, 8, 12, 6, 12, 12] ∧
      ∃ x h1, PopMin intLt [2, 16, 13, 3, 10, 8, 12, 6, 12, 12] = .ok (x, h1) ∧
        [2, 16, 13, 3, 10, 8, 12, 6, 12, (12 : Int)][0]? = some x ∧
        Len h1 = Len [2, 16, 13, 3, 10, 8, 12, 6, 12, (12 : Int)] - 1 ∧
        (x :: h1).Perm [2, 16, 13, 3, 10, 8, 12, 6, 12, 12] ∧ MinMaxInv intLt h1 :=
  ⟨strictWeak_intLt, by decide, by decide,
    PopMin_preserves_invariant intLt strictWeak_intLt [2, 16, 13, 3, 10, 8, 12, 6, 12, 12]
      (by decide) (by decide)⟩

/-- C6. `PopMax` preserves the invariant: on a container with `n ≥ 1` elements that
satisfies the min-max invariant (equal elements allowed), `PopMax` returns an element
`x` that is not `Less` than any element of the container (the last element for `n ≤ 2`,
the element at index 1 or 2 for `n ≥ 3`), and the `n - 1` elements that remain (with
`x` they are a permutation of the old contents) satisfy the min-max invariant at every
index. -/
theorem PopMax_preserves_invariant (lt : α → α → Bool) (sw : StrictWeak lt) (h : List α)
    (hn : 1 ≤ Len h) (hinv : MinMaxInv lt h) :
    ∃ x h1, PopMax lt h = .ok (x, h1) ∧ Len h1 = Len h - 1 ∧ (x :: h1).Perm h ∧
      (∀ y ∈ h, lt x y = false) ∧
      (Len h ≤ 2 → h[Len h - 1]? = some x) ∧
      (3 ≤ Len h → ∀ v1 v2, h[1]? = some v1 → h[2]? = some v2 →
        x = if lt v2 v1 = true then v1 else v2) ∧
      MinMaxInv lt h1 := by
  obtain ⟨x, h1, e, hl, hp, h2, _, g⟩ := PopMax_spec lt h hn
  refine ⟨x, h1, e, ?_, hp, ?_, h2, ?_, (g sw hinv).1⟩
  · simp only [Len]; omega
  · intro y hy
    rcases List.mem_cons.1 (hp.mem_iff.2 hy) with c | c
    · rw [c]; exact sw.irrefl x
    · exact (g sw hinv).2 y c
  · intro h3 v1 v2 hv1 hv2
    obtain ⟨hr, e2⟩ := PopMax_pick lt h h3 hv1 hv2
    rw [e] at e2
    simp only [Res.ok.injEq, Prod.mk.injEq] at e2
    exact e2.1

/-- Witness of C6 on a heap of seven equal integers. -/
theorem PopMax_preserves_invariant_witness :
    StrictWeak intLt ∧ 1 ≤ Len [0, 0, 0, 0, 0, 0, (0 : Int)] ∧
      MinMaxInv intLt [0, 0, 0, 0, 0, 0, 0] ∧
      ∃ x h1, PopMax intLt [0, 0, 0, 0, 0, 0, 0] = .ok (x, h1) ∧
        Len h1 = Len [0, 0, 0, 0, 0, 0, (0 : Int)] - 1 ∧
        (x :: h1).Perm [0, 0, 0, 0, 0, 0, 0] ∧
        (∀ y ∈ [0, 0, 0, 0, 0, 0, (0 : Int)], intLt x y = false) ∧
        (Len [0, 0, 0, 0, 0, 0, (0 : Int)] ≤ 2 →
          [0, 0, 0, 0, 0, 0, (0 : Int)][Len [0, 0, 0, 0, 0, 0, (0 : Int)] - 1]? = some x) ∧
        (3 ≤ Len [0, 0, 0, 0, 0, 0, (0 : Int)] → ∀ v1 v2,
          [0, 0, 0, 0, 0, 0, (0 : Int)][1]? = some v1 →
          [0, 0, 0, 0, 0, 0, (0 : Int)][2]? = some v2 →
          x = if intLt v2 v1 = true then v1 else v2) ∧
        MinMaxInv intLt h1 :=
  ⟨strictWeak_intLt, by decide, by decide,
    PopMax_preserves_invariant intLt strictWeak_intLt [0, 0, 0, 0, 0, 0, 0]
      (by decide) (by decide)⟩

/-- C10. Size conservation: on every container `Push` returns with one element more and
`Init` returns with the length unchanged; on every container with at least one element
`PopMin` and `PopMax` return with one element less. -/
theorem size_conservation (lt : α → α → Bool) (h : List α) (x : α) :
    (∃ h1, Push lt h x = .ok h1 ∧ Len h1 = Len h + 1) ∧
      (1 ≤ Len h → ∃ y h1, PopMin lt h = .ok (y, h1) ∧ Len h1 + 1 = Len h) ∧
      (1 ≤ Len h → ∃ y h1, PopMax lt h = .ok (y, h1) ∧ Len h1 + 1 = Len h) ∧
      (∃ h1, Init lt h = .ok h1 ∧ Len h1 = Len h) := by
  refine ⟨?_, ?_, ?_, ?_⟩
  · obtain ⟨h1, e, hl, _⟩ := Push_spec lt h x
    exact ⟨h1, e, hl⟩
  · intro hn
    obtain ⟨y, h1, e, _, hl, _⟩ := PopMin_spec lt h hn
    exact ⟨y, h1, e, hl⟩
  · intro hn
    obtain ⟨y, h1, e, hl, _⟩ := PopMax_spec lt h hn
    exact ⟨y, h1, e, hl⟩
  · obtain ⟨h1, e, hl, _⟩ := Init_spec lt h
    exact ⟨h1, e, hl⟩

/-- Witness of C10 on the container `[2, 1, 5]` of the package example, which does not
satisfy the invariant. -/
theorem size_conservation_witness :
    (∃ h1, Push intLt [2, 1, 5] 3 = .ok h1 ∧ Len h1 = Len [2, 1, (5 : Int)] + 1) ∧
      (∃ y h1, PopMin intLt [2, 1, 5] = .ok (y, h1) ∧ Len h1 + 1 = Len [2, 1, (5 : Int)]) ∧
      (∃ y h1, PopMax intLt [2, 1, 5] = .ok (y, h1) ∧ Len h1 + 1 = Len [2, 1, (5 : Int)]) ∧
      (∃ h1, Init intLt [2, 1, 5] = .ok h1 ∧ Len h1 = Len [2, 1, (5 : Int)]) :=
  ⟨(size_conservation intLt [2, 1, 5] 3).1,
    (size_conservation intLt [2, 1, 5] 3).2.1 (by decide),
    (size_conservation intLt [2, 1, 5] 3).2.2.1 (by decide),
    (size_conservation intLt [2, 1, 5] 3).2.2.2⟩

/-- C7. Sorted drain by `PopMin`: for every list `xs` of integers, `Init` on `xs`
followed by one `PopMin` for each element returns, in order, the ascending sort of `xs`
(a non-decreasing sequence of the length of `xs` that is a permutation of `xs`) and
leaves the container empty. -/
theorem drainMin_sorted (xs : List Int) :
    ∃ out, drainMin xs = .ok (out, []) ∧ out.length = xs.length ∧
      List.Sorted (fun a b => a ≤ b) out ∧ out.Perm xs ∧
      out = xs.insertionSort (fun a b => a ≤ b) := by
  obtain ⟨h, e, hl, hp, g⟩ := Init_spec intLt xs
  obtain ⟨out, e2, p2, s2⟩ := popAll_min_spec strictWeak_intLt xs.length h hl.symm
    (g strictWeak_intLt)
  have hs : List.Sorted (fun a b : Int => a ≤ b) out := by
    refine List.Pairwise.imp ?_ s2
    intro a b hab
    exact (intLt_false_iff b a).1 hab
  have hperm : out.Perm xs := p2.trans hp
  refine ⟨out, ?_, hperm.length_eq, hs, hperm, ?_⟩
  · simp only [drainMin, e, ok_bind, Len]
    exact e2
  · exact List.eq_of_perm_of_sorted
      (hperm.trans (List.perm_insertionSort (fun a b : Int => a ≤ b) xs).symm) hs
      (List.sorted_insertionSort (fun a b : Int => a ≤ b) xs)

/-- The run of `TestMin`: the integers `0..20` come out as `0, 1, …, 20`. -/
theorem drainMin_zero_to_twenty :
    drainMin [0, 1, 2, 3, 4, 5, 6, 7, 8, 9, 10, 11, 12, 13, 14, 15, 16, 17, 18, 19, 20] =
      .ok ([0, 1, 2, 3, 4, 5, 6, 7, 8, 9, 10, 11, 12, 13, 14, 15, 16, 17, 18, 19, 20], []) := by
  decide

/-- C8. Sorted drain by `PopMax`: for every list `xs` of integers, `Init` on `xs`
followed by one `PopMax` for each element returns, in order, the descending sort of `xs`
(a non-increasing sequence of the length of `xs` that is a permutation of `xs`) and
leaves the container empty. -/
theorem drainMax_sorted (xs : List Int) :
    ∃ out, drainMax xs = .ok (out, []) ∧ out.length = xs.length ∧
      List.Sorted (fun a b => a ≥ b) out ∧ out.Perm xs ∧
      out = xs.insertionSort (fun a b => a ≥ b) := by
  obtain ⟨h, e, hl, hp, g⟩ := Init_spec intLt xs
  obtain ⟨out, e2, p2, s2⟩ := popAll_max_spec strictWeak_intLt xs.length h hl.symm
    (g strictWeak_intLt)
  have hs : List.Sorted (fun a b : Int => a ≥ b) out := by
    refine List.Pairwise.imp ?_ s2
    intro a b hab
    exact (intLt_false_iff a b).1 hab
  have hperm : out.Perm xs := p2.trans hp
  refine ⟨out, ?_, hperm.length_eq, hs, hperm, ?_⟩
  · simp only [drainMax, e, ok_bind, Len]
    exact e2
  · exact List.eq_of_perm_of_sorted
      (hperm.trans (List.perm_insertionSort (fun a b : Int => a ≥ b) xs).symm) hs
      (List.sorted_insertionSort (fun a b : Int => a ≥ b) xs)

/-- The run of `TestMax`: the integers `0..20` come out as `20, 19, …, 0`. -/
theorem drainMax_zero_to_twenty :
    drainMax [0, 1, 2, 3, 4, 5, 6, 7, 8, 9, 10, 11, 12, 13, 14, 15, 16, 17, 18, 19, 20] =
      .ok ([20, 19, 18, 17, 16, 15, 14, 13, 12, 11, 10, 9, 8, 7, 6, 5, 4, 3, 2, 1, 0], []) := by
  decide

/-- C9. The heap is a double-ended priority queue under interleaved use: start from
`Init` of any list `xs` of integers (the empty container for `xs = []`) and make any
finite sequence of `Push`, `PopMin` and `PopMax` calls.  Whenever the reference multiset
goes through the sequence without a pop on the empty multiset, the heap returns from
every call, every `PopMin` returns the minimum and every `PopMax` the maximum of the
elements inserted and not yet popped (the outputs are those of the reference), and the
heap ends with the elements of the reference multiset. -/
theorem heap_simulates_reference (xs : List Int) (ops : List Op) (outs t : List Int)
    (href : runRef ops xs = some (outs, t)) :
    ∃ h, runFromInit xs ops = .ok (outs, h) ∧ h.Perm t := by
  obtain ⟨h0, e, _, hp, g⟩ := Init_spec intLt xs
  obtain ⟨h1, e1, p1, _⟩ := runHeap_simulates ops h0 xs outs t (g strictWeak_intLt) hp href
  refine ⟨h1, ?_, p1⟩
  simp only [runFromInit, e, ok_bind]
  exact e1

set_option maxRecDepth 100000 in
/-- Witness of C9 on the run of `Test`: `Init` on `20, …, 11`, `Push` of `10, …, 1`, then
`PopMin` alternating with `Push(20+i)`; the pops return `1, 2, 3, …` in order. -/
theorem heap_simulates_reference_witness :
    runRef testOps [20, 19, 18, 17, 16, 15, 14, 13, 12, 11] =
        some ([1, 2, 3, 4, 5, 6, 7, 8, 9, 10, 11, 12, 13, 14, 15, 16, 17, 18, 19, 20, 21, 22,
          23, 24, 25, 26, 27, 28, 29, 30, 31, 32, 33, 34, 35, 36, 37, 38, 39], []) ∧
      ∃ h, runFromInit [20, 19, 18, 17, 16, 15, 14, 13, 12, 11] testOps =
          .ok ([1, 2, 3, 4, 5, 6, 7, 8, 9, 10, 11, 12, 13, 14, 15, 16, 17, 18, 19, 20, 21, 22,
            23, 24, 25, 26, 27, 28, 29, 30, 31, 32, 33, 34, 35, 36, 37, 38, 39], h) ∧
        h.Perm [] :=
  ⟨by decide,
    heap_simulates_reference [20, 19, 18, 17, 16, 15, 14, 13, 12, 11] testOps _ _ (by decide)⟩

/-- C11. Popping an empty heap is a fault, not a value: on the empty slice-backed
container `PopMin` and `PopMax` both panic with an index out of range and return no
element; on every container with at least one element both return (every index access
is in bounds). -/
theorem pop_faults_only_on_empty (lt : α → α → Bool) :
    PopMin lt [] = .fault .indexOutOfRange ∧ PopMax lt [] = .fault .indexOutOfRange ∧
      ∀ h : List α, 1 ≤ Len h →
        (∃ x h1, PopMin lt h = .ok (x, h1)) ∧ (∃ x h1, PopMax lt h = .ok (x, h1)) := by
  refine ⟨?_, ?_, ?_⟩
  · simp [PopMin, Len, Swap, index]
  · simp [PopMax, Len, Pop, index]
  · intro h hn
    obtain ⟨x, h1, e, _⟩ := PopMin_spec lt h hn
    obtain ⟨y, h2, e2, _⟩ := PopMax_spec lt h hn
    exact ⟨⟨x, h1, e⟩, ⟨y, h2, e2⟩⟩

/-- Witness of C11 on the container `[2, 1, 5]` of the package example. -/
theorem pop_faults_only_on_empty_witness :
    PopMin intLt [] = .fault .indexOutOfRange ∧ PopMax intLt [] = .fault .indexOutOfRange ∧
      (∃ x h1, PopMin intLt [2, 1, 5] = .ok (x, h1)) ∧
      (∃ x h1, PopMax intLt [2, 1, 5] = .ok (x, h1)) :=
  ⟨(pop_faults_only_on_empty intLt).1, (pop_faults_only_on_empty intLt).2.1,
    (pop_faults_only_on_empty intLt).2.2 [2, 1, 5] (by decide)⟩

/-- C12 as stated fails on the `Remove` modelled from the specification: the heap
`0, 50, 100, 10, 20, 60, 70, 40, 45, 30, 35, 90` satisfies the min-max invariant, and
`Remove` at index 3 returns the element `10` that was there, but the eleven elements it
leaves break the invariant (index 1, on a max level, holds `50` above its grandchild
`90` at index 7). -/
theorem Remove_breaks_invariant :
    MinMaxInv intLt [0, 50, 100, 10, 20, 60, 70, 40, 45, 30, 35, 90] ∧
      Remove intLt [0, 50, 100, 10, 20, 60, 70, 40, 45, 30, 35, 90] 3 =
        .ok (10, [0, 50, 100, 40, 20, 60, 70, 90, 45, 30, 35]) ∧
      ¬ MinMaxInv intLt [0, 50, 100, 40, 20, 60, 70, 90, 45, 30, 35] := by
  decide

/-- C12, amended, on the `Remove` modelled from the specification.  For a strict weak
ordering, every container that satisfies the min-max invariant and every index `i` with
`0 ≤ i < n`: `Remove(h, i)` returns the element that was at index `i`, the `n-1` elements
it leaves are the other elements of the container, and each of them is in order with its
children, which is the order `myHeap.verify` checks after every `Remove`.  The order
between an element and its grandchildren is not promised. -/
theorem Remove_returns_element (lt : α → α → Bool) (sw : StrictWeak lt) (h : List α) (i : Nat)
    (hinv : MinMaxInv lt h) (hi : i < Len h) :
    ∃ x h1, Remove lt h i = .ok (x, h1) ∧ h[i]? = some x ∧ Len h1 = Len h - 1 ∧
      (x :: h1).Perm h ∧ ChildInv lt h1 := by
  obtain ⟨x, h1, e, hx, hlen, hp, hc⟩ := Remove_children lt h i hi
  exact ⟨x, h1, e, hx, by simp only [Len]; omega, hp, hc sw hinv⟩

/-- Witness of C12 (amended): removing index 3 of a heap of twelve integers. -/
theorem Remove_returns_element_witness :
    StrictWeak intLt ∧ MinMaxInv intLt [0, 50, 100, 10, 20, 60, 70, 40, 45, 30, 35, 90] ∧
      3 < Len [0, 50, 100, 10, 20, 60, 70, 40, 45, 30, 35, 90] ∧
      ∃ x h1, Remove intLt [0, 50, 100, 10, 20, 60, 70, 40, 45, 30, 35, 90] 3 = .ok (x, h1) ∧
        ([0, 50, 100, 10, 20, 60, 70, 40, 45, 30, 35, 90] : List Int)[(3 : Nat)]? = some x ∧
        Len h1 = Len [0, 50, 100, 10, 20, 60, 70, 40, 45, 30, 35, 90] - 1 ∧
        (x :: h1).Perm [0, 50, 100, 10, 20, 60, 70, 40, 45, 30, 35, 90] ∧
        ChildInv intLt h1 :=
  ⟨strictWeak_intLt, by decide, by decide,
    Remove_returns_element intLt strictWeak_intLt
      [0, 50, 100, 10, 20, 60, 70, 40, 45, 30, 35, 90] 3 (by decide) (by decide)⟩

/-- C13. Sift-down restores the subtree invariant: for a bound `n ≤ Len h` and an index
`m < n`, if every index of the subtree rooted at `m` other than `m` satisfies its
min-max invariant condition restricted to indices below `n`, then `down(h, m, n)`
returns a container with the same elements (same length, a permutation of `h`, every
position outside the subtree of `m` and every position from `n` on unchanged) in which
every index of the subtree rooted at `m`, `m` included, satisfies its condition
restricted to indices below `n`. -/
theorem down_restores_subtree (lt : α → α → Bool) (sw : StrictWeak lt) (h : List α)
    (m n : Nat) (hn : n ≤ Len h) (_hm : m < n)
    (pre : ∀ k, Sub m k → k ≠ m → InvAt lt h n k) :
    ∃ h1, down lt h m n = .ok h1 ∧ Len h1 = Len h ∧ h1.Perm h ∧
      (∀ k, (¬ Sub m k ∨ n ≤ k) → h1[k]? = h[k]?) ∧
      ∀ k, Sub m k → InvAt lt h1 n k := by
  obtain ⟨h1, e, r⟩ := down_rel lt h m n hn
  refine ⟨h1, e, r.length_eq, r.perm, r.frame,
    fun k sk => invAt_of_goodAt (r.good sw rfl hn ?_ k sk)⟩
  intro k sk hne
  refine goodAt_of_invAt sw hn ?_
  intro j sj
  have h1 := sk.le
  have h2 := sj.le
  exact pre j (sk.trans sj) (by omega)

/-- Witness of C13: sift-down at index 1 of a container whose root and index 1 are out
of place. -/
theorem down_restores_subtree_witness :
    StrictWeak intLt ∧ 9 ≤ Len [9, 1, 8, 3, 4, 5, 6, 7, (5 : Int)] ∧ 1 < 9 ∧
      (∀ k, Sub 1 k → k ≠ 1 → InvAt intLt [9, 1, 8, 3, 4, 5, 6, 7, 5] 9 k) ∧
      ∃ h1, down intLt [9, 1, 8, 3, 4, 5, 6, 7, 5] 1 9 = .ok h1 ∧
        Len h1 = Len [9, 1, 8, 3, 4, 5, 6, 7, (5 : Int)] ∧
        h1.Perm [9, 1, 8, 3, 4, 5, 6, 7, 5] ∧
        (∀ k, (¬ Sub 1 k ∨ 9 ≤ k) → h1[k]? = [9, 1, 8, 3, 4, 5, 6, 7, (5 : Int)][k]?) ∧
        ∀ k, Sub 1 k → InvAt intLt h1 9 k :=
  have pre : ∀ k, Sub 1 k → k ≠ 1 → InvAt intLt [9, 1, 8, 3, 4, 5, 6, 7, 5] 9 k := by
    intro k s hne
    by_cases hk : k < 9
    · have hall : ∀ i, i < 9 → i ≠ 0 → i ≠ 1 →
          InvAt intLt [9, 1, 8, 3, 4, 5, 6, 7, 5] 9 i := by decide
      have := s.le
      exact hall k hk (by omega) hne
    · intro j hj hc
      have := (cand_bounds hc).1
      simp only [lchild] at this
      omega
  ⟨strictWeak_intLt, by decide, by decide, pre,
    down_restores_subtree intLt strictWeak_intLt [9, 1, 8, 3, 4, 5, 6, 7, 5] 1 9
      (by decide) (by decide) pre⟩

/-- C14. Sift-down touches only its own subtree and range: for a bound `n ≤ Len h` and
an index `m`, `down(h, m, n)` returns, and every position that is neither `m` nor a
descendant of `m`, and every position from `n` on, holds the same element as before. -/
theorem down_frame (lt : α → α → Bool) (h : List α) (m n : Nat) (hn : n ≤ Len h) :
    ∃ h1, down lt h m n = .ok h1 ∧ ∀ k, (¬ Sub m k ∨ n ≤ k) → h1[k]? = h[k]? := by
  obtain ⟨h1, e, r⟩ := down_rel lt h m n hn
  exact ⟨h1, e, r.frame⟩

/-- Witness of C14: the sift-down of `PopMin` on `2, 1, 5, 9` after the exchange of the
root with the last element, over the first three elements. -/
theorem down_frame_witness :
    3 ≤ Len [9, 1, 5, (2 : Int)] ∧
      ∃ h1, down intLt [9, 1, 5, 2] 0 3 = .ok h1 ∧
        ∀ k, (¬ Sub 0 k ∨ 3 ≤ k) → h1[k]? = [9, 1, 5, (2 : Int)][k]? :=
  ⟨by decide, down_frame intLt [9, 1, 5, 2] 0 3 (by decide)⟩

/-- C15 as stated fails on two elements: `1, 5` satisfies the min-max invariant and has
two elements, yet its root `1` is `Less` than the element `5`, so the root is not a
global maximum. -/
theorem root_not_max_of_two :
    MinMaxInv intLt [1, 5] ∧ Len [1, (5 : Int)] = 2 ∧ [1, (5 : Int)][0]? = some 1 ∧
      (5 : Int) ∈ [1, (5 : Int)] ∧ intLt 1 5 = true := by
  decide

/-- C15, amended. In every non-empty sequence that satisfies the min-max invariant the
element at index 0 is a global minimum, and a global maximum is the root itself when
the sequence has one element, the root's only child (index 1) when it has two, and one
of the root's children (index 1 or 2) when it has three or more. -/
theorem extremes_location (lt : α → α → Bool) (sw : StrictWeak lt) (h : List α)
    (hn : 1 ≤ Len h) (hinv : MinMaxInv lt h) :
    (∃ x, h[0]? = some x ∧ ∀ y ∈ h, lt y x = false) ∧
      (Len h = 1 → ∃ x, h[0]? = some x ∧ ∀ y ∈ h, lt x y = false) ∧
      (Len h = 2 → ∃ x, h[1]? = some x ∧ ∀ y ∈ h, lt x y = false) ∧
      (3 ≤ Len h → ∃ x, (h[1]? = some x ∨ h[2]? = some x) ∧ ∀ y ∈ h, lt x y = false) :=
  extremes_spec sw hn hinv

/-- Witness of C15 (amended) on a heap of ten integers. -/
theorem extremes_location_witness :
    StrictWeak intLt ∧ 1 ≤ Len [2, 16, 13, 3, 10, 8, 12, 6, 12, (12 : Int)] ∧
      MinMaxInv intLt [2, 16, 13, 3, 10, 8, 12, 6, 12, 12] ∧
      (∃ x, [2, 16, 13, 3, 10, 8, 12, 6, 12, (12 : Int)][0]? = some x ∧
        ∀ y ∈ [2, 16, 13, 3, 10, 8, 12, 6, 12, (12 : Int)], intLt y x = false) ∧
      ∃ x, ([2, 16, 13, 3, 10, 8, 12, 6, 12, (12 : Int)][1]? = some x ∨
          [2, 16, 13, 3, 10, 8, 12, 6, 12, (12 : Int)][2]? = some x) ∧
        ∀ y ∈ [2, 16, 13, 3, 10, 8, 12, 6, 12, (12 : Int)], intLt x y = false :=
  ⟨strictWeak_intLt, by decide, by decide,
    (extremes_location intLt strictWeak_intLt [2, 16, 13, 3, 10, 8, 12, 6, 12, 12]
      (by decide) (by decide)).1,
    (extremes_location intLt strictWeak_intLt [2, 16, 13, 3, 10, 8, 12, 6, 12, 12]
      (by decide) (by decide)).2.2.2 (by decide)⟩

/-- C18. No operation loses, duplicates or invents elements: the contents after `Init`
are a permutation of the contents before; the contents after `Push(h, x)` are a
permutation of the old contents plus `x`; and on a container with at least one element
the element returned by `PopMin` or `PopMax` together with the remaining contents is a
permutation of the old contents. -/
theorem contents_preserved (lt : α → α → Bool) (h : List α) (x : α) :
    (∃ h1, Init lt h = .ok h1 ∧ h1.Perm h) ∧
      (∃ h1, Push lt h x = .ok h1 ∧ h1.Perm (h ++ [x])) ∧
      (1 ≤ Len h → ∃ y h1, PopMin lt h = .ok (y, h1) ∧ (y :: h1).Perm h) ∧
      (1 ≤ Len h → ∃ y h1, PopMax lt h = .ok (y, h1) ∧ (y :: h1).Perm h) := by
  refine ⟨?_, ?_, ?_, ?_⟩
  · obtain ⟨h1, e, _, p, _⟩ := Init_spec lt h
    exact ⟨h1, e, p⟩
  · obtain ⟨h1, e, _, p, _⟩ := Push_spec lt h x
    exact ⟨h1, e, p.trans (List.perm_append_singleton x h).symm⟩
  · intro hn
    obtain ⟨y, h1, e, _, _, p, _⟩ := PopMin_spec lt h hn
    exact ⟨y, h1, e, p⟩
  · intro hn
    obtain ⟨y, h1, e, _, p, _⟩ := PopMax_spec lt h hn
    exact ⟨y, h1, e, p⟩

/-- Witness of C18 on the container `[2, 1, 5]` of the package example. -/
theorem contents_preserved_witness :
    (∃ h1, Init intLt [2, 1, 5] = .ok h1 ∧ h1.Perm [2, 1, 5]) ∧
      (∃ h1, Push intLt [2, 1, 5] 3 = .ok h1 ∧ h1.Perm ([2, 1, 5] ++ [3])) ∧
      (∃ y h1, PopMin intLt [2, 1, 5] = .ok (y, h1) ∧ (y :: h1).Perm [2, 1, 5]) ∧
      (∃ y h1, PopMax intLt [2, 1, 5] = .ok (y, h1) ∧ (y :: h1).Perm [2, 1, 5]) :=
  ⟨(contents_preserved intLt [2, 1, 5] 3).1, (contents_preserved intLt [2, 1, 5] 3).2.1,
    (contents_preserved intLt [2, 1, 5] 3).2.2.1 (by decide),
    (contents_preserved intLt [2, 1, 5] 3).2.2.2 (by decide)⟩

/-- C20 as stated fails at the largest index: on 64-bit words `i = 2^63 - 1` has `i + 1`
representable and `level(i) = 63`, but `lchild(i)` wraps around to `-1` and `rchild(i)`
to `0`, whose levels are `-1` and `0`, not `64`. -/
theorem level_of_wrapped_child :
    (2 ^ 63 - 1 : Int) + 1 < 2 ^ 64 ∧ levelInt 64 (2 ^ 63 - 1) = 63 ∧
      lchildInt 64 (2 ^ 63 - 1) = -1 ∧ levelInt 64 (lchildInt 64 (2 ^ 63 - 1)) = -1 ∧
      rchildInt 64 (2 ^ 63 - 1) = 0 ∧ levelInt 64 (rchildInt 64 (2 ^ 63 - 1)) = 0 := by
  decide

/-- C20, amended. `level` computes the tree depth: on machine words of `w` bits, for every
index `i ≥ 0` that a Go `int` holds (`i < 2^(w-1)`, so `i + 1` is representable),
`level(i)` is `⌊log2(i+1)⌋`, that is `2^level(i) ≤ i+1 < 2^(level(i)+1)`, and the parent
of every such `i > 0` is on a level of the other kind; for every `i` whose children are
representable (`2i + 2 < 2^(w-1)`), `lchild` and `rchild` do not wrap around and both
children are one level below `i`. -/
theorem level_is_depth (w i : Nat) (hw : 0 < w) (hi : i < 2 ^ (w - 1)) :
    levelInt w i = level i ∧ levelWord w i = level i ∧ level i = Nat.log 2 (i + 1) ∧
      2 ^ level i ≤ i + 1 ∧ i + 1 < 2 ^ (level i + 1) ∧
      (0 < i → isMinLevelInt w (parentInt w i) = !isMinLevelInt w i) ∧
      (2 * i + 2 < 2 ^ (w - 1) →
        lchildInt w i = lchild i ∧ rchildInt w i = rchild i ∧
          levelInt w (lchildInt w i) = levelInt w i + 1 ∧
          levelInt w (rchildInt w i) = levelInt w i + 1) := by
  have hp : 2 ^ w = 2 * 2 ^ (w - 1) := by
    obtain ⟨k, rfl⟩ : ∃ k, w = k + 1 := ⟨w - 1, by omega⟩
    rw [Nat.add_sub_cancel, Nat.pow_succ]
    omega
  have hi1 : i + 1 < 2 ^ w := by omega
  refine ⟨levelInt_eq w i hi1, levelWord_eq w i hi1, level_eq_log i, (level_bounds i).1,
    (level_bounds i).2, ?_, ?_⟩
  · intro h0
    have hpi : parent i + 1 < 2 ^ w := by simp only [parent]; omega
    rw [parentInt_eq w i hw h0 hi, isMinLevelInt_eq w (parent i) hpi, isMinLevelInt_eq w i hi1]
    exact isMinLevel_parent h0
  · intro hc
    have hcI : ((2 * i + 2 : Nat) : Int) < ((2 ^ (w - 1) : Nat) : Int) := by exact_mod_cast hc
    push_cast at hcI
    have el : lchildInt w i = lchild i := by
      unfold lchildInt lchild
      rw [wrapInt_eq w hw ((i : Int) * 2) (by omega) (by omega),
        wrapInt_eq w hw ((i : Int) * 2 + 1) (by omega) (by omega)]
      push_cast
      rfl
    have er : rchildInt w i = rchild i := by
      unfold rchildInt rchild
      rw [wrapInt_eq w hw ((i : Int) * 2) (by omega) (by omega),
        wrapInt_eq w hw ((i : Int) * 2 + 2) (by omega) (by omega)]
      push_cast
      rfl
    refine ⟨el, er, ?_, ?_⟩
    · rw [el, levelInt_eq w (lchild i) (by simp only [lchild]; omega), levelInt_eq w i hi1,
        level_lchild]
      push_cast
      rfl
    · rw [er, levelInt_eq w (rchild i) (by simp only [rchild]; omega), levelInt_eq w i hi1,
        level_rchild]
      push_cast
      rfl

/-- Witness of C20 (amended) at index 12 on 64-bit words. -/
theorem level_is_depth_witness :
    0 < 64 ∧ 12 < 2 ^ (64 - 1) ∧ 0 < 12 ∧ 2 * 12 + 2 < 2 ^ (64 - 1) ∧
      levelInt 64 (12 : Nat) = level 12 ∧ level 12 = Nat.log 2 (12 + 1) ∧
      2 ^ level 12 ≤ 12 + 1 ∧ 12 + 1 < 2 ^ (level 12 + 1) ∧
      isMinLevelInt 64 (parentInt 64 (12 : Nat)) = !isMinLevelInt 64 (12 : Nat) ∧
      lchildInt 64 (12 : Nat) = lchild 12 ∧ rchildInt 64 (12 : Nat) = rchild 12 ∧
      levelInt 64 (lchildInt 64 (12 : Nat)) = levelInt 64 (12 : Nat) + 1 ∧
      levelInt 64 (rchildInt 64 (12 : Nat)) = levelInt 64 (12 : Nat) + 1 :=
  have t := level_is_depth 64 12 (by decide) (by norm_num)
  ⟨by decide, by norm_num, by decide, by norm_num, t.1, t.2.2.1, t.2.2.2.1, t.2.2.2.2.1,
    t.2.2.2.2.2.1 (by decide), (t.2.2.2.2.2.2 (by norm_num)).1,
    (t.2.2.2.2.2.2 (by norm_num)).2.1, (t.2.2.2.2.2.2 (by norm_num)).2.2.1,
    (t.2.2.2.2.2.2 (by norm_num)).2.2.2⟩

/-- C16 as stated fails on a tie on a max level.  On key/payload pairs ordered by key,
index 1 of `(0,0), (5,1), (9,9), (5,2)` is on a max level, its only child or grandchild
below 4 is index 3, and the element at index 1 is not `Less` than that one (the keys are
equal); yet `down(h, 1, 4)` exchanges the two. -/
theorem down_swaps_on_tie :
    StrictWeak ltKey ∧ isMinLevel 1 = false ∧ hasChildren 1 4 = true ∧
      (∀ k, k < 4 → isChildOrGrandchild 1 k = true → k = 3) ∧
      ltKey (5, 1) (5, 2) = false ∧
      down ltKey [(0, 0), (5, 1), (9, 9), (5, 2)] 1 4 =
        .ok [(0, 0), (5, 2), (9, 9), (5, 1)] ∧
      [((0 : Int), (0 : Int)), (5, 2), (9, 9), (5, 1)] ≠ [(0, 0), (5, 1), (9, 9), (5, 2)] :=
  ⟨strictWeak_ltKey, by decide, by decide, by decide, by decide, by decide, by decide⟩

/-- C16, amended. For a strict weak ordering, a bound `n ≤ Len h` and an index `m` with a
child below `n`: let `best` be extremal among the children and grandchildren of `m`
below `n` (no one of them is `Less` than it when `m` is on a min level, it is not `Less`
than any of them when `m` is on a max level).  If `m` is on a min level and `best` is
not `Less` than the element at `m`, or `m` is on a max level and `best` is `Less` than
the element at `m`, then `down(h, m, n)` leaves the container exactly as it was. -/
theorem down_stops_in_order (lt : α → α → Bool) (sw : StrictWeak lt) (h : List α)
    (m n b : Nat) (x y : α) (hn : n ≤ Len h) (_hc : hasChildren m n = true)
    (hx : h[m]? = some x) (_hbn : b < n) (_hbc : isChildOrGrandchild m b = true)
    (_hy : h[b]? = some y)
    (hbest : ∀ k v, k < n → isChildOrGrandchild m k = true → h[k]? = some v →
      above lt (isMinLevel m) y v = true)
    (hstop : (isMinLevel m = true ∧ lt y x = false) ∨ (isMinLevel m = false ∧ lt y x = true)) :
    down lt h m n = .ok h :=
  down_stop_spec sw hn hx hbest hstop

/-- Witness of C16 (amended): index 1 of `0, 9, 8, 3, 4` is on a max level and holds `9`,
the largest of its children `3, 4` is `Less` than `9`. -/
theorem down_stops_in_order_witness :
    StrictWeak intLt ∧ 5 ≤ Len [0, 9, 8, 3, (4 : Int)] ∧ hasChildren 1 5 = true ∧
      [0, 9, 8, 3, (4 : Int)][1]? = some 9 ∧ 4 < 5 ∧ isChildOrGrandchild 1 4 = true ∧
      [0, 9, 8, 3, (4 : Int)][4]? = some 4 ∧
      (isMinLevel 1 = false ∧ intLt 4 9 = true) ∧
      down intLt [0, 9, 8, 3, 4] 1 5 = .ok [0, 9, 8, 3, 4] :=
  have hbest : ∀ k v, k < 5 → isChildOrGrandchild 1 k = true →
      [0, 9, 8, 3, (4 : Int)][k]? = some v → above intLt (isMinLevel 1) 4 v = true := by
    intro k v hk hc hv
    have hb := cand_bounds hc
    simp only [lchild] at hb
    have : k = 3 ∨ k = 4 := by omega
    rcases this with e | e <;> subst e <;> simp at hv <;> subst hv <;> decide
  ⟨strictWeak_intLt, by decide, by decide, by decide, by decide, by decide, by decide,
    by decide,
    down_stops_in_order intLt strictWeak_intLt [0, 9, 8, 3, 4] 1 5 4 9 4 (by decide)
      (by decide) (by decide) (by decide) (by decide) (by decide) hbest
      (Or.inr (by decide))⟩

/-- C17 as stated fails on a tie with the parent on a min level.  On key/payload pairs
ordered by key, index 3 of `(0,0), (5,1), (7,7), (5,2)` is on a min level and its
element compares equal with the parent at index 1 (neither is `Less` than the other);
yet `up(h, 3)` exchanges the two. -/
theorem up_swaps_on_tie :
    StrictWeak ltKey ∧ isMinLevel 3 = true ∧ parent 3 = 1 ∧
      ltKey (5, 2) (5, 1) = false ∧ ltKey (5, 1) (5, 2) = false ∧
      up ltKey [(0, 0), (5, 1), (7, 7), (5, 2)] 3 = .ok [(0, 0), (5, 2), (7, 7), (5, 1)] ∧
      [((0 : Int), (0 : Int)), (5, 2), (7, 7), (5, 1)] ≠ [(0, 0), (5, 1), (7, 7), (5, 2)] :=
  ⟨strictWeak_ltKey, by decide, by decide, by decide, by decide, by decide, by decide⟩

/-- C17, amended. `up(h, i)` at an index `i > 0` exchanges the elements at `i` and
`parent(i)` if and only if `Less(i, parent(i)) != isMinLevel(i)`: `i` is on a min level
and element `i` is not `Less` than its parent (the parent is `Less` than it, or the two
compare equal), or `i` is on a max level and element `i` is `Less` than its parent.  It
then goes on from `parent(i)` in the opposite direction, and otherwise from `i` in its
own direction.  A round of the grandparent loop at `j` exchanges `j` with its
grandparent and goes on from there if and only if `Less(j, grandparent) == min`:
element `j` is `Less` than its grandparent on min levels, is not `Less` than it on max
levels; otherwise the loop returns the container as it is.  At the root `up` changes
nothing. -/
theorem up_swap_rule (lt : α → α → Bool) (h : List α) (i : Nat) (vi vp : α) (h0 : 0 < i)
    (hvi : h[i]? = some vi) (hvp : h[parent i]? = some vp) :
    up lt h i =
        (if (isMinLevel i = true ∧ lt vi vp = false) ∨ (isMinLevel i = false ∧ lt vi vp = true)
        then upMinMax lt (i + 1) ((h.set i vp).set (parent i) vi) (parent i) (!isMinLevel i)
        else upMinMax lt (i + 1) h i (isMinLevel i)) ∧
      (∀ (g : List α) (fuel j : Nat) (min : Bool) (vj vg : α), 2 < j → g[j]? = some vj →
        g[parent (parent j)]? = some vg →
        upMinMax lt (fuel + 1) g j min =
          if (min = true ∧ lt vj vg = true) ∨ (min = false ∧ lt vj vg = false)
          then upMinMax lt fuel ((g.set j vg).set (parent (parent j)) vj)
            (parent (parent j)) min
          else .ok g) ∧
      up lt h 0 = .ok h :=
  ⟨up_parent_rule lt h0 hvi hvp,
    fun _ fuel _ min _ _ hj hvj hvg => upMinMax_round_rule lt fuel min hj hvj hvg,
    up_root lt h⟩

/-- Witness of C17 (amended) at index 3 of `0, 9, 8, 10`: the element `10` on a min level
is not `Less` than its parent `9`, so the two are exchanged. -/
theorem up_swap_rule_witness :
    0 < 3 ∧ [0, 9, 8, (10 : Int)][3]? = some 10 ∧ [0, 9, 8, (10 : Int)][parent 3]? = some 9 ∧
      up intLt [0, 9, 8, 10] 3 =
        (if (isMinLevel 3 = true ∧ intLt 10 9 = false) ∨
            (isMinLevel 3 = false ∧ intLt 10 9 = true)
        then upMinMax intLt (3 + 1) (([0, 9, 8, 10].set 3 9).set (parent 3) 10) (parent 3)
          (!isMinLevel 3)
        else upMinMax intLt (3 + 1) [0, 9, 8, 10] 3 (isMinLevel 3)) :=
  ⟨by decide, by decide, by decide,
    (up_swap_rule intLt [0, 9, 8, 10] 3 10 9 (by decide) (by decide) (by decide)).1⟩

/-- C19. Every operation terminates.  On every container, for every bound `n` and index
`m`, the loop of `downMinMax` ends within `n - m + 1` evaluations of its condition (an
iteration that goes on moves `m` to a grandchild, an index from `4m+3` on and below
`n`), and the loop of `upMinMax` at `i` ends within `i + 1` evaluations (an iteration
moves `i` to its grandparent, a smaller index): more fuel never changes the result and
the fuel never runs out.  Hence `Init`, `Push`, `PopMin` and `PopMax` never run out of
fuel: each of them returns, or panics on an index out of range. -/
theorem operations_terminate (lt : α → α → Bool) (h : List α) :
    (∀ fuel m n min, n - m < fuel →
        downMinMax lt fuel h m n min ≠ .fault .outOfFuel ∧
          downMinMax lt fuel h m n min = downMinMax lt (n - m + 1) h m n min) ∧
      (∀ fuel i min, i < fuel →
        upMinMax lt fuel h i min ≠ .fault .outOfFuel ∧
          upMinMax lt fuel h i min = upMinMax lt (i + 1) h i min) ∧
      (∀ m, lchild (lchild m) = 4 * m + 3) ∧ (∀ i, 2 < i → parent (parent i) < i) ∧
      Init lt h ≠ .fault .outOfFuel ∧ (∀ x, Push lt h x ≠ .fault .outOfFuel) ∧
      PopMin lt h ≠ .fault .outOfFuel ∧ PopMax lt h ≠ .fault .outOfFuel := by
  refine ⟨?_, ?_, ?_, ?_, ?_, ?_, PopMin_noFuel lt h, PopMax_noFuel lt h⟩
  · intro fuel m n min hf
    exact ⟨downMinMax_noFuel n min fuel h m hf,
      downMinMax_fuel n min fuel (n - m + 1) h m hf (by omega)⟩
  · intro fuel i min hf
    exact ⟨upMinMax_noFuel min fuel h i hf, upMinMax_fuel min fuel (i + 1) h i hf (by omega)⟩
  · intro m; simp only [lchild]; omega
  · intro i hi; simp only [parent]; omega
  · obtain ⟨h1, e, _⟩ := Init_spec lt h
    rw [e]; simp
  · intro x
    obtain ⟨h1, e, _⟩ := Push_spec lt h x
    rw [e]; simp

/-- Witness of C19: the sift-down of `9, 1, 5, 2` from the root with fuel 7, and the loop
of `upMinMax` from index 3 with fuel 5. -/
theorem operations_terminate_witness :
    4 - 0 < 7 ∧ 3 < 5 ∧
      downMinMax intLt 7 [9, 1, 5, 2] 0 4 true ≠ .fault .outOfFuel ∧
      downMinMax intLt 7 [9, 1, 5, 2] 0 4 true =
        downMinMax intLt (4 - 0 + 1) [9, 1, 5, 2] 0 4 true ∧
      upMinMax intLt 5 [9, 1, 5, 2] 3 true ≠ .fault .outOfFuel ∧
      upMinMax intLt 5 [9, 1, 5, 2] 3 true = upMinMax intLt (3 + 1) [9, 1, 5, 2] 3 true :=
  ⟨by decide, by decide,
    ((operations_terminate intLt [9, 1, 5, 2]).1 7 0 4 true (by decide)).1,
    ((operations_terminate intLt [9, 1, 5, 2]).1 7 0 4 true (by decide)).2,
    ((operations_terminate intLt [9, 1, 5, 2]).2.1 5 3 true (by decide)).1,
    ((operations_terminate intLt [9, 1, 5, 2]).2.1 5 3 true (by decide)).2⟩

end Claims

end MinMaxHeap
